import Mathlib

/-!
# Chained hash table of `HashTable.c`

A shallow embedding of the chained hash table (string key to `int` value) of
`DataStructures/Structures/HashTable.c` and the properties its design document states.

Conventions of the embedding.

* `size_t` values are natural numbers; the hash functions reduce modulo `2 ^ 64`.
* A C string (`char *`) is the list of the `int` values of its characters; a scan
  stops at the first `0` or at the end of the list, whichever comes first.
* A `HashTableEntry *` is a list of entries: `[]` is `NULL`, and `e :: rest` is a
  pointer to the entry with the fields of `e` whose `next` pointer is `rest`. Chains are
  finite and acyclic: `hst_insert`, the only function that links entries, puts a fresh
  entry behind the last one.
* The bucket array is the list of its chains; `buckets[pos]` is read with the default
  `NULL`, which is never taken on a table whose array has `size` slots, `size > 0`.
* `malloc` may fail in `hst_init_table`, which tests it: the outcome of each call is a
  parameter of the model.
* A `HashTable *` argument is an `Option HashTable`, `none` being `NULL`.
* A function that writes through a pointer returns the written value next to its
  `Status`.
-/

namespace HashTableC

/-! ## Data model -/

/-- Modelled from the spec: the `Status` enumeration of `Core.h`, which is not among the
sources. Its constructors are the status codes the source files return. -/
inductive Status where
  | DS_OK
  | DS_ERR_INVALID_POSITION
  | DS_ERR_INVALID_OPERATION
  | DS_ERR_INVALID_SIZE
  | DS_ERR_NOT_FOUND
  | DS_ERR_ALLOC
  | DS_ERR_UNEXPECTED_RESULT
  | DS_ERR_ITER
  | DS_ERR_NULL_POINTER
  | DS_ERR_OPERATION_FAILED
  deriving DecidableEq, Repr

open Status

/-- The fields `data` and `hash` of `struct HashTableEntry`; the `next` field is the tail
of the list the entry heads. -/
structure HashTableEntry where
  data : Int
  hash : Nat
  deriving DecidableEq, Repr

/-- A `HashTableEntry *`: `NULL` or the entries linked through `next`. -/
abbrev Chain := List HashTableEntry

/-- A C string as the `int` values of its characters. -/
abbrev Key := List Int

/-- The type `Status (*)(char *, size_t *)`: the status and the value left in `*hash`. -/
abbrev HashFunction := Key → Status × Nat

/-- The `struct HashTable`: the bucket array, `size` and `hash_function`. -/
structure HashTable where
  buckets : List Chain
  size : Nat
  hash_function : HashFunction

/-- What a caller's `HashTable *` variable holds once `hst_init_table` has been at it
through `HashTable **`: `NULL`, a constructed table, or a block whose construction stopped
early. In the last case `size` and `hash_function` were never assigned, and the bucket
array is `NULL` (`none`) or an array of which only the first `k` slots were written
(`some k`). -/
inductive TableSlot where
  | null : TableSlot
  | table : HashTable → TableSlot
  | unfinished : Option Nat → TableSlot

/-- The slot of a caller holding a `NULL` or constructed table pointer. -/
def TableSlot.ofPtr : Option HashTable → TableSlot
  | none => TableSlot.null
  | some t => TableSlot.table t

/-! ## Hash functions -/

/-- The loop `while (c = *key++) (*hash) = (((*hash) << 5) + (*hash)) + c;` of
`hash_string_djb2`, on `size_t` arithmetic. -/
def djb2_loop : Key → Nat → Nat
  | [], hash => hash
  | c :: key, hash =>
    if c = 0 then hash
    else djb2_loop key (((((hash <<< 5) % 2 ^ 64 + hash) % 2 ^ 64 : Nat) + c) % 2 ^ 64).toNat

/-- The function `hash_string_djb2`. -/
def hash_string_djb2 : HashFunction :=
  fun key => (DS_OK, djb2_loop key 5381)

/-- The loop `while (c = *key++) (*hash) = c + (((*hash) << 6) + ((*hash) << 16)) - (*hash);`
of `hash_string_sdbm`, on `size_t` arithmetic: `c` is converted to `size_t` by the
addition, and every operation wraps modulo `2 ^ 64`. -/
def sdbm_loop : Key → Nat → Nat
  | [], hash => hash
  | c :: key, hash =>
    if c = 0 then hash
    else sdbm_loop key
      (((c + ((((hash <<< 6) % 2 ^ 64 + (hash <<< 16) % 2 ^ 64) % 2 ^ 64 : Nat) : Int))
        % 2 ^ 64 - hash) % 2 ^ 64).toNat

/-- The function `hash_string_sdbm`. -/
def hash_string_sdbm : HashFunction :=
  fun key => (DS_OK, sdbm_loop key 0)

/-- The characters of the C string at `key`, those before the terminating `0`: what
`strlen` counts and `key[i]` reads. -/
def chars (key : Key) : List Int :=
  key.takeWhile (fun c => c ≠ 0)

/-- One summand `(size_t)pow((key[i] * 31), len - i)` of `hash_string_java`, `c` being
`key[i]` and `e` being `len - i`. The product `key[i] * 31` is an `int`. The call of `pow`
on doubles is given its exact value where that value is a natural number below `2 ^ 53`,
which is a double and converts to `size_t` unchanged; a larger power depends on the
rounding of `pow` and a negative one has no `size_t` value, and neither is given a
value here. -/
def java_term (c : Int) (e : Nat) : Option Nat :=
  if 0 ≤ (c * 31) ^ e ∧ (c * 31) ^ e < 2 ^ 53 then some ((c * 31) ^ e).toNat else none

/-- The loop `for (i = 0; i < len; i++) (*hash) += (size_t)pow((key[i] * 31), len - i);`
of `hash_string_java` from index `i` on, the list holding `key[i]`, `key[i + 1]`, ... -/
def java_loop (len : Nat) : Nat → List Int → Nat → Option Nat
  | _, [], hash => some hash
  | i, c :: rest, hash =>
    match java_term c (len - i) with
    | none => none
    | some p => java_loop len (i + 1) rest ((hash + p) % 2 ^ 64)

/-- The function `hash_string_java`: the status and the value left in `*hash`, or `none`
where a summand has no value in `java_term`. -/
def hash_string_java (key : Key) : Option (Status × Nat) :=
  if (chars key).length = 0 then some (DS_OK, 0)
  else
    match java_loop (chars key).length 0 (chars key) 0 with
    | none => none
    | some hash => some (DS_OK, hash)

/-- The loop of `hash_string_java` from index `i` on, on a platform whose
`(size_t)pow(x, y)` is `term x y` for the `int` `x` and the `size_t` `y`, whatever the
rounding of `pow` and the conversion of its result make of it. -/
def java_loop_on (term : Int → Nat → Nat) (len : Nat) : Nat → List Int → Nat → Nat
  | _, [], hash => hash
  | i, c :: rest, hash =>
    java_loop_on term len (i + 1) rest ((hash + term (c * 31) (len - i) % 2 ^ 64) % 2 ^ 64)

/-- The function `hash_string_java` on a platform whose `(size_t)pow(x, y)` is
`term x y`: the status and the value left in `*hash`. -/
def hash_string_java_on (term : Int → Nat → Nat) : HashFunction :=
  fun key =>
    if (chars key).length = 0 then (DS_OK, 0)
    else (DS_OK, java_loop_on term (chars key).length 0 (chars key) 0)

/-- The characters of an ASCII string literal, as a C string. -/
def cstr (s : String) : Key :=
  s.toList.map (fun c => (c.toNat : Int))

/-! ## The hash functions as the design document words them -/

/-- The djb2 hash in the words of the design document: the accumulator starts at 5381
and, for each byte `c` in order, becomes `acc * 33 + c`, modulo `2 ^ 64`. -/
def djb2_spec (bytes : List Int) : Nat :=
  bytes.foldl (fun acc c => ((acc * 33 + c) % 2 ^ 64).toNat) 5381

/-- The sdbm hash in the words of the design document: the accumulator starts at 0 and,
for each byte `c` in order, becomes `c + (acc << 6) + (acc << 16) - acc`, modulo
`2 ^ 64`. -/
def sdbm_spec (bytes : List Int) : Nat :=
  bytes.foldl (fun acc c => ((c + ((acc <<< 6 : Nat) : Int) + ((acc <<< 16 : Nat) : Int) - acc)
    % 2 ^ 64).toNat) 0

/-- The sdbm hash with the step written as a product: `c + 65599 * acc`, modulo
`2 ^ 64`. -/
def sdbm_mul_spec (bytes : List Int) : Nat :=
  bytes.foldl (fun acc c => ((c + 65599 * acc) % 2 ^ 64).toNat) 0

/-- The polynomial sum of the design document from index `i` on, for a string of `n`
bytes: the byte at index `i` contributes `c * 31 ^ (n - i)`. -/
def java_poly (n : Nat) : Nat → List Int → Int
  | _, [] => 0
  | i, c :: rest => c * 31 ^ (n - i) + java_poly n (i + 1) rest

/-- The java-style hash in the words of the design document: the sum over `i` of
`c_i * 31 ^ (n - i)`, modulo `2 ^ 64`. -/
def java_spec (bytes : List Int) : Nat :=
  (java_poly bytes.length 0 bytes % 2 ^ 64).toNat

/-! ## Initializers -/

/-- The loop of `hst_init_table` over the buckets, at index `i` with `n` buckets to
go: bucket `i` takes the result of `malloc` number `2 + i`; on failure the function
returns with `i + 1` slots written, otherwise the slot is reset to `NULL`. -/
def hst_init_buckets (alloc : Nat → Bool) (i : Nat) : Nat → Except Nat (List Chain)
  | 0 => Except.ok []
  | n + 1 =>
    if alloc (2 + i) then
      match hst_init_buckets alloc (i + 1) n with
      | Except.ok rest => Except.ok ([] :: rest)
      | Except.error k => Except.error k
    else Except.error (i + 1)

/-- The function `hst_init_table`. `alloc k` tells whether the call's `k`-th `malloc`
succeeds (the table is number 0, the bucket array number 1, bucket `i` number `2 + i`);
`hst` is what the caller's pointer held before the call. -/
def hst_init_table (alloc : Nat → Bool) (hst : TableSlot) (size : Nat)
    (function : HashFunction) : Status × TableSlot :=
  if size = 0 then (DS_ERR_INVALID_SIZE, hst)
  else if alloc 0 = false then (DS_ERR_ALLOC, TableSlot.null)
  else if alloc 1 = false then (DS_ERR_ALLOC, TableSlot.unfinished none)
  else
    match hst_init_buckets alloc 0 size with
    | Except.error k => (DS_ERR_ALLOC, TableSlot.unfinished (some k))
    | Except.ok buckets => (DS_OK, TableSlot.table ⟨buckets, size, function⟩)

/-- The function `hst_make_entry`: the new entry, with `next` set to `NULL`. Its `malloc`
is not tested by the source; the embedding covers the runs in which it succeeds. -/
def hst_make_entry (value : Int) (hash : Nat) : Status × Chain :=
  (DS_OK, [⟨value, hash⟩])

/-! ## Insertion -/

/-- The chain walk of `hst_insert`, `scan` being the current entry and `next` what
`scan->next` points to. The second component is `none` when the function returns from
the walk without linking anything, with the status in the first component (`DS_OK` when an
entry with the hash is met, inside or after the loop), and otherwise the chain from `scan`
on once the new entry has been linked after the last one. -/
def hst_insert_scan (value : Int) (hash : Nat) :
    HashTableEntry → Chain → Status × Option Chain
  | scan, [] =>
    if scan.hash = hash then (DS_OK, none)
    else
      let m := hst_make_entry value hash
      if m.1 ≠ DS_OK then (m.1, none)
      else (DS_OK, some (scan :: m.2))
  | scan, nxt :: rest =>
    if scan.hash = hash then (DS_OK, none)
    else
      match hst_insert_scan value hash nxt rest with
      | (st, none) => (st, none)
      | (st, some tail) => (st, some (scan :: tail))

/-- The function `hst_insert`: the status and the table afterwards. -/
def hst_insert (hst : Option HashTable) (key : Key) (value : Int) :
    Status × Option HashTable :=
  match hst with
  | none => (DS_ERR_NULL_POINTER, none)
  | some t =>
    let r := t.hash_function key
    let st := r.1
    let hash := r.2
    if st ≠ DS_OK then (st, some t)
    else
      let pos := hash % t.size
      match t.buckets.getD pos [] with
      | [] =>
        let m := hst_make_entry value hash
        if m.1 ≠ DS_OK then (m.1, some t)
        else (DS_OK, some { t with buckets := t.buckets.set pos m.2 })
      | head :: rest =>
        if head.hash = hash then (DS_OK, some t)
        else
          match hst_insert_scan value hash head rest with
          | (st, none) => (st, some t)
          | (_, some chain) => (DS_OK, some { t with buckets := t.buckets.set pos chain })

/-! ## Resets -/

/-- The function `hst_delete_table`: the status and the caller's pointer afterwards. -/
def hst_delete_table (hst : Option HashTable) : Status × Option HashTable :=
  match hst with
  | none => (DS_ERR_NULL_POINTER, none)
  | some _ => (DS_OK, none)

/-- The function `hst_erase_table`: the status and the caller's pointer afterwards. -/
def hst_erase_table (alloc : Nat → Bool) (hst : Option HashTable) : Status × TableSlot :=
  match hst with
  | none => (DS_ERR_NULL_POINTER, TableSlot.null)
  | some t =>
    let size := t.size
    let function := t.hash_function
    let d := hst_delete_table (some t)
    if d.1 ≠ DS_OK then (d.1, TableSlot.ofPtr d.2)
    else
      let r := hst_init_table alloc (TableSlot.ofPtr d.2) size function
      if r.1 ≠ DS_OK then (r.1, r.2)
      else (DS_OK, r.2)

/-! ## Search -/

/-- The loop `while (scan != NULL)` of `hst_search`: the data of the first entry whose
hash is `hash`, or `none` when the loop ends with `found` still false. -/
def hst_search_scan (hash : Nat) : Chain → Option Int
  | [] => none
  | scan :: next => if scan.hash = hash then some scan.data else hst_search_scan hash next

/-- The function `hst_search`: the status and the value left in `*value`. -/
def hst_search (hst : Option HashTable) (key : Key) : Status × Int :=
  match hst with
  | none => (DS_ERR_NULL_POINTER, 0)
  | some t =>
    let hash := (t.hash_function key).2
    let pos := hash % t.size
    match t.buckets.getD pos [] with
    | [] => (DS_ERR_NOT_FOUND, 0)
    | head :: rest =>
      if rest = [] ∧ head.hash = hash then (DS_OK, head.data)
      else
        match hst_search_scan hash (head :: rest) with
        | some data => (DS_OK, data)
        | none => (DS_ERR_NOT_FOUND, 0)

/-- The memory a call `hst_search(hst, key, value)` works on: the table behind `hst`,
`none` for a `NULL` pointer, and the `int` behind `value`, two separate objects. The
locals `hash`, `pos`, `scan` and `found` of the function are not part of it. -/
structure SearchMemory where
  table : Option HashTable
  value : Int

/-- The store `*value = v`, on the memory of a call of `hst_search`. -/
def SearchMemory.store_value (m : SearchMemory) (v : Int) : SearchMemory :=
  { m with value := v }

/-- The loop `while (scan != NULL)` of `hst_search` as steps on the memory, with `scan`
at the head of the given chain: the value of `found` after the loop and the memory it
leaves. -/
def hst_search_loop (hash : Nat) : Chain → SearchMemory → Bool × SearchMemory
  | [], m => (false, m)
  | scan :: next, m =>
    if scan.hash = hash then (true, m.store_value scan.data)
    else hst_search_loop hash next m

/-- The call `hst_search(hst, key, value)` as steps on the memory, statement by
statement: the status and the memory the call leaves. Every read goes to the memory as it
is at that statement. -/
def hst_search_call (key : Key) (m : SearchMemory) : Status × SearchMemory :=
  let m1 := m.store_value 0
  match m1.table with
  | none => (DS_ERR_NULL_POINTER, m1)
  | some t =>
    let hash := (t.hash_function key).2
    let pos := hash % t.size
    match t.buckets.getD pos [] with
    | [] => (DS_ERR_NOT_FOUND, m1)
    | head :: rest =>
      if rest = [] ∧ head.hash = hash then (DS_OK, m1.store_value head.data)
      else
        let r := hst_search_loop hash (head :: rest) m1
        if r.1 = false then (DS_ERR_NOT_FOUND, r.2) else (DS_OK, r.2)

/-! ## Invariants and reachable tables -/

/-- The bucket array has `size` slots and `size` is not zero. -/
def HashTable.WellFormed (t : HashTable) : Prop :=
  0 < t.size ∧ t.buckets.length = t.size

/-- Bucket placement: every entry of the chain of bucket `i` has `hash % size = i`. -/
def HashTable.Placed (t : HashTable) : Prop :=
  ∀ (i : Nat) (c : Chain), t.buckets[i]? = some c → ∀ e ∈ c, e.hash % t.size = i

/-- No two entries of one chain carry the same hash. -/
def HashTable.ChainsNodup (t : HashTable) : Prop :=
  ∀ c ∈ t.buckets, (c.map (fun e => e.hash)).Nodup

/-- No two entries of the whole table carry the same hash: the hashes read bucket after
bucket, each chain from its head, are pairwise different. -/
def HashTable.UniqueHash (t : HashTable) : Prop :=
  (t.buckets.flatten.map (fun e => e.hash)).Nodup

/-- The table `hst_init_table` builds when every allocation succeeds. -/
def emptyTable (size : Nat) (function : HashFunction) : HashTable :=
  ⟨List.replicate size [], size, function⟩

/-- The tables a caller can hold: those `hst_init_table` builds and those `hst_insert`
leaves behind on such a table. -/
inductive Reachable : HashTable → Prop where
  | init (alloc : Nat → Bool) (slot : TableSlot) (size : Nat) (function : HashFunction)
      (t : HashTable) :
      hst_init_table alloc slot size function = (DS_OK, TableSlot.table t) → Reachable t
  | insert (t : HashTable) (key : Key) (value : Int) (t' : HashTable) :
      Reachable t → (hst_insert (some t) key value).2 = some t' → Reachable t'


/-- The table built with size 7 and `hash_string_djb2` after `hst_insert` of the key
`"abc"` with value 1, whose djb2 hash 193485963 falls into bucket 6. -/
def abcTable : HashTable :=
  ⟨[[], [], [], [], [], [], [⟨1, 193485963⟩]], 7, hash_string_djb2⟩

/-- The table built with size 7 and `hash_string_djb2` after `hst_insert` of `"abc"` with 1
and of `"d"` with 9: both hashes, 193485963 and 177673, fall into bucket 6. -/
def abcdTable : HashTable :=
  ⟨[[], [], [], [], [], [], [⟨1, 193485963⟩, ⟨9, 177673⟩]], 7, hash_string_djb2⟩

/-! ## Memory released by `hst_delete_table` -/

/-- The entries released by the loop `for (i = 0; i < (*hst)->size; i++)
free(((*hst)->buckets)[i]);` of `hst_delete_table`: `free` is handed the pointer held by
each of the `size` bucket slots, which releases the entry at the head of the chain
(nothing for a `NULL` slot) and no entry behind it. -/
def hst_delete_table_freed (t : HashTable) : List HashTableEntry :=
  (t.buckets.take t.size).filterMap List.head?

/-- The entries of the table that no `free` of `hst_delete_table` is handed: those behind
the head of their chain. -/
def hst_delete_table_unreleased (t : HashTable) : List HashTableEntry :=
  (t.buckets.take t.size).flatMap List.tail

end HashTableC

/-!
# Singly linked list of `SinglyLinkedList.c`

Conventions of the embedding.

* A `SinglyLinkedNode *` is the list of the `data` fields of the nodes linked through
  `next`, `[]` being `NULL`.
* The `tail` field is a second pointer into the same nodes: it is kept as the index, in
  the chain from `head`, of the node it points to.
* A call that dereferences `NULL`, or a node that is not in the chain from `head` any
  more, has no result (`none`).
* `malloc` succeeds in `sll_init_list` and `sll_init_node`, which do not test its result.
-/

namespace SinglyLinkedListC

open HashTableC HashTableC.Status

/-- Where the `tail` field points: `NULL`, the node at an index of the chain from `head`,
or a node that is not in that chain any more. -/
inductive TailPtr where
  | null : TailPtr
  | node : Nat → TailPtr
  | dangling : TailPtr
  deriving DecidableEq, Repr

/-- The `tail` pointer after a node has been linked in at index `p` of the chain: the
node it points to has moved one index up when it was at `p` or behind. -/
def TailPtr.shift (p : Nat) : TailPtr → TailPtr
  | TailPtr.node i => if p ≤ i then TailPtr.node (i + 1) else TailPtr.node i
  | TailPtr.null => TailPtr.null
  | TailPtr.dangling => TailPtr.dangling

/-- Modelled from the spec: the `struct SinglyLinkedList` of `SinglyLinkedList.h`, which is
not among the sources. Its fields are the ones `SinglyLinkedList.c` uses: `length`, `head`
and `tail`. -/
structure SinglyLinkedList where
  length : Nat
  head : List Int
  tail : TailPtr
  deriving DecidableEq, Repr

/-- The function `sll_init_list`: the status and the caller's pointer afterwards. -/
def sll_init_list : Status × Option SinglyLinkedList :=
  (DS_OK, some ⟨0, [], TailPtr.null⟩)

/-- The function `sll_init_node`: the status and the new node, with `data` and `next`
set to `NULL`. -/
def sll_init_node : Status × List Int :=
  (DS_OK, [0])

/-- The function `sll_insert_head`: the status and the list afterwards. -/
def sll_insert_head (sll : Option SinglyLinkedList) (value : Int) :
    Status × Option SinglyLinkedList :=
  match sll with
  | none => (DS_ERR_NULL_POINTER, none)
  | some l =>
    let n := sll_init_node
    if n.1 ≠ DS_OK then (DS_ERR_OPERATION_FAILED, some l)
    else if n.2 = [] then (DS_ERR_ALLOC, some l)
    else if l.head = [] then (DS_OK, some ⟨l.length + 1, [value], TailPtr.node 0⟩)
    else (DS_OK, some ⟨l.length + 1, value :: l.head, l.tail.shift 0⟩)

/-- The function `sll_insert_tail`: the status and the list afterwards. With a `head` that
is not `NULL`, the store `sll->tail->next = sln` needs `tail` to point into the chain; the
nodes that were behind the one `tail` points to are no longer linked. -/
def sll_insert_tail (sll : Option SinglyLinkedList) (value : Int) :
    Option (Status × Option SinglyLinkedList) :=
  match sll with
  | none => some (DS_ERR_NULL_POINTER, none)
  | some l =>
    let n := sll_init_node
    if n.1 ≠ DS_OK then some (DS_ERR_OPERATION_FAILED, some l)
    else if n.2 = [] then some (DS_ERR_ALLOC, some l)
    else if l.head = [] then some (DS_OK, some ⟨l.length + 1, [value], TailPtr.node 0⟩)
    else
      match l.tail with
      | TailPtr.node i =>
        if i < l.head.length then
          some (DS_OK, some ⟨l.length + 1, l.head.take (i + 1) ++ [value], TailPtr.node (i + 1)⟩)
        else none
      | TailPtr.null => none
      | TailPtr.dangling => none

/-- The last branch of `sll_insert_at`: the loop `for (i = 1; i < position; i++)` with
`k` rounds to go and `curr` at the head of the given chain, then the two stores that link
the new node behind `curr`. The result is the status and the chain from `curr` on;
`DS_ERR_ITER` is returned from inside the loop, before anything is stored. -/
def sll_insert_at_walk (value : Int) : Nat → List Int → Option (Status × List Int)
  | 0, [] => none
  | 0, c :: rest => some (DS_OK, c :: value :: rest)
  | _ + 1, [] => some (DS_ERR_ITER, [])
  | k + 1, c :: rest =>
    match sll_insert_at_walk value k rest with
    | none => none
    | some (st, chain) => some (st, c :: chain)

/-- The function `sll_insert_at`: the status and the list afterwards. The first test,
`sll == NULL || position == NULL`, compares the `size_t` position with the null pointer
constant, that is with 0. -/
def sll_insert_at (sll : Option SinglyLinkedList) (value : Int) (position : Nat) :
    Option (Status × Option SinglyLinkedList) :=
  match sll with
  | none => some (DS_ERR_NULL_POINTER, none)
  | some l =>
    if position = 0 then some (DS_ERR_NULL_POINTER, some l)
    else if position > l.length then some (DS_ERR_INVALID_POSITION, some l)
    else
      let n := sll_init_node
      if n.1 ≠ DS_OK then some (DS_ERR_OPERATION_FAILED, some l)
      else if n.2 = [] then some (DS_ERR_ALLOC, some l)
      else if position = 0 then
        let r := sll_insert_head (some l) value
        if r.1 ≠ DS_OK then some r else some (DS_OK, r.2)
      else if position = l.length then
        match sll_insert_tail (some l) value with
        | none => none
        | some r => if r.1 ≠ DS_OK then some r else some (DS_OK, r.2)
      else
        match sll_insert_at_walk value (position - 1) l.head with
        | none => none
        | some (DS_OK, chain) =>
          some (DS_OK, some ⟨l.length + 1, chain, l.tail.shift position⟩)
        | some (st, _) => some (st, some l)

/-- The `tail` pointer after the node at index `p` of the chain has been unlinked: it
points outside the chain when that node was its target, and the node it points to has
moved one index down when it was behind `p`. -/
def TailPtr.unshift (p : Nat) : TailPtr → TailPtr
  | TailPtr.node i =>
    if i = p then TailPtr.dangling
    else if p < i then TailPtr.node (i - 1) else TailPtr.node i
  | TailPtr.null => TailPtr.null
  | TailPtr.dangling => TailPtr.dangling

/-- The `tail` pointer once a chain of `n` nodes has been reversed: the node at index `i`
is then at index `n - 1 - i`. -/
def TailPtr.mirror (n : Nat) : TailPtr → TailPtr
  | TailPtr.node i => TailPtr.node (n - 1 - i)
  | TailPtr.null => TailPtr.null
  | TailPtr.dangling => TailPtr.dangling

/-- The loop `while (scanner != NULL)` of `sll_get_length`: the nodes counted from
`scanner` on, added to `*result`. -/
def sll_get_length_loop : List Int → Nat → Nat
  | [], result => result
  | _ :: next, result => sll_get_length_loop next (result + 1)

/-- The function `sll_get_length`: the status and the value left in `*result`, which held
`result` before the call. -/
def sll_get_length (sll : Option SinglyLinkedList) (result : Nat) : Status × Nat :=
  match sll with
  | none => (DS_ERR_NULL_POINTER, result)
  | some l =>
    let count := sll_get_length_loop l.head 0
    if count ≠ l.length then (DS_ERR_UNEXPECTED_RESULT, count)
    else (DS_OK, count)

/-- The function `sll_remove_head`: the status and the list afterwards. The statement
`sll->tail == NULL;` is a comparison and stores nothing, so `tail` keeps pointing to the
node it pointed to, which is freed when it was the head. -/
def sll_remove_head (sll : Option SinglyLinkedList) : Status × Option SinglyLinkedList :=
  match sll with
  | none => (DS_ERR_NULL_POINTER, none)
  | some l =>
    if l.length = 0 then (DS_ERR_INVALID_OPERATION, some l)
    else
      match l.head with
      | [] => (DS_ERR_INVALID_OPERATION, some l)
      | _ :: next => (DS_OK, some ⟨l.length - 1, next, l.tail.unshift 0⟩)

/-- The function `sll_remove_tail`: the status and the list afterwards. The loop
`while (curr->next != NULL)` stops on the last node of the chain, which is cut off;
`prev` is `NULL` exactly when the chain has one node. -/
def sll_remove_tail (sll : Option SinglyLinkedList) : Status × Option SinglyLinkedList :=
  match sll with
  | none => (DS_ERR_NULL_POINTER, none)
  | some l =>
    if l.length = 0 then (DS_ERR_INVALID_OPERATION, some l)
    else
      match l.head with
      | [] => (DS_ERR_INVALID_OPERATION, some l)
      | [_] => (DS_OK, some ⟨l.length - 1, [], TailPtr.null⟩)
      | first :: second :: rest =>
        (DS_OK, some ⟨l.length - 1, (first :: second :: rest).dropLast,
          TailPtr.node ((first :: second :: rest).length - 2)⟩)

/-- The last branch of `sll_remove_at` once `prev` is a node: the loop
`for (i = 1; i < position; i++)` with `k` rounds to go, `prev` the given node and `curr`
at the head of the given chain, then `prev->next = curr->next; free(curr);`. The result is
the status and the chain from `prev` on; `DS_ERR_ITER` is returned from inside the loop,
before anything is stored, and the store after the loop has no result on a `NULL`
`curr`. -/
def sll_remove_at_walk : Nat → Int → List Int → Option (Status × List Int)
  | 0, _, [] => none
  | 0, prev, _ :: rest => some (DS_OK, prev :: rest)
  | _ + 1, prev, [] => some (DS_ERR_ITER, [prev])
  | k + 1, prev, curr :: rest =>
    match sll_remove_at_walk k curr rest with
    | none => none
    | some (st, chain) => some (st, prev :: chain)

/-- The function `sll_remove_at`: the status and the list afterwards. The first test,
`sll == NULL || position == NULL`, compares the `size_t` position with 0. In the last
branch the loop runs `position - 1` rounds from `prev = NULL`, `curr = sll->head`: with
no round (`position` 1) the store `prev->next` goes through `NULL` and has no result;
otherwise the first round puts `prev` on the head and the node unlinked and freed is the
one `curr` ends on, at index `position - 1`. -/
def sll_remove_at (sll : Option SinglyLinkedList) (position : Nat) :
    Option (Status × Option SinglyLinkedList) :=
  match sll with
  | none => some (DS_ERR_NULL_POINTER, none)
  | some l =>
    if position = 0 then some (DS_ERR_NULL_POINTER, some l)
    else if l.length = 0 ∨ l.head = [] then some (DS_ERR_INVALID_OPERATION, some l)
    else if position ≥ l.length then some (DS_ERR_INVALID_POSITION, some l)
    else if position = 0 then
      let r := sll_remove_head (some l)
      if r.1 ≠ DS_OK then some r else some (DS_OK, r.2)
    else if position = l.length - 1 then
      let r := sll_remove_tail (some l)
      if r.1 ≠ DS_OK then some r else some (DS_OK, r.2)
    else
      match position - 1, l.head with
      | 0, _ => none
      | _, [] => some (DS_ERR_ITER, some l)
      | k + 1, first :: rest =>
        match sll_remove_at_walk k first rest with
        | none => none
        | some (DS_OK, chain) =>
          some (DS_OK, some ⟨l.length - 1, chain, l.tail.unshift (position - 1)⟩)
        | some (st, _) => some (st, some l)

/-- The loop `while (curr != NULL)` of `sll_reverse`: `prev` is the chain already
turned round, `curr` the chain still to go. -/
def sll_reverse_loop : List Int → List Int → List Int
  | prev, [] => prev
  | prev, curr :: next => sll_reverse_loop (curr :: prev) next

/-- The function `sll_reverse`: the status and the list afterwards. Only `head` is
assigned after the loop; `tail` keeps pointing to the node it pointed to. -/
def sll_reverse (sll : Option SinglyLinkedList) : Status × Option SinglyLinkedList :=
  match sll with
  | none => (DS_ERR_NULL_POINTER, none)
  | some l =>
    if l.length < 2 ∨ l.head = [] then (DS_ERR_INVALID_OPERATION, some l)
    else
      (DS_OK, some ⟨l.length, sll_reverse_loop [] l.head, l.tail.mirror l.head.length⟩)

/-- The head/tail invariant: `head` is `NULL` exactly when `tail` is `NULL`, and otherwise
`tail` points to the last node of the chain from `head`. -/
def SinglyLinkedList.HeadTailInv (l : SinglyLinkedList) : Prop :=
  (l.head = [] ↔ l.tail = TailPtr.null) ∧
    (l.head ≠ [] → l.tail = TailPtr.node (l.head.length - 1))

/-- The function `sll_insert_node_head`: the status and the list afterwards. The node is
given by its `data`, `none` being a `NULL` node. Only `head` and `length` are assigned:
`tail` keeps pointing where it pointed, also when the list was empty. -/
def sll_insert_node_head (sll : Option SinglyLinkedList) (node : Option Int) :
    Status × Option SinglyLinkedList :=
  match sll, node with
  | none, _ => (DS_ERR_NULL_POINTER, none)
  | some l, none => (DS_ERR_NULL_POINTER, some l)
  | some l, some data => (DS_OK, some ⟨l.length + 1, data :: l.head, l.tail.shift 0⟩)

/-- The loop `while (scan != NULL)` of `sll_contains`, with `scan` at the head of the
given chain: the content of `*result` once the loop is left, `pointee` being its content
before. The statement `result = true;` on a node that holds the key assigns the
parameter `result`, which is a pointer, and not the `bool` it points to. -/
def sll_contains_loop (key : Int) : List Int → Bool → Bool
  | [], pointee => pointee
  | data :: next, pointee =>
    if data = key then pointee else sll_contains_loop key next pointee

/-- The function `sll_contains`: the status and the content of `*result`, which is set to
`false` first. -/
def sll_contains (sll : Option SinglyLinkedList) (key : Int) : Status × Bool :=
  match sll with
  | none => (DS_ERR_NULL_POINTER, false)
  | some l =>
    if l.length = 0 ∨ l.head = [] then (DS_ERR_NOT_FOUND, false)
    else (DS_OK, sll_contains_loop key l.head false)

/-- The loop `while (scan != NULL)` of `sll_exists`, with `scan` at the head of the given
chain, and the `return false` behind it. -/
def sll_exists_loop (key : Int) : List Int → Bool
  | [] => false
  | data :: next => if data = key then true else sll_exists_loop key next

/-- The function `sll_exists`. -/
def sll_exists (sll : Option SinglyLinkedList) (key : Int) : Bool :=
  match sll with
  | none => false
  | some l =>
    if l.length = 0 ∨ l.head = [] then false else sll_exists_loop key l.head

end SinglyLinkedListC

/-!
# Array queue of `QueueArray.c`

Conventions of the embedding.

* The buffer is the list of its cells, one per `int` of the allocated block. A read
  outside it yields 0 and a write outside it is dropped; neither happens on a queue whose
  buffer has `capacity` cells and whose indices satisfy `front <= rear <= capacity`.
* `malloc` in `qua_init` and `realloc` may fail, and what they leave in the cells they
  allocate is a parameter.
* The fields `capacity`, `growth_rate`, `length`, `front` and `rear` are `size_t` values:
  the product `capacity * growth_rate`, the byte counts `sizeof(int) * capacity` handed to
  `malloc` and `realloc`, and the increments wrap modulo `2 ^ 64`.
* The abstract contents of a queue are the cells `buffer[front..rear)`, oldest first.
-/

namespace QueueArrayC

open HashTableC HashTableC.Status

/-- Modelled from the spec: the `struct QueueArray` of `QueueArray.h`, which is not among
the sources. Its fields are the ones `QueueArray.c` uses. -/
structure QueueArray where
  buffer : List Int
  capacity : Nat
  growth_rate : Nat
  length : Nat
  front : Nat
  rear : Nat
  deriving DecidableEq, Repr

/-- The value of `sizeof(int)`: 4 bytes, as on the platforms whose `size_t` has the 64
bits taken throughout. -/
def sizeof_int : Nat := 4

/-- The number of `int` cells of the block that `malloc` or `realloc` hands out for the
request `sizeof(int) * n`: the product is a `size_t` and wraps modulo `2 ^ 64`. -/
def block_cells (n : Nat) : Nat :=
  sizeof_int * n % 2 ^ 64 / sizeof_int

/-- The function `qua_is_empty`. -/
def qua_is_empty (qua : QueueArray) : Bool :=
  decide (qua.length = 0)

/-- The function `qua_is_full`. -/
def qua_is_full (qua : QueueArray) : Bool :=
  decide (qua.length = qua.capacity)

/-- The block `realloc` returns for `capacity` ints: the old cells that fit, then cells
whose content, `fresh i` for the cell of index `i`, is whatever the allocator left. -/
def realloc_buffer (fresh : Nat → Int) (buffer : List Int) (capacity : Nat) : List Int :=
  buffer.take capacity ++
    (List.range (capacity - buffer.length)).map (fun i => fresh (buffer.length + i))

/-- The function `qua_realloc`: the status and the queue afterwards; `ok` tells whether
`realloc` succeeds. The statement `qua->capacity *= qua->growth_rate` multiplies two
`size_t` values, and `realloc` is asked for `sizeof(int) * qua->capacity` bytes. On
failure `qua->capacity /= qua->growth_rate` divides the product that was stored; the
embedding covers growth rates other than 0, for which the division has a value. -/
def qua_realloc (ok : Bool) (fresh : Nat → Int) (qua : Option QueueArray) :
    Status × Option QueueArray :=
  match qua with
  | none => (DS_ERR_NULL_POINTER, none)
  | some q =>
    let capacity := q.capacity * q.growth_rate % 2 ^ 64
    if ok = false then (DS_ERR_ALLOC, some { q with capacity := capacity / q.growth_rate })
    else
      (DS_OK, some { q with capacity := capacity,
                            buffer := realloc_buffer fresh q.buffer (block_cells capacity) })

/-- The loop `for (i = 0, j = qua->front; j < qua->rear; i++, j++) qua->buffer[i] =
qua->buffer[j];` of `qua_enqueue`, with `n` rounds to go. -/
def qua_shift_loop : Nat → Nat → Nat → List Int → List Int
  | 0, _, _, buffer => buffer
  | n + 1, i, j, buffer => qua_shift_loop n (i + 1) (j + 1) (buffer.set i (buffer.getD j 0))

/-- The end of `qua_enqueue`: `qua->buffer[qua->rear] = value; (qua->rear)++;
(qua->length)++;`. -/
def qua_enqueue_store (q : QueueArray) (value : Int) : QueueArray :=
  { q with buffer := q.buffer.set q.rear value, rear := (q.rear + 1) % 2 ^ 64,
           length := (q.length + 1) % 2 ^ 64 }

/-- The function `qua_enqueue`: the status and the queue afterwards. -/
def qua_enqueue (ok : Bool) (fresh : Nat → Int) (qua : Option QueueArray) (value : Int) :
    Status × Option QueueArray :=
  match qua with
  | none => (DS_ERR_NULL_POINTER, none)
  | some q =>
    if qua_is_full q then
      match qua_realloc ok fresh (some q) with
      | (DS_OK, some q1) => (DS_OK, some (qua_enqueue_store q1 value))
      | (DS_OK, none) => (DS_OK, none)
      | (st, r) => (st, r)
    else if q.rear = q.capacity then
      (DS_OK, some (qua_enqueue_store
        { q with buffer := qua_shift_loop (q.rear - q.front) 0 q.front q.buffer,
                 front := 0, rear := q.length } value))
    else (DS_OK, some (qua_enqueue_store q value))

/-- What the caller's `QueueArray *` holds after `qua_init`: `NULL`, a queue, or the
structure whose buffer could not be allocated and whose other fields are not set. -/
inductive QueueSlot where
  | null : QueueSlot
  | queue : QueueArray → QueueSlot
  | unfinished : QueueSlot
  deriving DecidableEq, Repr

/-- The function `qua_init`: the status and the caller's pointer afterwards. The macros
`QUEUE_ARRAY_INIT_SIZE` and `QUEUE_ARRAY_GROW_RATE` of `QueueArray.h`, which is not among
the sources, are the parameters `init_size` and `grow_rate`, stored in `size_t` fields;
`alloc 0` and `alloc 1` tell whether the two calls of `malloc` succeed, the second one
for `sizeof(int) * QUEUE_ARRAY_INIT_SIZE` bytes, and `fresh i` is what the allocator left
in cell `i` of the buffer. -/
def qua_init (init_size grow_rate : Nat) (alloc : Nat → Bool) (fresh : Nat → Int) :
    Status × QueueSlot :=
  if alloc 0 = false then (DS_ERR_ALLOC, QueueSlot.null)
  else if alloc 1 = false then (DS_ERR_ALLOC, QueueSlot.unfinished)
  else
    (DS_OK, QueueSlot.queue ⟨(List.range (block_cells init_size)).map fresh,
      init_size % 2 ^ 64, grow_rate % 2 ^ 64, 0, 0, 0⟩)

/-- The end of `qua_dequeue` and `qua_pop`, reached on a queue that is not empty:
`(qua->front)++; (qua->length)--;` and the reset of `front` and `rear` once the queue is
empty. -/
def qua_advance (q : QueueArray) : QueueArray :=
  let q1 := { q with front := (q.front + 1) % 2 ^ 64, length := q.length - 1 }
  if qua_is_empty q1 then { q1 with front := 0, rear := 0 } else q1

/-- The function `qua_dequeue`: the status, the queue afterwards and the value left in
`*value`, which is set to 0 first. -/
def qua_dequeue (qua : Option QueueArray) : Status × Option QueueArray × Int :=
  match qua with
  | none => (DS_ERR_NULL_POINTER, none, 0)
  | some q =>
    if qua_is_empty q then (DS_ERR_INVALID_OPERATION, some q, 0)
    else (DS_OK, some (qua_advance q), q.buffer.getD q.front 0)

/-- The function `qua_pop`: the status and the queue afterwards. -/
def qua_pop (qua : Option QueueArray) : Status × Option QueueArray :=
  match qua with
  | none => (DS_ERR_NULL_POINTER, none)
  | some q =>
    if qua_is_empty q then (DS_ERR_INVALID_OPERATION, some q)
    else (DS_OK, some (qua_advance q))

/-- The function `qua_peek_front`: the status and the value left in `*result`, which is
set to 0 first. -/
def qua_peek_front (qua : Option QueueArray) : Status × Int :=
  match qua with
  | none => (DS_ERR_NULL_POINTER, 0)
  | some q =>
    if qua_is_empty q then (DS_ERR_INVALID_OPERATION, 0)
    else (DS_OK, q.buffer.getD q.front 0)

/-- The function `qua_peek_rear`: the status and the value left in `*result`, which is
set to 0 first. The index `qua->rear - 1` is a `size_t`: with `rear` 0 it is the largest
one. -/
def qua_peek_rear (qua : Option QueueArray) : Status × Int :=
  match qua with
  | none => (DS_ERR_NULL_POINTER, 0)
  | some q =>
    if qua_is_empty q then (DS_ERR_INVALID_OPERATION, 0)
    else (DS_OK, q.buffer.getD ((q.rear + (2 ^ 64 - 1)) % 2 ^ 64) 0)

/-- The queues a caller can hold: those `qua_init` builds, with the two macros as
parameters, and those `qua_enqueue`, `qua_dequeue` and `qua_pop` leave behind on such a
queue. -/
inductive Reachable (init_size grow_rate : Nat) : QueueArray → Prop where
  | init (alloc : Nat → Bool) (fresh : Nat → Int) (q : QueueArray) :
      qua_init init_size grow_rate alloc fresh = (DS_OK, QueueSlot.queue q) →
        Reachable init_size grow_rate q
  | enqueue (q : QueueArray) (ok : Bool) (fresh : Nat → Int) (value : Int) (st : Status)
      (q' : QueueArray) :
      Reachable init_size grow_rate q → qua_enqueue ok fresh (some q) value = (st, some q') →
        Reachable init_size grow_rate q'
  | dequeue (q : QueueArray) (st : Status) (q' : QueueArray) (value : Int) :
      Reachable init_size grow_rate q → qua_dequeue (some q) = (st, some q', value) →
        Reachable init_size grow_rate q'
  | pop (q : QueueArray) (st : Status) (q' : QueueArray) :
      Reachable init_size grow_rate q → qua_pop (some q) = (st, some q') →
        Reachable init_size grow_rate q'

/-- The reallocation of the queue stays within `size_t`: the byte count
`sizeof(int) * (capacity * growth_rate)` that `qua_realloc` would ask for is below
`2 ^ 64`, and so is the product `capacity * growth_rate`. -/
def QueueArray.GrowthFits (q : QueueArray) : Prop :=
  sizeof_int * (q.capacity * q.growth_rate) < 2 ^ 64

instance (q : QueueArray) : Decidable q.GrowthFits :=
  Nat.decLt _ _

/-- The queues reached without a reallocation that leaves `size_t`: as `Reachable`, with
every `qua_enqueue` on a full queue made on a queue whose reallocation stays within
`size_t`. -/
inductive ReachableFit (init_size grow_rate : Nat) : QueueArray → Prop where
  | init (alloc : Nat → Bool) (fresh : Nat → Int) (q : QueueArray) :
      qua_init init_size grow_rate alloc fresh = (DS_OK, QueueSlot.queue q) →
        ReachableFit init_size grow_rate q
  | enqueue (q : QueueArray) (ok : Bool) (fresh : Nat → Int) (value : Int) (st : Status)
      (q' : QueueArray) :
      ReachableFit init_size grow_rate q → (qua_is_full q = true → q.GrowthFits) →
        qua_enqueue ok fresh (some q) value = (st, some q') →
        ReachableFit init_size grow_rate q'
  | dequeue (q : QueueArray) (st : Status) (q' : QueueArray) (value : Int) :
      ReachableFit init_size grow_rate q → qua_dequeue (some q) = (st, some q', value) →
        ReachableFit init_size grow_rate q'
  | pop (q : QueueArray) (st : Status) (q' : QueueArray) :
      ReachableFit init_size grow_rate q → qua_pop (some q) = (st, some q') →
        ReachableFit init_size grow_rate q'

/-- The index invariant: `front <= rear <= capacity`, `length == rear - front`, and the
buffer has `capacity` cells. -/
def QueueArray.IndexInv (q : QueueArray) : Prop :=
  q.front ≤ q.rear ∧ q.rear ≤ q.capacity ∧ q.length = q.rear - q.front ∧
    q.buffer.length = q.capacity

/-- The abstract contents of a queue: the cells `buffer[front..rear)`. -/
def contents (q : QueueArray) : List Int :=
  (q.buffer.take q.rear).drop q.front

/-- A call a client makes on its queue: `qua_enqueue` of a value, with a `realloc` that
succeeds and leaves `fresh` in the cells it adds, `qua_dequeue`, or `qua_pop`. -/
inductive QueueCall where
  | enqueue : (Nat → Int) → Int → QueueCall
  | dequeue : QueueCall
  | pop : QueueCall

/-- A client making the given calls one after the other on its queue: the queue at the
end, and the values `qua_dequeue` handed out with `DS_OK`, in the order of the calls,
behind those of `out`. -/
def run_calls : List QueueCall → Option QueueArray → List Int → Option QueueArray × List Int
  | [], qua, out => (qua, out)
  | QueueCall.enqueue fresh value :: calls, qua, out =>
    run_calls calls (qua_enqueue true fresh qua value).2 out
  | QueueCall.dequeue :: calls, qua, out =>
    let r := qua_dequeue qua
    run_calls calls r.2.1 (if r.1 = DS_OK then out ++ [r.2.2] else out)
  | QueueCall.pop :: calls, qua, out => run_calls calls (qua_pop qua).2 out

/-- No reallocation leaves `size_t` while the client makes the given calls: every
`qua_enqueue` that finds the queue full finds it with a reallocation that stays within
`size_t`. -/
def run_fits : List QueueCall → Option QueueArray → Prop
  | [], _ => True
  | QueueCall.enqueue fresh value :: calls, qua =>
    (∀ q : QueueArray, qua = some q → qua_is_full q = true → q.GrowthFits) ∧
      run_fits calls (qua_enqueue true fresh qua value).2
  | QueueCall.dequeue :: calls, qua => run_fits calls (qua_dequeue qua).2.1
  | QueueCall.pop :: calls, qua => run_fits calls (qua_pop qua).2

/-- The same calls on a FIFO list: an enqueue appends the value at the end, a dequeue takes
the first element out and hands it over, a pop drops it; on the empty list a dequeue or a
pop does nothing. -/
def fifo_calls : List QueueCall → List Int → List Int → List Int × List Int
  | [], l, out => (l, out)
  | QueueCall.enqueue _ value :: calls, l, out => fifo_calls calls (l ++ [value]) out
  | QueueCall.dequeue :: calls, [], out => fifo_calls calls [] out
  | QueueCall.dequeue :: calls, x :: rest, out => fifo_calls calls rest (out ++ [x])
  | QueueCall.pop :: calls, l, out => fifo_calls calls l.tail out

end QueueArrayC

/-!
# Priority queue of `PriorityQueue.c`

Conventions of the embedding.

* A `PriorityQueueNode *` is the list of the nodes linked through `prev`, `[]` being
  `NULL`; `front` is the head of that list.
* The `rear` field is a second pointer into the same nodes: it is kept as the index, in
  the chain from `front`, of the node it points to.
* A node handed to `prq_enqueue_node` is a node that is not linked into the queue.
* A call that dereferences `NULL` has no result (`none`).
* `malloc` may fail in `prq_init_queue` and `prq_make_node`, which test it.
-/

namespace PriorityQueueC

open HashTableC HashTableC.Status

/-- Modelled from the spec: the fields `data` and `priority` of the
`struct PriorityQueueNode` of `PriorityQueue.h`, which is not among the sources; the `prev`
field is the tail of the list the node heads. -/
structure PriorityQueueNode where
  data : Int
  priority : Int
  deriving DecidableEq, Repr

/-- Where the `rear` field points: `NULL`, the node at an index of the chain from
`front`, or a node that is not in that chain any more. -/
inductive RearPtr where
  | null : RearPtr
  | node : Nat → RearPtr
  | dangling : RearPtr
  deriving DecidableEq, Repr

/-- The `rear` pointer after a node has been linked in at index `p` of the chain. -/
def RearPtr.shift (p : Nat) : RearPtr → RearPtr
  | RearPtr.node i => if p ≤ i then RearPtr.node (i + 1) else RearPtr.node i
  | RearPtr.null => RearPtr.null
  | RearPtr.dangling => RearPtr.dangling

/-- The `rear` pointer after the front node has left the chain. -/
def RearPtr.unshift : RearPtr → RearPtr
  | RearPtr.node 0 => RearPtr.dangling
  | RearPtr.node (i + 1) => RearPtr.node i
  | RearPtr.null => RearPtr.null
  | RearPtr.dangling => RearPtr.dangling

/-- Modelled from the spec: the `struct PriorityQueue` of `PriorityQueue.h`, which is not
among the sources. Its fields are the ones `PriorityQueue.c` uses: `front`, `rear` and
`length`. -/
structure PriorityQueue where
  front : List PriorityQueueNode
  rear : RearPtr
  length : Nat
  deriving DecidableEq, Repr

/-- The function `prq_is_empty`. -/
def prq_is_empty (prq : PriorityQueue) : Bool :=
  decide (prq.length = 0) || decide (prq.rear = RearPtr.null)

/-- The function `prq_init_queue`: the status and the caller's pointer afterwards;
`alloc` tells whether `malloc` succeeds. -/
def prq_init_queue (alloc : Bool) : Status × Option PriorityQueue :=
  if alloc = false then (DS_ERR_ALLOC, none)
  else (DS_OK, some ⟨[], RearPtr.null, 0⟩)

/-- The function `prq_make_node`: the status and the new node, whose `prev` is `NULL`. -/
def prq_make_node (alloc : Bool) (value : Int) (priority : Int) :
    Status × Option PriorityQueueNode :=
  if alloc = false then (DS_ERR_ALLOC, none)
  else (DS_OK, some ⟨value, priority⟩)

/-- The walk of `prq_enqueue` and `prq_enqueue_node` over a queue that is not empty,
with `curr` at the head of the given chain: the loop `while (curr != NULL &&
curr->priority >= node->priority)` and the two stores that link `node` in front of the
node the loop stops on. The result is the chain from there on; when the loop stops at
once `before` is `NULL` and the result is the new `front`. -/
def prq_enqueue_walk (node : PriorityQueueNode) : List PriorityQueueNode → List PriorityQueueNode
  | [] => [node]
  | curr :: prev =>
    if curr.priority ≥ node.priority then curr :: prq_enqueue_walk node prev
    else node :: curr :: prev

/-- The number of nodes the loop of `prq_enqueue` passes, which is the index at which the
node is linked in. -/
def prq_enqueue_index (node : PriorityQueueNode) : List PriorityQueueNode → Nat
  | [] => 0
  | curr :: prev =>
    if curr.priority ≥ node.priority then prq_enqueue_index node prev + 1 else 0

/-- The part of `prq_enqueue` and `prq_enqueue_node` that links a node in and counts
it. -/
def prq_link (q : PriorityQueue) (node : PriorityQueueNode) : PriorityQueue :=
  if prq_is_empty q then ⟨[node], RearPtr.node 0, q.length + 1⟩
  else ⟨prq_enqueue_walk node q.front, q.rear.shift (prq_enqueue_index node q.front),
    q.length + 1⟩

/-- The function `prq_enqueue`: the status and the queue afterwards. -/
def prq_enqueue (alloc : Bool) (prq : Option PriorityQueue) (value : Int) (priority : Int) :
    Status × Option PriorityQueue :=
  match prq with
  | none => (DS_ERR_NULL_POINTER, none)
  | some q =>
    match (prq_make_node alloc value priority).2 with
    | none => (DS_ERR_ALLOC, some q)
    | some node => (DS_OK, some (prq_link q node))

/-- The function `prq_enqueue_node`: the status and the queue afterwards. The store
`node->prev = NULL` has no result on a `NULL` node. -/
def prq_enqueue_node (prq : Option PriorityQueue) (node : Option PriorityQueueNode) :
    Option (Status × Option PriorityQueue) :=
  match prq with
  | none => some (DS_ERR_NULL_POINTER, none)
  | some q =>
    match node with
    | none => none
    | some n => some (DS_OK, some (prq_link q n))

/-- The function `prq_dequeue_node`: the status, the queue afterwards and the node left
in `*result`, which held `result` before the call. The read `prq->front->prev` has no
result on a `NULL` front. -/
def prq_dequeue_node (prq : Option PriorityQueue) (result : Option PriorityQueueNode) :
    Option (Status × Option PriorityQueue × Option PriorityQueueNode) :=
  match prq with
  | none => some (DS_ERR_NULL_POINTER, none, result)
  | some q =>
    if prq_is_empty q then some (DS_ERR_INVALID_OPERATION, some q, result)
    else
      match q.front with
      | [] => none
      | node :: prev =>
        some (DS_OK,
          some ⟨prev, if q.length - 1 = 0 then RearPtr.null else q.rear.unshift, q.length - 1⟩,
          some node)

/-- The function `prq_dequeue`: the status and the queue afterwards. It does what
`prq_dequeue_node` does and frees the node instead of handing it out. -/
def prq_dequeue (prq : Option PriorityQueue) : Option (Status × Option PriorityQueue) :=
  match prq with
  | none => some (DS_ERR_NULL_POINTER, none)
  | some q =>
    if prq_is_empty q then some (DS_ERR_INVALID_OPERATION, some q)
    else
      match q.front with
      | [] => none
      | _ :: prev =>
        some (DS_OK,
          some ⟨prev, if q.length - 1 = 0 then RearPtr.null else q.rear.unshift, q.length - 1⟩)

/-- The function `prq_peek_front`: the status and the value left in `*result`, which held
`result` before the call. The read `prq->front->data` has no result on a `NULL` front. -/
def prq_peek_front (prq : Option PriorityQueue) (result : Int) : Option (Status × Int) :=
  match prq with
  | none => some (DS_ERR_NULL_POINTER, result)
  | some q =>
    if prq_is_empty q then some (DS_ERR_INVALID_OPERATION, result)
    else
      match q.front with
      | [] => none
      | node :: _ => some (DS_OK, node.data)

/-- The function `prq_peek_rear`: the status and the value left in `*result`, which held
`result` before the call. The read `prq->rear->data` has a result when `rear` points to a
node of the chain from `front`, and none when it points to a node that has been freed or
handed out. -/
def prq_peek_rear (prq : Option PriorityQueue) (result : Int) : Option (Status × Int) :=
  match prq with
  | none => some (DS_ERR_NULL_POINTER, result)
  | some q =>
    if prq_is_empty q then some (DS_ERR_INVALID_OPERATION, result)
    else
      match q.rear with
      | RearPtr.node i =>
        match q.front[i]? with
        | some node => some (DS_OK, node.data)
        | none => none
      | RearPtr.null => none
      | RearPtr.dangling => none

/-- The queues a caller can hold: the one `prq_init_queue` builds and those
`prq_enqueue`, `prq_enqueue_node`, `prq_dequeue` and `prq_dequeue_node` leave behind on
such a queue. -/
inductive Reachable : PriorityQueue → Prop where
  | init (q : PriorityQueue) : prq_init_queue true = (DS_OK, some q) → Reachable q
  | enqueue (q : PriorityQueue) (alloc : Bool) (value priority : Int) (st : Status)
      (q' : PriorityQueue) :
      Reachable q → prq_enqueue alloc (some q) value priority = (st, some q') → Reachable q'
  | enqueue_node (q : PriorityQueue) (node : Option PriorityQueueNode) (st : Status)
      (q' : PriorityQueue) :
      Reachable q → prq_enqueue_node (some q) node = some (st, some q') → Reachable q'
  | dequeue (q : PriorityQueue) (st : Status) (q' : PriorityQueue) :
      Reachable q → prq_dequeue (some q) = some (st, some q') → Reachable q'
  | dequeue_node (q : PriorityQueue) (result node : Option PriorityQueueNode) (st : Status)
      (q' : PriorityQueue) :
      Reachable q → prq_dequeue_node (some q) result = some (st, some q', node) →
        Reachable q'

end PriorityQueueC

/-!
# Hash set declared in `HashSet.h`

`HashSet.c` is not among the sources: the structures are those of `HashSet.h`, and the
operations are modelled from the design document.
-/

namespace HashSetC

open HashTableC HashTableC.Status

/-- Modelled from the spec: the outcomes of the hash set operations, `Ok` and the errors
of the error taxonomy of the design document. The `Status` codes that `HashSet.c`, which
is missing, returns for them are not known. -/
inductive SetStatus where
  | Ok
  | AllocationError
  | InvalidSizeError
  | NotFoundError
  | TableFullError
  deriving DecidableEq, Repr

/-- The `struct HashSetEntry` of `HashSet.h`. -/
structure HashSetEntry where
  value : Key
  hash : Nat
  deriving DecidableEq, Repr

/-- The `struct HashSet` of `HashSet.h`; a bucket slot is `none` when it holds `NULL`. -/
structure HashSet where
  buckets : List (Option HashSetEntry)
  size : Nat
  max_size : Nat
  hash_function : Key → Status × Nat
  rehash_function : Nat → Status × Nat

/-- Modelled from the spec: the function `set_hash_string_djb2` of the missing
`HashSet.c`, the djb2 hash of the design document: the accumulator starts at 5381 and
becomes `acc * 33 + c` for each byte `c`. -/
def set_hash_string_djb2 (key : Key) : Status × Nat :=
  (DS_OK, djb2_spec (chars key))

/-- Modelled from the spec: the function `set_rehash_rj` of the missing `HashSet.c`, the
`add-fixed-constant` rehash of the design document, on `size_t` arithmetic. The design
document does not give the constant, which is the parameter `c`. -/
def set_rehash_rj (c : Nat) (hash : Nat) : Status × Nat :=
  (DS_OK, (hash + c) % 2 ^ 64)

/-- Modelled from the spec: the function `set_init_table` of the missing `HashSet.c`,
`create(max_size, hash_fn, rehash_fn)` of the design document, which fails with
`AllocationError` on zero capacity or failed allocation and otherwise builds a set of
`max_size` empty buckets; `alloc` tells whether the allocations succeed. -/
def set_init_table (alloc : Bool) (max_size : Nat) (hash_function : Key → Status × Nat)
    (rehash_function : Nat → Status × Nat) : SetStatus × Option HashSet :=
  if max_size = 0 ∨ alloc = false then (SetStatus.AllocationError, none)
  else
    (SetStatus.Ok,
      some ⟨List.replicate max_size none, 0, max_size, hash_function, rehash_function⟩)

/-- What the probing of an insertion ends on: an empty bucket, an entry with the hash of
the value, or the probe bound. -/
inductive Probe where
  | store : Nat → Probe
  | duplicate : Probe
  | full : Probe
  deriving DecidableEq, Repr

/-- Modelled from the spec: the probing of `insert(set, value)` in the design document,
for a value of hash `h`, with `n` probes to go and the hash `cur` to probe with. The
bucket is `cur mod max_size`; on an entry with a different hash the rehash strategy is
applied to the hash and the result reduced modulo `max_size` again. -/
def set_insert_probe (rehash : Nat → Status × Nat) (max_size : Nat)
    (buckets : List (Option HashSetEntry)) (h : Nat) : Nat → Nat → Probe
  | 0, _ => Probe.full
  | n + 1, cur =>
    match buckets.getD (cur % max_size) none with
    | none => Probe.store (cur % max_size)
    | some e =>
      if e.hash = h then Probe.duplicate
      else set_insert_probe rehash max_size buckets h n (rehash cur).2

/-- Modelled from the spec: the function `set_insert` of the missing `HashSet.c`,
`insert(set, value)` of the design document: an empty bucket takes the entry and `size`
goes up by one, an entry with the same hash makes the insertion a no-op, and the probe
count is bounded by `max_size`, after which the insertion fails with `TableFullError`. -/
def set_insert (set : HashSet) (value : Key) : SetStatus × HashSet :=
  match set_insert_probe set.rehash_function set.max_size set.buckets
      (set.hash_function value).2 set.max_size (set.hash_function value).2 with
  | Probe.store pos =>
    (SetStatus.Ok,
      { set with buckets := set.buckets.set pos (some ⟨value, (set.hash_function value).2⟩),
                 size := set.size + 1 })
  | Probe.duplicate => (SetStatus.Ok, set)
  | Probe.full => (SetStatus.TableFullError, set)

end HashSetC

namespace HashTableC

open Status

/-! ## Chain walks -/

theorem hst_insert_scan_of_mem (v : Int) (h : Nat) (rest : Chain) :
    ∀ e : HashTableEntry, (∃ x ∈ e :: rest, x.hash = h) →
      hst_insert_scan v h e rest = (DS_OK, none) := by
  induction rest with
  | nil =>
    intro e hx
    obtain ⟨x, hx, hxh⟩ := hx
    simp at hx
    subst hx
    simp [hst_insert_scan, hxh]
  | cons n rest ih =>
    intro e hx
    by_cases he : e.hash = h
    · simp [hst_insert_scan, he]
    · obtain ⟨x, hx, hxh⟩ := hx
      have hx2 : x ∈ n :: rest := by
        rcases List.mem_cons.1 hx with h1 | h1
        · subst h1; exact absurd hxh he
        · exact h1
      simp [hst_insert_scan, he, ih n ⟨x, hx2, hxh⟩]

theorem hst_insert_scan_of_not_mem (v : Int) (h : Nat) (rest : Chain) :
    ∀ e : HashTableEntry, (∀ x ∈ e :: rest, x.hash ≠ h) →
      hst_insert_scan v h e rest = (DS_OK, some ((e :: rest) ++ [⟨v, h⟩])) := by
  induction rest with
  | nil =>
    intro e hx
    have he : e.hash ≠ h := hx e (List.mem_cons_self _ _)
    simp [hst_insert_scan, he, hst_make_entry]
  | cons n rest ih =>
    intro e hx
    have he : e.hash ≠ h := hx e (List.mem_cons_self _ _)
    have hn : ∀ x ∈ n :: rest, x.hash ≠ h := fun x hm => hx x (List.mem_cons_of_mem _ hm)
    simp [hst_insert_scan, he, ih n hn]

theorem hst_search_scan_none_iff (h : Nat) (c : Chain) :
    hst_search_scan h c = none ↔ ∀ e ∈ c, e.hash ≠ h := by
  induction c with
  | nil => simp [hst_search_scan]
  | cons e rest ih =>
    by_cases he : e.hash = h
    · simp [hst_search_scan, he]
    · simp [hst_search_scan, he, ih]

theorem hst_search_scan_first (h : Nat) (e : HashTableEntry) (post : Chain) (he : e.hash = h) :
    ∀ pre : Chain, (∀ x ∈ pre, x.hash ≠ h) →
      hst_search_scan h (pre ++ e :: post) = some e.data := by
  intro pre
  induction pre with
  | nil => intro _; simp [hst_search_scan, he]
  | cons x pre ih =>
    intro hx
    have hx0 : x.hash ≠ h := hx x (List.mem_cons_self _ _)
    have hx1 : ∀ y ∈ pre, y.hash ≠ h := fun y hy => hx y (List.mem_cons_of_mem _ hy)
    simp [hst_search_scan, hx0, ih hx1]

/-! ## Insertion and search on a table -/

theorem hst_insert_of_mem (t : HashTable) (k : Key) (v : Int) (h : Nat)
    (hk : t.hash_function k = (DS_OK, h))
    (hm : ∃ e ∈ t.buckets.getD (h % t.size) [], e.hash = h) :
    hst_insert (some t) k v = (DS_OK, some t) := by
  obtain ⟨x, hx, hxh⟩ := hm
  unfold hst_insert
  simp only [hk]
  cases hc : t.buckets.getD (h % t.size) [] with
  | nil => rw [hc] at hx; simp at hx
  | cons e rest =>
    rw [hc] at hx
    by_cases he : e.hash = h
    · simp [he]
    · simp [he, hst_insert_scan_of_mem v h rest e ⟨x, hx, hxh⟩]

theorem hst_insert_of_not_mem (t : HashTable) (k : Key) (v : Int) (h : Nat)
    (hk : t.hash_function k = (DS_OK, h))
    (hm : ∀ e ∈ t.buckets.getD (h % t.size) [], e.hash ≠ h) :
    hst_insert (some t) k v =
      (DS_OK, some ⟨t.buckets.set (h % t.size) (t.buckets.getD (h % t.size) [] ++ [⟨v, h⟩]),
        t.size, t.hash_function⟩) := by
  unfold hst_insert
  simp only [hk]
  cases hc : t.buckets.getD (h % t.size) [] with
  | nil => simp [hst_make_entry]
  | cons e rest =>
    rw [hc] at hm
    have he : e.hash ≠ h := hm e (List.mem_cons_self _ _)
    simp [he, hst_insert_scan_of_not_mem v h rest e hm]

theorem hst_search_eq (t : HashTable) (k : Key) :
    hst_search (some t) k =
      match hst_search_scan (t.hash_function k).2
          (t.buckets.getD ((t.hash_function k).2 % t.size) []) with
      | some data => (DS_OK, data)
      | none => (DS_ERR_NOT_FOUND, 0) := by
  unfold hst_search
  cases hc : t.buckets.getD ((t.hash_function k).2 % t.size) [] with
  | nil => simp only [hc]; simp [hst_search_scan]
  | cons e rest =>
    simp only [hc]
    by_cases he : e.hash = (t.hash_function k).2
    · by_cases hr : rest = []
      · simp [he, hr, hst_search_scan]
      · simp [he, hr, hst_search_scan]
    · simp [he]

theorem getD_set_self (l : List Chain) (i : Nat) (hi : i < l.length) (c : Chain) :
    (l.set i c).getD i [] = c := by
  simp [List.getD_eq_getElem?_getD, List.getElem?_set, hi]

/-! ## Construction -/

theorem hst_init_buckets_ok (alloc : Nat → Bool) (n : Nat) :
    ∀ (i : Nat) (bs : List Chain), hst_init_buckets alloc i n = Except.ok bs →
      bs = List.replicate n [] := by
  induction n with
  | zero => intro i bs h; simp [hst_init_buckets] at h; simp [h]
  | succ n ih =>
    intro i bs h
    unfold hst_init_buckets at h
    split at h
    · cases hr : hst_init_buckets alloc (i + 1) n with
      | ok rest =>
        rw [hr] at h
        simp at h
        rw [← h, ih (i + 1) rest hr, List.replicate_succ]
      | error k => rw [hr] at h; simp at h
    · simp at h

theorem hst_init_buckets_of_alloc (alloc : Nat → Bool) (ha : ∀ k, alloc k = true) (n : Nat) :
    ∀ i : Nat, hst_init_buckets alloc i n = Except.ok (List.replicate n []) := by
  induction n with
  | zero => intro i; rfl
  | succ n ih => intro i; simp [hst_init_buckets, ha, ih (i + 1), List.replicate_succ]

theorem hst_init_table_ok (alloc : Nat → Bool) (slot : TableSlot) (size : Nat)
    (function : HashFunction) (t : HashTable)
    (h : hst_init_table alloc slot size function = (DS_OK, TableSlot.table t)) :
    0 < size ∧ t = emptyTable size function := by
  unfold hst_init_table at h
  split at h
  · simp at h
  · rename_i hs
    split at h
    · simp at h
    · split at h
      · simp at h
      · cases hr : hst_init_buckets alloc 0 size with
        | error k => rw [hr] at h; simp at h
        | ok bs =>
          rw [hr] at h
          simp at h
          refine ⟨Nat.pos_of_ne_zero hs, ?_⟩
          rw [← h, hst_init_buckets_ok alloc size 0 bs hr]
          rfl

theorem hst_init_table_of_alloc (alloc : Nat → Bool) (ha : ∀ k, alloc k = true)
    (slot : TableSlot) (size : Nat) (hs : 0 < size) (function : HashFunction) :
    hst_init_table alloc slot size function =
      (DS_OK, TableSlot.table (emptyTable size function)) := by
  have hs0 : size ≠ 0 := Nat.pos_iff_ne_zero.1 hs
  simp [hst_init_table, hs0, ha, hst_init_buckets_of_alloc alloc ha, emptyTable]

theorem emptyTable_wellFormed (size : Nat) (hs : 0 < size) (function : HashFunction) :
    (emptyTable size function).WellFormed := by
  simp [HashTable.WellFormed, emptyTable, hs]

theorem emptyTable_placed (size : Nat) (function : HashFunction) :
    (emptyTable size function).Placed := by
  intro i c hc e he
  simp only [emptyTable, List.getElem?_replicate] at hc
  split at hc
  · simp at hc; subst hc; simp at he
  · simp at hc

theorem emptyTable_chainsNodup (size : Nat) (function : HashFunction) :
    (emptyTable size function).ChainsNodup := by
  intro c hc
  simp only [emptyTable] at hc
  rw [List.eq_of_mem_replicate hc]
  simp

theorem hst_insert_cases (t : HashTable) (k : Key) (v : Int) :
    (hst_insert (some t) k v).2 = some t ∨
      ∃ h, t.hash_function k = (DS_OK, h) ∧
        (∀ e ∈ t.buckets.getD (h % t.size) [], e.hash ≠ h) ∧
        hst_insert (some t) k v =
          (DS_OK, some ⟨t.buckets.set (h % t.size) (t.buckets.getD (h % t.size) [] ++ [⟨v, h⟩]),
            t.size, t.hash_function⟩) := by
  cases hk : t.hash_function k with
  | mk st h =>
    by_cases hst : st = DS_OK
    · subst hst
      by_cases hm : ∃ e ∈ t.buckets.getD (h % t.size) [], e.hash = h
      · left; rw [hst_insert_of_mem t k v h hk hm]
      · right
        have hm2 : ∀ e ∈ t.buckets.getD (h % t.size) [], e.hash ≠ h :=
          fun e he heq => hm ⟨e, he, heq⟩
        exact ⟨h, rfl, hm2, hst_insert_of_not_mem t k v h hk hm2⟩
    · left
      simp [hst_insert, hk, hst]

/-! ## Preservation of the invariants -/

theorem getD_nil_mem_or_nil (l : List Chain) (i : Nat) : l.getD i [] ∈ l ∨ l.getD i [] = [] := by
  by_cases hi : i < l.length
  · left
    rw [List.getD_eq_getElem l [] hi]
    exact List.getElem_mem hi
  · right
    exact List.getD_eq_default l [] (Nat.le_of_not_lt hi)

theorem placed_set (t : HashTable) (hp : t.Placed) (v : Int) (h : Nat) :
    HashTable.Placed ⟨t.buckets.set (h % t.size) (t.buckets.getD (h % t.size) [] ++ [⟨v, h⟩]),
      t.size, t.hash_function⟩ := by
  intro i c hc e he
  simp only [List.getElem?_set] at hc
  split at hc
  · rename_i hpos
    split at hc
    · rename_i hlt
      simp only [Option.some.injEq] at hc
      subst hc
      rcases List.mem_append.1 he with h1 | h1
      · rw [List.getD_eq_getElem t.buckets [] hlt] at h1
        have := hp (h % t.size) _ (List.getElem?_eq_getElem hlt) e h1
        rw [← hpos]; exact this
      · simp at h1
        subst h1
        exact hpos
    · simp at hc
  · exact hp i c hc e he

theorem chainsNodup_set (t : HashTable) (hn : t.ChainsNodup) (v : Int) (h : Nat)
    (hm : ∀ e ∈ t.buckets.getD (h % t.size) [], e.hash ≠ h) :
    HashTable.ChainsNodup
      ⟨t.buckets.set (h % t.size) (t.buckets.getD (h % t.size) [] ++ [⟨v, h⟩]),
        t.size, t.hash_function⟩ := by
  intro c hc
  rcases List.mem_or_eq_of_mem_set hc with h1 | h1
  · exact hn c h1
  · subst h1
    have hold : ((t.buckets.getD (h % t.size) []).map (fun e => e.hash)).Nodup := by
      rcases getD_nil_mem_or_nil t.buckets (h % t.size) with h2 | h2
      · exact hn _ h2
      · rw [h2]; simp
    rw [List.map_append, List.nodup_append]
    refine ⟨hold, by simp, ?_⟩
    intro x hx1 hx2
    simp at hx2
    subst hx2
    obtain ⟨e, he, heq⟩ := List.mem_map.1 hx1
    exact hm e he heq

theorem uniqueHash_of_placed (t : HashTable) (hp : t.Placed) (hn : t.ChainsNodup) :
    t.UniqueHash := by
  unfold HashTable.UniqueHash
  rw [List.map_flatten, List.nodup_flatten]
  constructor
  · intro l hl
    obtain ⟨c, hc, rfl⟩ := List.mem_map.1 hl
    exact hn c hc
  · rw [List.pairwise_map, List.pairwise_iff_getElem]
    intro i j hi hj hij x hx1 hx2
    obtain ⟨e1, he1, h1⟩ := List.mem_map.1 hx1
    obtain ⟨e2, he2, h2⟩ := List.mem_map.1 hx2
    have a1 := hp i _ (List.getElem?_eq_getElem hi) e1 he1
    have a2 := hp j _ (List.getElem?_eq_getElem hj) e2 he2
    rw [h1] at a1
    rw [h2] at a2
    omega

theorem wellFormed_insert (t : HashTable) (hw : t.WellFormed) (k : Key) (v : Int)
    (t' : HashTable) (h : (hst_insert (some t) k v).2 = some t') : t'.WellFormed := by
  rcases hst_insert_cases t k v with h1 | ⟨hh, _, _, h3⟩
  · rw [h1] at h; cases h; exact hw
  · rw [h3] at h
    cases h
    simpa [HashTable.WellFormed] using hw

theorem placed_insert (t : HashTable) (hp : t.Placed) (k : Key) (v : Int)
    (t' : HashTable) (h : (hst_insert (some t) k v).2 = some t') : t'.Placed := by
  rcases hst_insert_cases t k v with h1 | ⟨hh, _, _, h3⟩
  · rw [h1] at h; cases h; exact hp
  · rw [h3] at h
    cases h
    exact placed_set t hp v hh

theorem chainsNodup_insert (t : HashTable) (hn : t.ChainsNodup) (k : Key) (v : Int)
    (t' : HashTable) (h : (hst_insert (some t) k v).2 = some t') : t'.ChainsNodup := by
  rcases hst_insert_cases t k v with h1 | ⟨hh, _, hm, h3⟩
  · rw [h1] at h; cases h; exact hn
  · rw [h3] at h
    cases h
    exact chainsNodup_set t hn v hh hm

theorem reachable_inv (t : HashTable) (hr : Reachable t) :
    t.WellFormed ∧ t.Placed ∧ t.ChainsNodup := by
  induction hr with
  | init alloc slot size function t h =>
    obtain ⟨hs, rfl⟩ := hst_init_table_ok alloc slot size function t h
    exact ⟨emptyTable_wellFormed size hs function, emptyTable_placed size function,
      emptyTable_chainsNodup size function⟩
  | insert t key value t' _ h ih =>
    exact ⟨wellFormed_insert t ih.1 key value t' h, placed_insert t ih.2.1 key value t' h,
      chainsNodup_insert t ih.2.2 key value t' h⟩

theorem reachable_emptyTable (size : Nat) (hs : 0 < size) (function : HashFunction) :
    Reachable (emptyTable size function) :=
  Reachable.init (fun _ => true) TableSlot.null size function _
    (hst_init_table_of_alloc _ (fun _ => rfl) _ size hs function)

theorem reachable_abcTable : Reachable abcTable :=
  Reachable.insert (emptyTable 7 hash_string_djb2) (cstr "abc") 1 abcTable
    (reachable_emptyTable 7 (by decide) hash_string_djb2) rfl

/-! ## The claims -/

/-- C1, as stated, fails: on the table built with size 7 and `hash_string_djb2`, after
`hst_insert` of `"abc"` with 1 and then `hst_insert` of `"abc"` with 2, `hst_search` of
`"abc"` returns `DS_OK` and yields 1, not the value 2 of the insert just before it. -/
theorem hst_search_after_insert_counterexample :
    hst_init_table (fun _ => true) TableSlot.null 7 hash_string_djb2 =
        (DS_OK, TableSlot.table (emptyTable 7 hash_string_djb2)) ∧
      (hst_insert (some (emptyTable 7 hash_string_djb2)) (cstr "abc") 1).2 = some abcTable ∧
      hst_search (hst_insert (some abcTable) (cstr "abc") 2).2 (cstr "abc") = (DS_OK, 1) ∧
      hst_search (hst_insert (some abcTable) (cstr "abc") 2).2 (cstr "abc") ≠ (DS_OK, 2) :=
  ⟨rfl, rfl, by decide, by decide⟩

/-- C1, amended: on every table built by `hst_init_table` followed by any sequence of
`hst_insert` calls, for every key `k1` on which the hash function returns `DS_OK` and every
value `v`, `hst_search` of `k1` right after `hst_insert` of `k1` with `v` returns `DS_OK`;
it yields `v` when the search of `k1` before the insert did not return `DS_OK`, and
otherwise the value that search yielded (the insert is then a no-op). -/
theorem hst_search_after_insert (t : HashTable) (hr : Reachable t) (k1 : Key) (v : Int)
    (hk : (t.hash_function k1).1 = DS_OK) :
    hst_search (hst_insert (some t) k1 v).2 k1 =
      (DS_OK, if (hst_search (some t) k1).1 = DS_OK then (hst_search (some t) k1).2 else v) := by
  obtain ⟨hw, _, _⟩ := reachable_inv t hr
  have hkk : t.hash_function k1 = (DS_OK, (t.hash_function k1).2) := by
    rw [← hk]
  generalize hh : (t.hash_function k1).2 = h at hkk
  have hpos : h % t.size < t.buckets.length := by
    rw [hw.2]; exact Nat.mod_lt _ hw.1
  by_cases hm : ∃ e ∈ t.buckets.getD (h % t.size) [], e.hash = h
  · rw [hst_insert_of_mem t k1 v h hkk hm]
    have hs := hst_search_eq t k1
    rw [hh] at hs
    cases hsc : hst_search_scan h (t.buckets.getD (h % t.size) []) with
    | none =>
      obtain ⟨e, he, heq⟩ := hm
      exact absurd heq ((hst_search_scan_none_iff h _).1 hsc e he)
    | some d =>
      rw [hsc] at hs
      simp [hs]
  · have hm2 : ∀ e ∈ t.buckets.getD (h % t.size) [], e.hash ≠ h :=
      fun e he heq => hm ⟨e, he, heq⟩
    rw [hst_insert_of_not_mem t k1 v h hkk hm2]
    have hs := hst_search_eq t k1
    rw [hh, (hst_search_scan_none_iff h _).2 hm2] at hs
    rw [hst_search_eq]
    simp only [hh, getD_set_self t.buckets (h % t.size) hpos]
    have := hst_search_scan_first h ⟨v, h⟩ [] rfl _ hm2
    simp only [this, hs]
    simp

/-- Witness of C1 (amended) on the table holding `"abc"` with 1. -/
theorem hst_search_after_insert_witness :
    Reachable abcTable ∧ (abcTable.hash_function (cstr "abc")).1 = DS_OK ∧
      hst_search (hst_insert (some abcTable) (cstr "abc") 2).2 (cstr "abc") =
        (DS_OK, if (hst_search (some abcTable) (cstr "abc")).1 = DS_OK
          then (hst_search (some abcTable) (cstr "abc")).2 else 2) :=
  ⟨reachable_abcTable, rfl,
    hst_search_after_insert abcTable reachable_abcTable (cstr "abc") 2 rfl⟩

/-- C2: on every table built by `hst_init_table` and `hst_insert` calls, for every key
whose hash (the hash function returning `DS_OK`) is carried by an entry of some chain of
the table, and every value, `hst_insert` returns `DS_OK` and leaves the table as it was:
the same chains with the same entries, hence the same number of entries. -/
theorem hst_insert_duplicate_noop (t : HashTable) (hr : Reachable t) (k : Key) (v : Int)
    (hk : (t.hash_function k).1 = DS_OK)
    (hc : ∃ c ∈ t.buckets, ∃ e ∈ c, e.hash = (t.hash_function k).2) :
    hst_insert (some t) k v = (DS_OK, some t) ∧
      ∀ t' : HashTable, (hst_insert (some t) k v).2 = some t' →
        t'.buckets = t.buckets ∧ t'.buckets.flatten.length = t.buckets.flatten.length := by
  obtain ⟨_, hp, _⟩ := reachable_inv t hr
  obtain ⟨c, hcb, e, hec, heq⟩ := hc
  obtain ⟨i, hi⟩ := List.mem_iff_getElem?.1 hcb
  have hpl : e.hash % t.size = i := hp i c hi e hec
  have hget : t.buckets.getD ((t.hash_function k).2 % t.size) [] = c := by
    rw [← heq, hpl, List.getD_eq_getElem?_getD, hi]
    rfl
  have hkk : t.hash_function k = (DS_OK, (t.hash_function k).2) := by
    rw [← hk]
  have hins : hst_insert (some t) k v = (DS_OK, some t) :=
    hst_insert_of_mem t k v _ hkk ⟨e, by rw [hget]; exact hec, heq⟩
  refine ⟨hins, ?_⟩
  intro t' ht'
  rw [hins] at ht'
  cases ht'
  exact ⟨rfl, rfl⟩

/-- Witness of C2: the key `"abc"` inserted a second time, with another value. -/
theorem hst_insert_duplicate_noop_witness :
    Reachable abcTable ∧ (abcTable.hash_function (cstr "abc")).1 = DS_OK ∧
      (∃ c ∈ abcTable.buckets, ∃ e ∈ c, e.hash = (abcTable.hash_function (cstr "abc")).2) ∧
      hst_insert (some abcTable) (cstr "abc") 2 = (DS_OK, some abcTable) :=
  ⟨reachable_abcTable, rfl, ⟨[⟨1, 193485963⟩], by simp [abcTable], ⟨1, 193485963⟩, by simp, rfl⟩,
    (hst_insert_duplicate_noop abcTable reachable_abcTable (cstr "abc") 2 rfl
      ⟨[⟨1, 193485963⟩], by simp [abcTable], ⟨1, 193485963⟩, by simp, rfl⟩).1⟩

/-- C3: on a table whose `size` is not zero and whose bucket array has `size` slots, for
every key `k` with `h` the value its hash function leaves, the bucket `h % size` has a
chain, and `hst_search` of `k` returns `DS_ERR_NOT_FOUND` exactly when no entry of that
chain has hash `h`; otherwise it returns `DS_OK` and yields the data of the first entry of
the chain whose hash is `h`. -/
theorem hst_search_spec (t : HashTable) (hw : t.WellFormed) (k : Key) :
    ∃ chain : Chain, t.buckets[(t.hash_function k).2 % t.size]? = some chain ∧
      ((hst_search (some t) k).1 = DS_ERR_NOT_FOUND ↔
        ∀ e ∈ chain, e.hash ≠ (t.hash_function k).2) ∧
      ((∀ e ∈ chain, e.hash ≠ (t.hash_function k).2) →
        hst_search (some t) k = (DS_ERR_NOT_FOUND, 0)) ∧
      (∀ (pre : Chain) (e : HashTableEntry) (post : Chain), chain = pre ++ e :: post →
        (∀ x ∈ pre, x.hash ≠ (t.hash_function k).2) → e.hash = (t.hash_function k).2 →
        hst_search (some t) k = (DS_OK, e.data)) := by
  have hpos : (t.hash_function k).2 % t.size < t.buckets.length := by
    rw [hw.2]; exact Nat.mod_lt _ hw.1
  refine ⟨t.buckets[(t.hash_function k).2 % t.size], List.getElem?_eq_getElem hpos, ?_, ?_, ?_⟩
  · rw [hst_search_eq, List.getD_eq_getElem t.buckets [] hpos,
      ← hst_search_scan_none_iff]
    cases hst_search_scan (t.hash_function k).2 t.buckets[(t.hash_function k).2 % t.size] <;>
      simp
  · intro hn
    rw [hst_search_eq, List.getD_eq_getElem t.buckets [] hpos,
      (hst_search_scan_none_iff _ _).2 hn]
  · intro pre e post hch hpre he
    rw [hst_search_eq, List.getD_eq_getElem t.buckets [] hpos, hch,
      hst_search_scan_first _ e post he pre hpre]

/-- Witness of C3 on the table holding `"abc"` with 1. -/
theorem hst_search_spec_witness :
    abcTable.WellFormed ∧
    ∃ chain : Chain,
      abcTable.buckets[(abcTable.hash_function (cstr "abc")).2 % abcTable.size]? = some chain ∧
      ((hst_search (some abcTable) (cstr "abc")).1 = DS_ERR_NOT_FOUND ↔
        ∀ e ∈ chain, e.hash ≠ (abcTable.hash_function (cstr "abc")).2) ∧
      ((∀ e ∈ chain, e.hash ≠ (abcTable.hash_function (cstr "abc")).2) →
        hst_search (some abcTable) (cstr "abc") = (DS_ERR_NOT_FOUND, 0)) ∧
      (∀ (pre : Chain) (e : HashTableEntry) (post : Chain), chain = pre ++ e :: post →
        (∀ x ∈ pre, x.hash ≠ (abcTable.hash_function (cstr "abc")).2) →
        e.hash = (abcTable.hash_function (cstr "abc")).2 →
        hst_search (some abcTable) (cstr "abc") = (DS_OK, e.data)) :=
  ⟨⟨by decide, rfl⟩, hst_search_spec abcTable ⟨by decide, rfl⟩ (cstr "abc")⟩

/-- C4: bucket placement is an invariant. A table `hst_init_table` returns with `DS_OK`
for a size `C` has `size` equal to `C`, `C` is not zero, and every entry of the chain of
bucket `i` has `hash % C = i`; and whenever that holds of a table with `size` buckets,
it holds of the table any `hst_insert` leaves, whose `size` is the same. -/
theorem hst_bucket_placement :
    (∀ (alloc : Nat → Bool) (slot : TableSlot) (C : Nat) (function : HashFunction)
        (t : HashTable),
        hst_init_table alloc slot C function = (DS_OK, TableSlot.table t) →
          0 < C ∧ t.size = C ∧ t.buckets.length = C ∧
            ∀ (i : Nat) (c : Chain), t.buckets[i]? = some c → ∀ e ∈ c, e.hash % C = i) ∧
    (∀ (t : HashTable) (key : Key) (value : Int) (t' : HashTable),
        (0 < t.size ∧ t.buckets.length = t.size) →
        (∀ (i : Nat) (c : Chain), t.buckets[i]? = some c → ∀ e ∈ c, e.hash % t.size = i) →
        (hst_insert (some t) key value).2 = some t' →
          t'.size = t.size ∧ t'.buckets.length = t.size ∧
            ∀ (i : Nat) (c : Chain), t'.buckets[i]? = some c → ∀ e ∈ c, e.hash % t.size = i) := by
  constructor
  · intro alloc slot C function t h
    obtain ⟨hs, rfl⟩ := hst_init_table_ok alloc slot C function t h
    exact ⟨hs, rfl, by simp [emptyTable], emptyTable_placed C function⟩
  · intro t key value t' hw hp h
    have hw' := wellFormed_insert t hw key value t' h
    have hp' := placed_insert t hp key value t' h
    have hsz : t'.size = t.size := by
      rcases hst_insert_cases t key value with h1 | ⟨hh, _, _, h3⟩
      · rw [h1] at h; cases h; rfl
      · rw [h3] at h; cases h; rfl
    refine ⟨hsz, by rw [hw'.2, hsz], ?_⟩
    intro i c hc e he
    rw [← hsz]
    exact hp' i c hc e he

/-- Witness of C4: the table built with size 7 and `hash_string_djb2`, and the table
`hst_insert` of `"abc"` leaves from it. -/
theorem hst_bucket_placement_witness :
    (0 < 7 ∧ (emptyTable 7 hash_string_djb2).size = 7 ∧
      (emptyTable 7 hash_string_djb2).buckets.length = 7 ∧
      ∀ (i : Nat) (c : Chain), (emptyTable 7 hash_string_djb2).buckets[i]? = some c →
        ∀ e ∈ c, e.hash % 7 = i) ∧
    (abcTable.size = 7 ∧ abcTable.buckets.length = 7 ∧
      ∀ (i : Nat) (c : Chain), abcTable.buckets[i]? = some c → ∀ e ∈ c, e.hash % 7 = i) :=
  ⟨hst_bucket_placement.1 (fun _ => true) TableSlot.null 7 hash_string_djb2
      (emptyTable 7 hash_string_djb2) rfl,
    hst_bucket_placement.2 (emptyTable 7 hash_string_djb2) (cstr "abc") 1 abcTable
      ⟨by decide, rfl⟩ (emptyTable_placed 7 hash_string_djb2) rfl⟩

/-- C5: in every table built by `hst_init_table` and `hst_insert` calls, no two entries
carry the same hash: the hashes of all entries, read bucket after bucket and each chain
from its head, are pairwise different. -/
theorem hst_unique_hash (t : HashTable) (hr : Reachable t) :
    (t.buckets.flatten.map (fun e => e.hash)).Nodup := by
  obtain ⟨_, hp, hn⟩ := reachable_inv t hr
  exact uniqueHash_of_placed t hp hn

/-- Witness of C5 on the table holding `"abc"` with 1. -/
theorem hst_unique_hash_witness :
    Reachable abcTable ∧ (abcTable.buckets.flatten.map (fun e => e.hash)).Nodup :=
  ⟨reachable_abcTable, hst_unique_hash abcTable reachable_abcTable⟩

/-- C6: for every table, key `k` whose hash function returns `DS_OK` with hash `h`, and
value `v`, when no entry of the chain of bucket `h % size` has hash `h`, `hst_insert`
returns `DS_OK` and the chain of that bucket becomes the old chain followed by one new
last entry with data `v` and hash `h`, the other buckets, `size` and `hash_function` being
as before; on an empty bucket the chain becomes that single entry. -/
theorem hst_insert_appends (t : HashTable) (k : Key) (v : Int) (h : Nat)
    (hk : t.hash_function k = (DS_OK, h)) (chain : Chain)
    (hc : t.buckets[h % t.size]? = some chain) (hm : ∀ e ∈ chain, e.hash ≠ h) :
    hst_insert (some t) k v =
        (DS_OK, some ⟨t.buckets.set (h % t.size) (chain ++ [⟨v, h⟩]), t.size,
          t.hash_function⟩) ∧
      (t.buckets.set (h % t.size) (chain ++ [⟨v, h⟩]))[h % t.size]? =
        some (chain ++ [⟨v, h⟩]) ∧
      (∀ i : Nat, i ≠ h % t.size →
        (t.buckets.set (h % t.size) (chain ++ [⟨v, h⟩]))[i]? = t.buckets[i]?) ∧
      (chain = [] → (t.buckets.set (h % t.size) (chain ++ [⟨v, h⟩]))[h % t.size]? =
        some [⟨v, h⟩]) := by
  have hget : t.buckets.getD (h % t.size) [] = chain := by
    rw [List.getD_eq_getElem?_getD, hc]; rfl
  have hlt : h % t.size < t.buckets.length := by
    obtain ⟨hlt, _⟩ := List.getElem?_eq_some_iff.1 hc
    exact hlt
  have hins := hst_insert_of_not_mem t k v h hk (by rw [hget]; exact hm)
  rw [hget] at hins
  refine ⟨hins, ?_, ?_, ?_⟩
  · simp [List.getElem?_set, hlt]
  · intro i hi
    simp [List.getElem?_set, Ne.symm hi]
  · intro hnil
    simp [List.getElem?_set, hlt, hnil]

/-- Witness of C6: the key `"d"`, of hash 177673, falls into bucket 6 of the table holding
`"abc"`, behind the entry of `"abc"`. -/
theorem hst_insert_appends_witness :
    abcTable.hash_function (cstr "d") = (DS_OK, 177673) ∧
      abcTable.buckets[177673 % abcTable.size]? = some [⟨1, 193485963⟩] ∧
      (∀ e ∈ [(⟨1, 193485963⟩ : HashTableEntry)], e.hash ≠ 177673) ∧
      hst_insert (some abcTable) (cstr "d") 9 =
        (DS_OK, some ⟨abcTable.buckets.set (177673 % abcTable.size)
          ([⟨1, 193485963⟩] ++ [⟨9, 177673⟩]), abcTable.size, abcTable.hash_function⟩) :=
  ⟨rfl, rfl, by simp,
    (hst_insert_appends abcTable (cstr "d") 9 177673 rfl [⟨1, 193485963⟩] rfl (by simp)).1⟩

/-- C7: on the table `hst_init_table` builds with size 7 and `hash_string_djb2`,
`hst_insert` of `"abc"` with 42 returns `DS_OK`, after which `hst_search` of `"abc"`
returns `DS_OK` with value 42 and `hst_search` of `"xyz"` returns `DS_ERR_NOT_FOUND`. -/
theorem hst_djb2_scenario :
    ∃ t : HashTable,
      hst_init_table (fun _ => true) TableSlot.null 7 hash_string_djb2 =
        (DS_OK, TableSlot.table t) ∧
      (hst_insert (some t) (cstr "abc") 42).1 = DS_OK ∧
      hst_search (hst_insert (some t) (cstr "abc") 42).2 (cstr "abc") = (DS_OK, 42) ∧
      (hst_search (hst_insert (some t) (cstr "abc") 42).2 (cstr "xyz")).1 = DS_ERR_NOT_FOUND :=
  ⟨emptyTable 7 hash_string_djb2, rfl, by decide, by decide, by decide⟩

/-- C8: for every table `t` whose `size` is not zero, whatever its chains hold, with every
allocation succeeding, `hst_erase_table` returns `DS_OK` and leaves the very table
`hst_init_table` builds for the size and hash function of `t`: `size` buckets, all `NULL`,
the same `size` and the same `hash_function`; `hst_search` of any key on it returns
`DS_ERR_NOT_FOUND`. -/
theorem hst_erase_table_fresh (alloc : Nat → Bool) (ha : ∀ k, alloc k = true)
    (t : HashTable) (hs : 0 < t.size) (slot : TableSlot) :
    ∃ fresh : HashTable,
      hst_erase_table alloc (some t) = (DS_OK, TableSlot.table fresh) ∧
      hst_init_table alloc slot t.size t.hash_function = (DS_OK, TableSlot.table fresh) ∧
      fresh.buckets = List.replicate t.size [] ∧ fresh.buckets.length = t.size ∧
      fresh.size = t.size ∧ fresh.hash_function = t.hash_function ∧
      ∀ key : Key, hst_search (some fresh) key = (DS_ERR_NOT_FOUND, 0) := by
  have hinit := hst_init_table_of_alloc alloc ha
  refine ⟨emptyTable t.size t.hash_function, ?_, hinit slot t.size hs t.hash_function, rfl,
    by simp [emptyTable], rfl, rfl, ?_⟩
  · simp [hst_erase_table, hst_delete_table, TableSlot.ofPtr, hinit TableSlot.null t.size hs]
  · intro key
    rw [hst_search_eq]
    have hlt : (t.hash_function key).2 % t.size < (List.replicate t.size ([] : Chain)).length := by
      rw [List.length_replicate]; exact Nat.mod_lt _ hs
    simp only [emptyTable]
    rw [List.getD_eq_getElem _ [] hlt]
    simp [hst_search_scan]

/-- Witness of C8: erasing the table that holds `"abc"`. -/
theorem hst_erase_table_fresh_witness :
    (∀ k : Nat, (fun _ : Nat => true) k = true) ∧ 0 < abcTable.size ∧
    ∃ fresh : HashTable,
      hst_erase_table (fun _ => true) (some abcTable) = (DS_OK, TableSlot.table fresh) ∧
      hst_init_table (fun _ => true) TableSlot.null abcTable.size abcTable.hash_function =
        (DS_OK, TableSlot.table fresh) ∧
      fresh.buckets = List.replicate abcTable.size [] ∧
      fresh.buckets.length = abcTable.size ∧
      fresh.size = abcTable.size ∧ fresh.hash_function = abcTable.hash_function ∧
      ∀ key : Key, hst_search (some fresh) key = (DS_ERR_NOT_FOUND, 0) :=
  ⟨fun _ => rfl, by decide,
    hst_erase_table_fresh (fun _ => true) (fun _ => rfl) abcTable (by decide) TableSlot.null⟩

/-- C9, as stated, fails: with size 0 (and every allocation bound to succeed)
`hst_init_table` returns `DS_ERR_INVALID_SIZE`, which is not `DS_ERR_ALLOC`. -/
theorem hst_init_table_zero_size_counterexample :
    (hst_init_table (fun _ => true) TableSlot.null 0 hash_string_djb2).1 =
        DS_ERR_INVALID_SIZE ∧
      (hst_init_table (fun _ => true) TableSlot.null 0 hash_string_djb2).1 ≠ DS_ERR_ALLOC :=
  ⟨rfl, by decide⟩

/-- C9, amended: called with size 0, `hst_init_table` fails with the invalid-size error,
for every hash function argument and whatever the allocator would do: the status is
`DS_ERR_INVALID_SIZE`, neither `DS_OK` nor `DS_ERR_ALLOC`. -/
theorem hst_init_table_zero_size_status (alloc : Nat → Bool) (slot : TableSlot)
    (function : HashFunction) :
    (hst_init_table alloc slot 0 function).1 = DS_ERR_INVALID_SIZE ∧
      (hst_init_table alloc slot 0 function).1 ≠ DS_OK ∧
      (hst_init_table alloc slot 0 function).1 ≠ DS_ERR_ALLOC := by
  simp [hst_init_table]

/-- C10: called with size 0, `hst_init_table` returns `DS_ERR_INVALID_SIZE` and the
caller's table pointer holds what it held before the call, for every hash function
argument and whatever the allocator would do. -/
theorem hst_init_table_zero_size_untouched (alloc : Nat → Bool) (slot : TableSlot)
    (function : HashFunction) :
    hst_init_table alloc slot 0 function = (DS_ERR_INVALID_SIZE, slot) := by
  simp [hst_init_table]

/-! ## The hash functions -/

theorem djb2_step_eq (h : Nat) (c : Int) :
    (((((h <<< 5) % 2 ^ 64 + h) % 2 ^ 64 : Nat) + c) % 2 ^ 64).toNat =
      ((h * 33 + c) % 2 ^ 64).toNat := by
  rw [Nat.shiftLeft_eq]
  congr 1
  omega

theorem djb2_loop_eq_foldl (key : Key) :
    ∀ h : Nat, djb2_loop key h =
      (chars key).foldl (fun acc c => ((acc * 33 + c) % 2 ^ 64).toNat) h := by
  induction key with
  | nil => intro h; rfl
  | cons c key ih =>
    intro h
    by_cases hc : c = 0
    · simp [djb2_loop, chars, hc]
    · have hch : chars (c :: key) = c :: chars key := by simp [chars, hc]
      rw [hch, List.foldl_cons, ← ih, ← djb2_step_eq]
      simp [djb2_loop, hc]

theorem sdbm_step_eq (h : Nat) (c : Int) :
    (((c + ((((h <<< 6) % 2 ^ 64 + (h <<< 16) % 2 ^ 64) % 2 ^ 64 : Nat) : Int))
        % 2 ^ 64 - h) % 2 ^ 64).toNat =
      ((c + ((h <<< 6 : Nat) : Int) + ((h <<< 16 : Nat) : Int) - h) % 2 ^ 64).toNat := by
  rw [Nat.shiftLeft_eq, Nat.shiftLeft_eq]
  congr 1
  omega

theorem sdbm_step_mul (h : Nat) (c : Int) :
    ((c + ((h <<< 6 : Nat) : Int) + ((h <<< 16 : Nat) : Int) - h) % 2 ^ 64).toNat =
      ((c + 65599 * h) % 2 ^ 64).toNat := by
  rw [Nat.shiftLeft_eq, Nat.shiftLeft_eq]
  congr 1
  omega

theorem sdbm_loop_eq_foldl (key : Key) :
    ∀ h : Nat, sdbm_loop key h =
      (chars key).foldl (fun acc c =>
        ((c + ((acc <<< 6 : Nat) : Int) + ((acc <<< 16 : Nat) : Int) - acc) % 2 ^ 64).toNat) h := by
  induction key with
  | nil => intro h; rfl
  | cons c key ih =>
    intro h
    by_cases hc : c = 0
    · simp [sdbm_loop, chars, hc]
    · have hch : chars (c :: key) = c :: chars key := by simp [chars, hc]
      rw [hch, List.foldl_cons, ← ih, ← sdbm_step_eq]
      simp [sdbm_loop, hc]

theorem sdbm_spec_eq_mul (bytes : List Int) : sdbm_spec bytes = sdbm_mul_spec bytes := by
  unfold sdbm_spec sdbm_mul_spec
  congr 1
  funext acc c
  exact sdbm_step_mul acc c

/-- C15: for every C string, `hash_string_djb2` returns `DS_OK` and leaves the value
obtained from the accumulator 5381 by applying `acc := acc * 33 + c` modulo `2 ^ 64` for
each character `c` of the string in order, `c` being the `int` the code reads; the shift
form of the code computes this value whatever the values of the characters. -/
theorem hash_string_djb2_eq_spec (key : Key) :
    hash_string_djb2 key = (DS_OK, djb2_spec (chars key)) := by
  simp [hash_string_djb2, djb2_spec, djb2_loop_eq_foldl]

/-- C16: for every C string, `hash_string_sdbm` returns `DS_OK` and leaves the value
obtained from the accumulator 0 by applying `acc := c + (acc << 6) + (acc << 16) - acc`
modulo `2 ^ 64` for each character `c` in order, which is also the value obtained with
the step `acc := c + 65599 * acc` modulo `2 ^ 64`. -/
theorem hash_string_sdbm_eq_spec (key : Key) :
    hash_string_sdbm key = (DS_OK, sdbm_spec (chars key)) ∧
      sdbm_spec (chars key) = sdbm_mul_spec (chars key) := by
  refine ⟨?_, sdbm_spec_eq_mul _⟩
  simp [hash_string_sdbm, sdbm_spec, sdbm_loop_eq_foldl]

theorem filter_flatten_set_append (p : HashTableEntry → Bool) (x : HashTableEntry)
    (hx : p x = true) (l : List Chain) :
    ∀ i : Nat, i < l.length → (∀ c ∈ l, ∀ e ∈ c, p e = false) →
      (l.set i (l.getD i [] ++ [x])).flatten.filter p = [x] := by
  induction l with
  | nil => intro i hi; simp at hi
  | cons a l ih =>
    intro i hi hno
    have ha : a.filter p = [] := by
      rw [List.filter_eq_nil_iff]
      intro e he
      simp [hno a (List.mem_cons_self _ _) e he]
    have hl : l.flatten.filter p = [] := by
      rw [List.filter_eq_nil_iff]
      intro e he
      obtain ⟨c, hc, hec⟩ := List.mem_flatten.1 he
      simp [hno c (List.mem_cons_of_mem _ hc) e hec]
    cases i with
    | zero => simp [List.filter_append, ha, hl, hx]
    | succ i =>
      have hi2 : i < l.length := by simpa using hi
      have := ih i hi2 (fun c hc => hno c (List.mem_cons_of_mem _ hc))
      simp only [List.getD_eq_getElem?_getD] at this
      simp [List.filter_append, ha, this]

/-- C12: on a table with `size > 0` and `size` buckets that holds no entry with hash `h`,
for keys `k1` and `k2` on both of which the hash function returns `DS_OK` with `h`:
`hst_insert` of `k1` with `v1` returns `DS_OK`, `hst_insert` of `k2` with `v2` then returns
`DS_OK` and leaves the table as it is, the entries with hash `h` in the table are the one
entry `(v1, h)`, and `hst_search` of `k2` returns `DS_OK` with `v1`. -/
theorem hst_insert_collision (t : HashTable) (hw : t.WellFormed) (k1 k2 : Key) (v1 v2 : Int)
    (h : Nat) (h1 : t.hash_function k1 = (DS_OK, h)) (h2 : t.hash_function k2 = (DS_OK, h))
    (hno : ∀ c ∈ t.buckets, ∀ e ∈ c, e.hash ≠ h) :
    ∃ t1 : HashTable, hst_insert (some t) k1 v1 = (DS_OK, some t1) ∧
      hst_insert (some t1) k2 v2 = (DS_OK, some t1) ∧
      t1.buckets.flatten.filter (fun e => decide (e.hash = h)) = [⟨v1, h⟩] ∧
      hst_search (some t1) k2 = (DS_OK, v1) := by
  have hpos : h % t.size < t.buckets.length := by
    rw [hw.2]; exact Nat.mod_lt _ hw.1
  have hchain : ∀ e ∈ t.buckets.getD (h % t.size) [], e.hash ≠ h := by
    rcases getD_nil_mem_or_nil t.buckets (h % t.size) with hm | hm
    · exact hno _ hm
    · rw [hm]; intro e he; simp at he
  refine ⟨⟨t.buckets.set (h % t.size) (t.buckets.getD (h % t.size) [] ++ [⟨v1, h⟩]),
    t.size, t.hash_function⟩, hst_insert_of_not_mem t k1 v1 h h1 hchain, ?_, ?_, ?_⟩
  · refine hst_insert_of_mem
      ⟨t.buckets.set (h % t.size) (t.buckets.getD (h % t.size) [] ++ [⟨v1, h⟩]),
        t.size, t.hash_function⟩ k2 v2 h h2 ⟨⟨v1, h⟩, ?_, rfl⟩
    simp only [getD_set_self t.buckets (h % t.size) hpos]
    simp
  · apply filter_flatten_set_append _ _ (by simp) _ _ hpos
    intro c hc e he
    simpa using hno c hc e he
  · rw [hst_search_eq]
    simp only [h2, getD_set_self t.buckets (h % t.size) hpos]
    rw [hst_search_scan_first h ⟨v1, h⟩ [] rfl _ hchain]

/-- Witness of C12: `"ab"` and `"bA"` are distinct keys with the djb2 hash 5863208. -/
theorem hst_insert_collision_witness :
    (emptyTable 7 hash_string_djb2).WellFormed ∧ cstr "ab" ≠ cstr "bA" ∧
    (emptyTable 7 hash_string_djb2).hash_function (cstr "ab") = (DS_OK, 5863208) ∧
    (emptyTable 7 hash_string_djb2).hash_function (cstr "bA") = (DS_OK, 5863208) ∧
    (∀ c ∈ (emptyTable 7 hash_string_djb2).buckets, ∀ e ∈ c, e.hash ≠ 5863208) ∧
    ∃ t1 : HashTable,
      hst_insert (some (emptyTable 7 hash_string_djb2)) (cstr "ab") 1 = (DS_OK, some t1) ∧
      hst_insert (some t1) (cstr "bA") 2 = (DS_OK, some t1) ∧
      t1.buckets.flatten.filter (fun e => decide (e.hash = 5863208)) = [⟨1, 5863208⟩] ∧
      hst_search (some t1) (cstr "bA") = (DS_OK, 1) :=
  ⟨emptyTable_wellFormed 7 (by decide) _, by decide, rfl, rfl,
    fun c hc e he => by
      rw [List.eq_of_mem_replicate hc] at he
      simp at he,
    hst_insert_collision (emptyTable 7 hash_string_djb2)
      (emptyTable_wellFormed 7 (by decide) _) (cstr "ab") (cstr "bA") 1 2 5863208 rfl rfl
      (fun c hc e he => by
        rw [List.eq_of_mem_replicate hc] at he
        simp at he)⟩

theorem hst_search_loop_eq (hash : Nat) (chain : Chain) (m : SearchMemory) :
    hst_search_loop hash chain m =
      match hst_search_scan hash chain with
      | some data => (true, ⟨m.table, data⟩)
      | none => (false, m) := by
  induction chain with
  | nil => rfl
  | cons scan next ih =>
    by_cases h : scan.hash = hash
    · simp [hst_search_loop, hst_search_scan, h, SearchMemory.store_value]
    · simp [hst_search_loop, hst_search_scan, h, ih]

/-- C13: for every table, key and content of `*value`, the memory that the statements
of `hst_search` leave holds the table it held before the call, with the same buckets,
chains, entries, `size` and `hash_function`; only `*value` is written. The status and the
value are those of `hst_search`: the status is `DS_OK`, or it is `DS_ERR_NOT_FOUND` and
the value is 0. On a `NULL` table the call returns `DS_ERR_NULL_POINTER` with the value
0. -/
theorem hst_search_frame (t : HashTable) (key : Key) (value : Int) :
    (∃ (st : Status) (v : Int),
      hst_search_call key ⟨some t, value⟩ = (st, ⟨some t, v⟩) ∧
      hst_search (some t) key = (st, v) ∧
      (st = DS_OK ∨ (st = DS_ERR_NOT_FOUND ∧ v = 0))) ∧
    hst_search_call key ⟨none, value⟩ = (DS_ERR_NULL_POINTER, ⟨none, 0⟩) := by
  refine ⟨?_, rfl⟩
  cases hb : t.buckets.getD ((t.hash_function key).2 % t.size) [] with
  | nil =>
    refine ⟨DS_ERR_NOT_FOUND, 0, ?_, ?_, Or.inr ⟨rfl, rfl⟩⟩
    · simp only [hst_search_call, SearchMemory.store_value, hb]
    · simp only [hst_search, hb]
  | cons head rest =>
    by_cases h1 : rest = [] ∧ head.hash = (t.hash_function key).2
    · refine ⟨DS_OK, head.data, ?_, ?_, Or.inl rfl⟩
      · simp only [hst_search_call, SearchMemory.store_value, hb, h1]
        simp
      · simp only [hst_search, hb, h1]
        simp
    · cases hs : hst_search_scan (t.hash_function key).2 (head :: rest) with
      | none =>
        refine ⟨DS_ERR_NOT_FOUND, 0, ?_, ?_, Or.inr ⟨rfl, rfl⟩⟩
        · simp only [hst_search_call, SearchMemory.store_value, hb, h1, hst_search_loop_eq, hs]
          simp
        · simp only [hst_search, hb, h1, hs]
          simp
      | some data =>
        refine ⟨DS_OK, data, ?_, ?_, Or.inl rfl⟩
        · simp only [hst_search_call, SearchMemory.store_value, hb, h1, hst_search_loop_eq, hs]
          simp
        · simp only [hst_search, hb, h1, hs]
          simp

/-- C14: for every table, key and value, `hst_insert` leaves a table with the same
`size`, the same number of buckets and the same `hash_function`, in which every bucket
other than the one at `hash % size` is as before. -/
theorem hst_insert_frame (t : HashTable) (key : Key) (value : Int) :
    ∃ t' : HashTable, (hst_insert (some t) key value).2 = some t' ∧
      t'.size = t.size ∧ t'.buckets.length = t.buckets.length ∧
      t'.hash_function = t.hash_function ∧
      ∀ i : Nat, i = (t.hash_function key).2 % t.size ∨ t'.buckets[i]? = t.buckets[i]? := by
  rcases hst_insert_cases t key value with h1 | ⟨h, hk, _, h3⟩
  · exact ⟨t, h1, rfl, rfl, rfl, fun _ => Or.inr rfl⟩
  · refine ⟨⟨t.buckets.set (h % t.size) (t.buckets.getD (h % t.size) [] ++ [⟨value, h⟩]),
      t.size, t.hash_function⟩, by rw [h3], rfl, by simp, rfl, ?_⟩
    intro i
    by_cases hi : i = (t.hash_function key).2 % t.size
    · exact Or.inl hi
    · right
      rw [hk] at hi
      simp [List.getElem?_set, Ne.symm hi]

/-- C17, as stated, fails: on the empty string `hash_string_djb2` returns `DS_OK` and the
hash value 5381, not 0. -/
theorem hash_empty_string_counterexample :
    hash_string_djb2 (cstr "") = (DS_OK, 5381) ∧ (hash_string_djb2 (cstr "")).2 ≠ 0 :=
  ⟨rfl, by decide⟩

/-- C17, amended: on the empty string, that is on every C string whose first character
is the terminator, `hash_string_sdbm` and `hash_string_java` return `DS_OK` and the hash
value 0, and `hash_string_djb2` returns `DS_OK` and the hash value 5381, its initial
accumulator. -/
theorem hash_empty_string (rest : Key) :
    hash_string_sdbm (cstr "") = (DS_OK, 0) ∧ hash_string_sdbm (0 :: rest) = (DS_OK, 0) ∧
      hash_string_java (cstr "") = some (DS_OK, 0) ∧
      hash_string_java (0 :: rest) = some (DS_OK, 0) ∧
      hash_string_djb2 (cstr "") = (DS_OK, 5381) ∧
      hash_string_djb2 (0 :: rest) = (DS_OK, 5381) := by
  refine ⟨rfl, ?_, rfl, ?_, rfl, ?_⟩
  · simp [hash_string_sdbm, sdbm_loop]
  · simp [hash_string_java, chars]
  · simp [hash_string_djb2, djb2_loop]

/-- C18 fails on the string `"ab"`: `hash_string_java` leaves 9045087, which is
`(97 * 31) ^ 2 + (98 * 31) ^ 1`, whereas the polynomial `97 * 31 ^ 2 + 98 * 31 ^ 1` of the
design document is 96255. -/
theorem hash_string_java_ab :
    hash_string_java (cstr "ab") = some (DS_OK, 9045087) ∧
      java_spec (chars (cstr "ab")) = 96255 ∧
      hash_string_java (cstr "ab") ≠ some (DS_OK, java_spec (chars (cstr "ab"))) :=
  ⟨by decide, by decide, by decide⟩

theorem foldl_lt_of_step_lt (f : Nat → Int → Nat) (bound : Nat)
    (hf : ∀ (acc : Nat) (c : Int), f acc c < bound) (l : List Int) :
    ∀ h : Nat, h < bound → l.foldl f h < bound := by
  induction l with
  | nil => intro h hh; exact hh
  | cons c rest ih =>
    intro h _
    exact ih (f h c) (hf h c)

theorem toNat_emod_lt (x : Int) : (x % 2 ^ 64).toNat < 2 ^ 64 := by
  have h1 : 0 ≤ x % 2 ^ 64 := Int.emod_nonneg x (by decide)
  have h2 : x % 2 ^ 64 < 2 ^ 64 := Int.emod_lt_of_pos x (by decide)
  omega

theorem java_loop_on_lt (term : Int → Nat → Nat) (len : Nat) (l : List Int) :
    ∀ i hash : Nat, hash < 2 ^ 64 → java_loop_on term len i l hash < 2 ^ 64 := by
  induction l with
  | nil => intro i hash hh; exact hh
  | cons c rest ih =>
    intro i hash _
    exact ih (i + 1) _ (Nat.mod_lt _ (by decide))

theorem java_term_lt (c : Int) (e p : Nat) (h : java_term c e = some p) :
    p = ((c * 31) ^ e).toNat ∧ p < 2 ^ 64 := by
  unfold java_term at h
  by_cases hc : 0 ≤ (c * 31) ^ e ∧ (c * 31) ^ e < 2 ^ 53
  · rw [if_pos hc] at h
    have hp : ((c * 31) ^ e).toNat = p := Option.some.inj h
    refine ⟨hp.symm, ?_⟩
    rw [← hp]
    omega
  · rw [if_neg hc] at h
    exact absurd h (by simp)

theorem java_loop_on_eq (term : Int → Nat → Nat)
    (hterm : ∀ (c : Int) (e p : Nat), java_term c e = some p → term (c * 31) e = p)
    (len : Nat) (l : List Int) :
    ∀ (i hash v : Nat), java_loop len i l hash = some v →
      java_loop_on term len i l hash = v := by
  induction l with
  | nil =>
    intro i hash v h
    simp [java_loop] at h
    simpa [java_loop_on] using h
  | cons c rest ih =>
    intro i hash v h
    cases ht : java_term c (len - i) with
    | none => simp [java_loop, ht] at h
    | some p =>
      simp only [java_loop, ht] at h
      have hp := hterm c (len - i) p ht
      have hlt := (java_term_lt c (len - i) p ht).2
      simp only [java_loop_on, hp, Nat.mod_eq_of_lt hlt]
      exact ih (i + 1) _ v h

/-- C19: on every C string, and whatever the platform makes of `(size_t)pow(x, y)`, each
of `hash_string_djb2`, `hash_string_sdbm` and `hash_string_java` returns `DS_OK` and
leaves a `size_t` value in `*hash`, and that value is the same for two strings with the
same characters before the terminator, whatever lies behind it. Where every power of
`hash_string_java` has an exact value, the function is the one that value gives. -/
theorem hash_never_fails (term : Int → Nat → Nat) (key : Key) :
    (hash_string_djb2 key).1 = DS_OK ∧ (hash_string_sdbm key).1 = DS_OK ∧
    (hash_string_java_on term key).1 = DS_OK ∧
    (hash_string_djb2 key).2 < 2 ^ 64 ∧ (hash_string_sdbm key).2 < 2 ^ 64 ∧
    (hash_string_java_on term key).2 < 2 ^ 64 ∧
    (∀ key' : Key, chars key' = chars key →
      hash_string_djb2 key' = hash_string_djb2 key ∧
      hash_string_sdbm key' = hash_string_sdbm key ∧
      hash_string_java_on term key' = hash_string_java_on term key) ∧
    (∀ r : Status × Nat, hash_string_java key = some r →
      (∀ (c : Int) (e p : Nat), java_term c e = some p → term (c * 31) e = p) →
      hash_string_java_on term key = r) := by
  refine ⟨rfl, rfl, ?_, ?_, ?_, ?_, ?_, ?_⟩
  · unfold hash_string_java_on
    by_cases h : (chars key).length = 0 <;> simp [h]
  · show djb2_loop key 5381 < 2 ^ 64
    rw [djb2_loop_eq_foldl]
    exact foldl_lt_of_step_lt _ _ (fun acc c => toNat_emod_lt _) _ _ (by decide)
  · show sdbm_loop key 0 < 2 ^ 64
    rw [sdbm_loop_eq_foldl]
    exact foldl_lt_of_step_lt _ _ (fun acc c => toNat_emod_lt _) _ _ (by decide)
  · unfold hash_string_java_on
    by_cases h : (chars key).length = 0
    · simp [h]
    · simp only [h, if_false]
      exact java_loop_on_lt term _ _ 0 0 (by decide)
  · intro key' hk
    refine ⟨?_, ?_, ?_⟩
    · simp only [hash_string_djb2, djb2_loop_eq_foldl, hk]
    · simp only [hash_string_sdbm, sdbm_loop_eq_foldl, hk]
    · simp only [hash_string_java_on, hk]
  · intro r hr hterm
    unfold hash_string_java at hr
    unfold hash_string_java_on
    by_cases h : (chars key).length = 0
    · rw [if_pos h] at hr
      rw [if_pos h]
      exact Option.some.inj hr
    · rw [if_neg h] at hr
      rw [if_neg h]
      cases hl : java_loop (chars key).length 0 (chars key) 0 with
      | none => simp [hl] at hr
      | some v =>
        simp only [hl] at hr
        rw [java_loop_on_eq term hterm _ _ 0 0 v hl]
        exact Option.some.inj hr

/-- Witness of C19: the string `"ab"`, with and without bytes behind its terminator, on a
platform whose `pow` is exact. -/
theorem hash_never_fails_witness :
    chars (cstr "ab" ++ [0, 7]) = chars (cstr "ab") ∧
    hash_string_java_on (fun x y => (x ^ y).toNat) (cstr "ab") = (DS_OK, 9045087) ∧
    (hash_string_djb2 (cstr "ab" ++ [0, 7]) = hash_string_djb2 (cstr "ab") ∧
      hash_string_sdbm (cstr "ab" ++ [0, 7]) = hash_string_sdbm (cstr "ab") ∧
      hash_string_java_on (fun x y => (x ^ y).toNat) (cstr "ab" ++ [0, 7]) =
        hash_string_java_on (fun x y => (x ^ y).toNat) (cstr "ab")) :=
  ⟨by decide, by decide,
    (hash_never_fails (fun x y => (x ^ y).toNat) (cstr "ab")).2.2.2.2.2.2.1
      (cstr "ab" ++ [0, 7]) (by decide)⟩

/-! ## Frames, failed construction and released memory -/

theorem hst_search_scan_append_ne (h h' : Nat) (v : Int) (hne : h' ≠ h) (c : Chain) :
    hst_search_scan h' (c ++ [⟨v, h⟩]) = hst_search_scan h' c := by
  induction c with
  | nil => simp [hst_search_scan, Ne.symm hne]
  | cons e rest ih =>
    by_cases he : e.hash = h'
    · simp [hst_search_scan, he]
    · simp [hst_search_scan, he, ih]

/-- C30: for every table, keys `k` and `k'` whose hashes differ, and value `v`,
`hst_search` of `k'` returns the same status and the same value after `hst_insert` of `k`
with `v` as before it, whether or not the two keys fall into the same bucket. -/
theorem hst_insert_keeps_other_keys (t : HashTable) (k k' : Key) (v : Int)
    (hne : (t.hash_function k').2 ≠ (t.hash_function k).2) :
    hst_search (hst_insert (some t) k v).2 k' = hst_search (some t) k' := by
  rcases hst_insert_cases t k v with h1 | ⟨h, hk, _, h3⟩
  · rw [h1]
  · rw [h3, hst_search_eq, hst_search_eq]
    rw [hk] at hne
    simp only
    by_cases hpos : (t.hash_function k').2 % t.size = h % t.size
    · by_cases hlt : h % t.size < t.buckets.length
      · rw [hpos, getD_set_self t.buckets (h % t.size) hlt, hst_search_scan_append_ne h _ v hne]
      · rw [List.set_eq_of_length_le (Nat.le_of_not_lt hlt)]
    · have : (t.buckets.set (h % t.size) (t.buckets.getD (h % t.size) [] ++ [⟨v, h⟩])).getD
          ((t.hash_function k').2 % t.size) [] =
          t.buckets.getD ((t.hash_function k').2 % t.size) [] := by
        simp [List.getD_eq_getElem?_getD, List.getElem?_set, Ne.symm hpos]
      rw [this]

/-- Witness of C30: `"d"` is inserted into the bucket that holds `"abc"`. -/
theorem hst_insert_keeps_other_keys_witness :
    (abcTable.hash_function (cstr "abc")).2 ≠ (abcTable.hash_function (cstr "d")).2 ∧
      (abcTable.hash_function (cstr "abc")).2 % abcTable.size =
        (abcTable.hash_function (cstr "d")).2 % abcTable.size ∧
      hst_search (hst_insert (some abcTable) (cstr "d") 9).2 (cstr "abc") =
        hst_search (some abcTable) (cstr "abc") :=
  ⟨by decide, by decide,
    hst_insert_keeps_other_keys abcTable (cstr "d") (cstr "abc") 9 (by decide)⟩

theorem hst_init_buckets_error (alloc : Nat → Bool) (n : Nat) :
    ∀ (i k : Nat), hst_init_buckets alloc i n = Except.error k →
      ∃ j : Nat, j < n ∧ k = i + j + 1 ∧ alloc (2 + i + j) = false ∧
        ∀ j' : Nat, j' < j → alloc (2 + i + j') = true := by
  induction n with
  | zero => intro i k h; simp [hst_init_buckets] at h
  | succ n ih =>
    intro i k h
    unfold hst_init_buckets at h
    by_cases ha : alloc (2 + i) = true
    · rw [if_pos ha] at h
      cases hr : hst_init_buckets alloc (i + 1) n with
      | ok rest => rw [hr] at h; simp at h
      | error k' =>
        rw [hr] at h
        simp at h
        obtain ⟨j, hj, hk, hf, hall⟩ := ih (i + 1) k' hr
        refine ⟨j + 1, Nat.succ_lt_succ hj, by omega, ?_, ?_⟩
        · rw [show 2 + i + (j + 1) = 2 + (i + 1) + j by omega]; exact hf
        · intro j' hj'
          cases j' with
          | zero => simpa using ha
          | succ j' =>
            rw [show 2 + i + (j' + 1) = 2 + (i + 1) + j' by omega]
            exact hall j' (by omega)
    · rw [if_neg ha] at h
      simp at h
      refine ⟨0, Nat.succ_pos n, by omega, by simpa using ha, ?_⟩
      intro j' hj'
      omega

/-- What a call of `hst_init_table` that returns a status other than `DS_OK` has done.
The size is 0, the status is `DS_ERR_INVALID_SIZE` and the caller's pointer is not
written. Or the table is not allocated, the status is `DS_ERR_ALLOC` and the caller's
pointer is `NULL`. Or the bucket array is not allocated, or the bucket of some index `i`
is not, the status is `DS_ERR_ALLOC` and the caller's pointer is left on the allocated
table block, whose bucket array is `NULL`, or written up to slot `i` only. -/
theorem hst_init_table_failure_cases (alloc : Nat → Bool) (slot : TableSlot) (size : Nat)
    (f : HashFunction) (hfail : (hst_init_table alloc slot size f).1 ≠ DS_OK) :
    (size = 0 ∧ hst_init_table alloc slot size f = (DS_ERR_INVALID_SIZE, slot)) ∨
    (0 < size ∧ alloc 0 = false ∧
      hst_init_table alloc slot size f = (DS_ERR_ALLOC, TableSlot.null)) ∨
    (0 < size ∧ alloc 0 = true ∧ alloc 1 = false ∧
      hst_init_table alloc slot size f = (DS_ERR_ALLOC, TableSlot.unfinished none)) ∨
    (0 < size ∧ alloc 0 = true ∧ alloc 1 = true ∧
      ∃ i : Nat, i < size ∧ alloc (2 + i) = false ∧ (∀ j : Nat, j < i → alloc (2 + j) = true) ∧
        hst_init_table alloc slot size f =
          (DS_ERR_ALLOC, TableSlot.unfinished (some (i + 1)))) := by
  by_cases hs : size = 0
  · left
    exact ⟨hs, by simp [hst_init_table, hs]⟩
  · have hpos : 0 < size := Nat.pos_of_ne_zero hs
    right
    by_cases h0 : alloc 0 = false
    · left
      exact ⟨hpos, h0, by simp [hst_init_table, hs, h0]⟩
    · right
      have h0t : alloc 0 = true := by simpa using h0
      by_cases h1 : alloc 1 = false
      · left
        exact ⟨hpos, h0t, h1, by simp [hst_init_table, hs, h0t, h1]⟩
      · right
        have h1t : alloc 1 = true := by simpa using h1
        cases hr : hst_init_buckets alloc 0 size with
        | ok bs =>
          exfalso
          apply hfail
          simp [hst_init_table, hs, h0t, h1t, hr]
        | error k =>
          obtain ⟨j, hj, hk, hf, hall⟩ := hst_init_buckets_error alloc size 0 k hr
          refine ⟨hpos, h0t, h1t, j, hj, by simpa using hf, ?_, ?_⟩
          · intro j' hj'
            simpa using hall j' hj'
          · have hk2 : k = j + 1 := by omega
            simp [hst_init_table, hs, h0t, h1t, hr, hk2]

/-- C27 fails when an allocation behind the first one fails. With the table allocated
and the bucket array not, `hst_init_table` returns `DS_ERR_ALLOC` and leaves the caller's
pointer on the table block, whose bucket array is `NULL` and whose `size` and
`hash_function` were never assigned. With the allocation of bucket 2 failing, it returns
`DS_ERR_ALLOC` and leaves the pointer on the block whose bucket array has been written up
to slot 2. In both cases the pointer is not `NULL`: a table that is not completely
initialised is what the caller holds. When the table itself is not allocated the pointer
is `NULL`, and with size 0 it is not written. -/
theorem hst_init_table_leaves_block :
    hst_init_table (fun k => decide (k ≠ 1)) TableSlot.null 7 hash_string_djb2 =
      (DS_ERR_ALLOC, TableSlot.unfinished none) ∧
    hst_init_table (fun k => decide (k ≠ 4)) TableSlot.null 7 hash_string_djb2 =
      (DS_ERR_ALLOC, TableSlot.unfinished (some 3)) ∧
    TableSlot.unfinished none ≠ TableSlot.null ∧
    TableSlot.unfinished (some 3) ≠ TableSlot.null ∧
    hst_init_table (fun k => decide (k ≠ 0)) TableSlot.null 7 hash_string_djb2 =
      (DS_ERR_ALLOC, TableSlot.null) ∧
    hst_init_table (fun _ => true) TableSlot.null 0 hash_string_djb2 =
      (DS_ERR_INVALID_SIZE, TableSlot.null) :=
  ⟨rfl, rfl, by simp, by simp, rfl, rfl⟩

/-- C28 fails on the table holding `"abc"` and `"d"` in one chain: `hst_delete_table`
returns `DS_OK` and sets the caller's pointer to `NULL`, but the only entry it releases is
the head of the chain, the entry of `"abc"`; the entry of `"d"` behind it is an entry of
the table that is not released. On a `NULL` table it returns `DS_ERR_NULL_POINTER`. -/
theorem hst_delete_table_leaks :
    (hst_insert (hst_insert (some (emptyTable 7 hash_string_djb2)) (cstr "abc") 1).2
        (cstr "d") 9).2 = some abcdTable ∧
      hst_delete_table (some abcdTable) = (DS_OK, none) ∧
      hst_delete_table_freed abcdTable = [⟨1, 193485963⟩] ∧
      hst_delete_table_unreleased abcdTable = [⟨9, 177673⟩] ∧
      (⟨9, 177673⟩ : HashTableEntry) ∈ abcdTable.buckets.flatten ∧
      (⟨9, 177673⟩ : HashTableEntry) ∉ hst_delete_table_freed abcdTable ∧
      hst_delete_table none = (DS_ERR_NULL_POINTER, none) :=
  ⟨rfl, rfl, by decide, by decide, by decide, by decide, rfl⟩

/-- C31: for every table whose hash function returns a status other than `DS_OK` for the
key, `hst_insert` returns that status and leaves the table as it was: the same bucket
array holding the same chains, the same `size` and the same hash function. -/
theorem hst_insert_hash_failure (t : HashTable) (key : Key) (value : Int)
    (h : (t.hash_function key).1 ≠ DS_OK) :
    hst_insert (some t) key value = ((t.hash_function key).1, some t) := by
  simp [hst_insert, h]

/-- Witness of C31: the table holding `"abc"` in bucket 6, with a hash function that
reports `DS_ERR_INVALID_OPERATION` next to a hash that falls into bucket 6 as well. -/
theorem hst_insert_hash_failure_witness :
    ((fun _ : Key => (DS_ERR_INVALID_OPERATION, 177673)) (cstr "d")).1 ≠ DS_OK ∧
    hst_insert (some ⟨abcTable.buckets, 7, fun _ => (DS_ERR_INVALID_OPERATION, 177673)⟩)
        (cstr "d") 9 =
      (DS_ERR_INVALID_OPERATION,
        some ⟨abcTable.buckets, 7, fun _ => (DS_ERR_INVALID_OPERATION, 177673)⟩) :=
  ⟨by decide,
    hst_insert_hash_failure ⟨abcTable.buckets, 7, fun _ => (DS_ERR_INVALID_OPERATION, 177673)⟩
      (cstr "d") 9 (by decide)⟩

end HashTableC

namespace SinglyLinkedListC

open HashTableC HashTableC.Status

/-! ## Insertion at a position -/

theorem sll_insert_at_walk_eq (value : Int) :
    ∀ (k : Nat) (chain : List Int), k < chain.length →
      sll_insert_at_walk value k chain =
        some (DS_OK, chain.take (k + 1) ++ value :: chain.drop (k + 1)) := by
  intro k
  induction k with
  | zero =>
    intro chain hk
    cases chain with
    | nil => simp at hk
    | cons c rest => simp [sll_insert_at_walk]
  | succ k ih =>
    intro chain hk
    cases chain with
    | nil => simp at hk
    | cons c rest =>
      have hk2 : k < rest.length := by simpa using hk
      simp [sll_insert_at_walk, ih rest hk2]

/-- For a list whose `length` counts its nodes and whose `tail` points to the last node,
`sll_insert_at` at a position from 1 to `length` returns `DS_OK` and leaves the old
sequence with the value at that index, `tail` on the last node. -/
theorem sll_insert_at_pos (l : SinglyLinkedList) (value : Int) (p : Nat)
    (hlen : l.length = l.head.length) (htail : l.tail = TailPtr.node (l.head.length - 1))
    (hp1 : 1 ≤ p) (hpn : p ≤ l.length) :
    sll_insert_at (some l) value p =
      some (DS_OK, some ⟨l.length + 1, l.head.take p ++ value :: l.head.drop p,
        TailPtr.node l.head.length⟩) := by
  have hp0 : p ≠ 0 := by omega
  have hgt : ¬ p > l.length := by omega
  have hne : l.head ≠ [] := by
    intro h
    rw [h] at hlen
    simp at hlen
    omega
  have hpos : 0 < l.head.length := List.length_pos.2 hne
  by_cases hpl : p = l.length
  · have h1 : l.head.length - 1 < l.head.length := by omega
    have h2 : l.head.length - 1 + 1 = l.head.length := by omega
    simp [sll_insert_at, hp0, sll_init_node, hpl, sll_insert_tail, hne, htail, h1, h2, hlen]
  · have hk : p - 1 < l.head.length := by omega
    have h2 : p - 1 + 1 = p := by omega
    have h3 : p ≤ l.head.length - 1 := by omega
    have h4 : l.head.length - 1 + 1 = l.head.length := by omega
    simp [sll_insert_at, hp0, hgt, sll_init_node, hpl, sll_insert_at_walk_eq value _ _ hk, h2,
      htail, TailPtr.shift, h3, h4]

/-- C20 fails at position 0: on every list, the one `sll_init_list` builds included,
`sll_insert_at` with position 0 returns `DS_ERR_NULL_POINTER` and leaves the list as it
was, where the claim has `DS_OK` and the value at the head. -/
theorem sll_insert_at_zero (l : SinglyLinkedList) (value : Int) :
    sll_insert_at (some l) value 0 = some (DS_ERR_NULL_POINTER, some l) ∧
      sll_init_list = (DS_OK, some ⟨0, [], TailPtr.null⟩) ∧
      sll_insert_at sll_init_list.2 value 0 =
        some (DS_ERR_NULL_POINTER, some ⟨0, [], TailPtr.null⟩) := by
  refine ⟨?_, rfl, ?_⟩ <;> simp [sll_insert_at, sll_init_list]

/-! ## Reading and removing -/

/-- C24: on a list that is not empty (`length` is not 0 and `head` is not `NULL`),
`sll_remove_tail` returns `DS_OK`; the chain is the old one without its last node,
`length` is one less, and `tail` points to the new last node, `head` and `tail` being both
`NULL` when the list had one node. On an empty list it returns
`DS_ERR_INVALID_OPERATION` and the list is unchanged. -/
theorem sll_remove_tail_spec (l : SinglyLinkedList) :
    (l.length ≠ 0 ∧ l.head ≠ [] →
      sll_remove_tail (some l) =
        (DS_OK, some ⟨l.length - 1, l.head.dropLast,
          if l.head.length = 1 then TailPtr.null else TailPtr.node (l.head.dropLast.length - 1)⟩) ∧
      l.head.dropLast.length = l.head.length - 1 ∧
      (l.head.length = 1 → l.head.dropLast = [])) ∧
    (l.length = 0 ∨ l.head = [] →
      sll_remove_tail (some l) = (DS_ERR_INVALID_OPERATION, some l)) := by
  constructor
  · rintro ⟨h0, hne⟩
    refine ⟨?_, by simp, ?_⟩
    · cases hh : l.head with
      | nil => exact absurd hh hne
      | cons first rest =>
        cases rest with
        | nil => simp [sll_remove_tail, h0, hh]
        | cons second rest => simp [sll_remove_tail, h0, hh]
    · intro h1
      cases hh : l.head with
      | nil => rfl
      | cons first rest =>
        rw [hh] at h1
        have : rest = [] := by
          cases rest with
          | nil => rfl
          | cons _ _ => simp at h1
        simp [this]
  · rintro (h0 | hnil)
    · simp [sll_remove_tail, h0]
    · by_cases h0 : l.length = 0
      · simp [sll_remove_tail, h0]
      · simp [sll_remove_tail, h0, hnil]

/-- Witness of C24: the list 10, 20, 30, 40, a list of one node, and the empty list. -/
theorem sll_remove_tail_spec_witness :
    sll_remove_tail (some ⟨4, [10, 20, 30, 40], TailPtr.node 3⟩) =
        (DS_OK, some ⟨3, [10, 20, 30], TailPtr.node 2⟩) ∧
      sll_remove_tail (some ⟨1, [7], TailPtr.node 0⟩) = (DS_OK, some ⟨0, [], TailPtr.null⟩) ∧
      sll_remove_tail (some ⟨0, [], TailPtr.null⟩) =
        (DS_ERR_INVALID_OPERATION, some ⟨0, [], TailPtr.null⟩) :=
  ⟨((sll_remove_tail_spec ⟨4, [10, 20, 30, 40], TailPtr.node 3⟩).1 ⟨by decide, by decide⟩).1,
    ((sll_remove_tail_spec ⟨1, [7], TailPtr.node 0⟩).1 ⟨by decide, by decide⟩).1,
    (sll_remove_tail_spec ⟨0, [], TailPtr.null⟩).2 (Or.inl rfl)⟩

/-- C21 fails. At position 0, on every list, `sll_remove_at` returns
`DS_ERR_NULL_POINTER` and leaves the list as it was. On the list 10, 20, 30, 40 it
removes, at position 2, the node of index 1 (the list becomes 10, 30, 40, not
10, 20, 40), and at position 1 it stores through the `NULL` pointer `prev`, so that
the call has no result. Position 3, the last one, goes through `sll_remove_tail` and
removes the last node. -/
theorem sll_remove_at_fails (l : SinglyLinkedList) :
    sll_remove_at (some l) 0 = some (DS_ERR_NULL_POINTER, some l) ∧
      sll_remove_at (some ⟨4, [10, 20, 30, 40], TailPtr.node 3⟩) 2 =
        some (DS_OK, some ⟨3, [10, 30, 40], TailPtr.node 2⟩) ∧
      sll_remove_at (some ⟨4, [10, 20, 30, 40], TailPtr.node 3⟩) 1 = none ∧
      sll_remove_at (some ⟨4, [10, 20, 30, 40], TailPtr.node 3⟩) 3 =
        some (DS_OK, some ⟨3, [10, 20, 30], TailPtr.node 2⟩) := by
  refine ⟨by simp [sll_remove_at], by decide, by decide, by decide⟩

/-- C23 fails on the list built by `sll_init_list`, `sll_insert_tail` of 1 and of 2,
`sll_reverse`, and `sll_insert_tail` of 3: `sll_reverse` leaves `tail` on the node that
has become the first one, so the last insertion links the new node behind that node and
the node holding 1 is lost; `length` is 3, two nodes are reachable from `head`, and
`sll_get_length` returns `DS_ERR_UNEXPECTED_RESULT`. -/
theorem sll_length_invariant_fails :
    sll_init_list = (DS_OK, some ⟨0, [], TailPtr.null⟩) ∧
      sll_insert_tail (some ⟨0, [], TailPtr.null⟩) 1 =
        some (DS_OK, some ⟨1, [1], TailPtr.node 0⟩) ∧
      sll_insert_tail (some ⟨1, [1], TailPtr.node 0⟩) 2 =
        some (DS_OK, some ⟨2, [1, 2], TailPtr.node 1⟩) ∧
      sll_reverse (some ⟨2, [1, 2], TailPtr.node 1⟩) =
        (DS_OK, some ⟨2, [2, 1], TailPtr.node 0⟩) ∧
      sll_insert_tail (some ⟨2, [2, 1], TailPtr.node 0⟩) 3 =
        some (DS_OK, some ⟨3, [2, 3], TailPtr.node 1⟩) ∧
      sll_get_length (some ⟨3, [2, 3], TailPtr.node 1⟩) 0 = (DS_ERR_UNEXPECTED_RESULT, 2) :=
  ⟨rfl, by decide, by decide, by decide, by decide, by decide⟩

/-! ## Head, tail and membership -/

/-- C36 fails on three lists built from `sll_init_list`. After `sll_insert_head` of 1 and
`sll_remove_head`, `head` is `NULL` and `tail` still points to the node that was freed:
the statement `sll->tail == NULL;` stores nothing. After `sll_insert_node_head` of a node
on the empty list, `head` is that node and `tail` is `NULL`, so that the next
`sll_insert_tail` stores through `NULL` and has no result. After `sll_insert_tail` of 1
and of 2 and `sll_reverse`, `tail` points to the first node of the chain, not to the
last. -/
theorem sll_head_tail_invariant_fails :
    sll_init_list = (DS_OK, some ⟨0, [], TailPtr.null⟩) ∧
    (⟨0, [], TailPtr.null⟩ : SinglyLinkedList).HeadTailInv ∧
    sll_insert_head (some ⟨0, [], TailPtr.null⟩) 1 =
      (DS_OK, some ⟨1, [1], TailPtr.node 0⟩) ∧
    sll_remove_head (some ⟨1, [1], TailPtr.node 0⟩) =
      (DS_OK, some ⟨0, [], TailPtr.dangling⟩) ∧
    ¬ (⟨0, [], TailPtr.dangling⟩ : SinglyLinkedList).HeadTailInv ∧
    sll_insert_node_head (some ⟨0, [], TailPtr.null⟩) (some 1) =
      (DS_OK, some ⟨1, [1], TailPtr.null⟩) ∧
    ¬ (⟨1, [1], TailPtr.null⟩ : SinglyLinkedList).HeadTailInv ∧
    sll_insert_tail (some ⟨1, [1], TailPtr.null⟩) 2 = none ∧
    sll_insert_tail (some ⟨0, [], TailPtr.null⟩) 1 =
      some (DS_OK, some ⟨1, [1], TailPtr.node 0⟩) ∧
    sll_insert_tail (some ⟨1, [1], TailPtr.node 0⟩) 2 =
      some (DS_OK, some ⟨2, [1, 2], TailPtr.node 1⟩) ∧
    sll_reverse (some ⟨2, [1, 2], TailPtr.node 1⟩) =
      (DS_OK, some ⟨2, [2, 1], TailPtr.node 0⟩) ∧
    ¬ (⟨2, [2, 1], TailPtr.node 0⟩ : SinglyLinkedList).HeadTailInv :=
  ⟨rfl, by simp [SinglyLinkedList.HeadTailInv], by decide, by decide,
    by simp [SinglyLinkedList.HeadTailInv], by decide,
    by simp [SinglyLinkedList.HeadTailInv], by decide, by decide, by decide, by decide,
    by simp [SinglyLinkedList.HeadTailInv]⟩

theorem sll_contains_loop_eq (key : Int) (chain : List Int) (pointee : Bool) :
    sll_contains_loop key chain pointee = pointee := by
  induction chain with
  | nil => rfl
  | cons data next ih =>
    by_cases h : data = key <;> simp [sll_contains_loop, h, ih]

theorem sll_exists_loop_eq (key : Int) (chain : List Int) :
    sll_exists_loop key chain = decide (key ∈ chain) := by
  induction chain with
  | nil => simp [sll_exists_loop]
  | cons data next ih =>
    by_cases h : data = key
    · simp [sll_exists_loop, h]
    · have h' : ¬ key = data := fun e => h e.symm
      simp [sll_exists_loop, h, h', ih]

/-- C37 fails on the list whose only node holds 1, with the key 1: `sll_exists` returns
`true`, and `sll_contains` returns `DS_OK` with `*result` left `false`, since the
statement `result = true;` assigns the pointer and not the `bool` it points to. On every
list and key `sll_contains` leaves `false` in `*result`, and it returns `DS_OK` when the
list is not empty; `sll_exists` returns `true` exactly when the list is not empty and
some node reachable from `head` holds the key. -/
theorem sll_contains_never_true :
    sll_insert_head (some ⟨0, [], TailPtr.null⟩) 1 =
      (DS_OK, some ⟨1, [1], TailPtr.node 0⟩) ∧
    sll_exists (some ⟨1, [1], TailPtr.node 0⟩) 1 = true ∧
    sll_contains (some ⟨1, [1], TailPtr.node 0⟩) 1 = (DS_OK, false) ∧
    (∀ (sll : Option SinglyLinkedList) (key : Int), (sll_contains sll key).2 = false) ∧
    (∀ (l : SinglyLinkedList) (key : Int),
      (sll_contains (some l) key).1 =
        if l.length = 0 ∨ l.head = [] then DS_ERR_NOT_FOUND else DS_OK) ∧
    (∀ (l : SinglyLinkedList) (key : Int),
      sll_exists (some l) key =
        (decide (¬ (l.length = 0 ∨ l.head = [])) && decide (key ∈ l.head))) := by
  refine ⟨by decide, by decide, by decide, ?_, ?_, ?_⟩
  · intro sll key
    cases sll with
    | none => rfl
    | some l =>
      by_cases h : l.length = 0 ∨ l.head = []
      · simp [sll_contains, h]
      · simp [sll_contains, h, sll_contains_loop_eq]
  · intro l key
    by_cases h : l.length = 0 ∨ l.head = [] <;> simp [sll_contains, h]
  · intro l key
    by_cases h : l.length = 0 ∨ l.head = []
    · simp [sll_exists, h]
    · simp [sll_exists, h, sll_exists_loop_eq]

end SinglyLinkedListC

namespace QueueArrayC

open HashTableC HashTableC.Status

/-! ## Growth of the array queue -/

theorem realloc_buffer_length (fresh : Nat → Int) (buffer : List Int) (capacity : Nat)
    (h : buffer.length ≤ capacity) : (realloc_buffer fresh buffer capacity).length = capacity := by
  simp [realloc_buffer, List.length_take]
  omega

theorem realloc_buffer_getElem? (fresh : Nat → Int) (buffer : List Int) (capacity : Nat)
    (h : buffer.length ≤ capacity) (i : Nat) (hi : i < buffer.length) :
    (realloc_buffer fresh buffer capacity)[i]? = buffer[i]? := by
  unfold realloc_buffer
  rw [List.take_of_length_le h, List.getElem?_append_left hi]

theorem block_cells_eq (n : Nat) (h : sizeof_int * n < 2 ^ 64) : block_cells n = n := by
  unfold block_cells
  rw [Nat.mod_eq_of_lt h]
  exact Nat.mul_div_cancel_left n (by decide)

/-- With a reallocation that stays within `size_t`, the product `capacity * growth_rate`
is stored as it is and the new block has that many cells. -/
theorem growthFits_spec (q : QueueArray) (h : q.GrowthFits) :
    q.capacity * q.growth_rate % 2 ^ 64 = q.capacity * q.growth_rate ∧
      block_cells (q.capacity * q.growth_rate) = q.capacity * q.growth_rate ∧
      q.capacity * q.growth_rate < 2 ^ 64 := by
  unfold QueueArray.GrowthFits at h
  have hlt : q.capacity * q.growth_rate < 2 ^ 64 := by
    unfold sizeof_int at h
    omega
  exact ⟨Nat.mod_eq_of_lt hlt, block_cells_eq _ h, hlt⟩

theorem qua_realloc_fits (fresh : Nat → Int) (q : QueueArray) (h : q.GrowthFits) :
    qua_realloc true fresh (some q) =
      (DS_OK, some { q with capacity := q.capacity * q.growth_rate,
                            buffer := realloc_buffer fresh q.buffer
                              (q.capacity * q.growth_rate) }) := by
  obtain ⟨hmod, hcells, _⟩ := growthFits_spec q h
  unfold qua_realloc
  simp only [hmod, hcells]
  rfl

theorem qua_realloc_fails (fresh : Nat → Int) (q : QueueArray) (h : q.GrowthFits)
    (hg : 1 ≤ q.growth_rate) :
    qua_realloc false fresh (some q) = (DS_ERR_ALLOC, some q) := by
  obtain ⟨hmod, _, _⟩ := growthFits_spec q h
  have hdiv : q.capacity * q.growth_rate / q.growth_rate = q.capacity :=
    Nat.mul_div_cancel _ (by omega)
  unfold qua_realloc
  simp only [hmod, hdiv]
  rfl

/-- C26, as stated, fails when the reallocation leaves `size_t`. On the full queue
holding 1 and 2 with `capacity` 2 and `growth_rate` `2 ^ 63 + 1`, the product wraps to 2:
`realloc`, asked for the 8 bytes the buffer already has, succeeds, `qua_enqueue` returns
`DS_OK`, the capacity is still 2 and the value 3 is not in the buffer. On the full queue
holding 1 with `capacity` 1 and `growth_rate` `2 ^ 62 + 1`, the capacity is multiplied but
the byte count `sizeof(int) * capacity` wraps to 4: the buffer keeps its one cell and
the value is not in it. -/
theorem qua_enqueue_grows_counterexample :
    qua_enqueue true (fun _ => 0) (some ⟨[1, 2], 2, 2 ^ 63 + 1, 2, 0, 2⟩) 3 =
      (DS_OK, some ⟨[1, 2], 2, 2 ^ 63 + 1, 3, 0, 3⟩) ∧
    2 ≠ 2 * (2 ^ 63 + 1) ∧
    ([1, 2] : List Int)[2]? = none ∧
    qua_enqueue true (fun _ => 0) (some ⟨[1], 1, 2 ^ 62 + 1, 1, 0, 1⟩) 3 =
      (DS_OK, some ⟨[1], 2 ^ 62 + 1, 2 ^ 62 + 1, 2, 0, 2⟩) ∧
    ([1] : List Int)[1]? = none := by
  refine ⟨by decide, by decide, rfl, by decide, rfl⟩

/-- C26, amended: for every queue with `growth_rate >= 2` and `capacity >= 1`, a buffer
of `capacity` cells, `rear` and `length` within `capacity`, and `capacity` below `2 ^ 64`
as every `size_t`: when the queue is full, the byte count
`sizeof(int) * capacity * growth_rate` of the new buffer is below `2 ^ 64` and `realloc`
succeeds, `qua_enqueue` returns `DS_OK`, `capacity` is multiplied by
`growth_rate`, the value is stored in the cell of index `rear`, the cells that held the
queue keep their content, `rear` and `length` go up by one and the buffer has the new
`capacity` cells. When the queue is not full, `qua_enqueue` returns `DS_OK` with
`length + 1` and the same `capacity`. -/
theorem qua_enqueue_grows (fresh : Nat → Int) (q : QueueArray) (value : Int)
    (hg : 2 ≤ q.growth_rate) (hc : 1 ≤ q.capacity) (hb : q.buffer.length = q.capacity)
    (hr : q.rear ≤ q.capacity) (hl : q.length ≤ q.capacity) (hcap : q.capacity < 2 ^ 64) :
    (q.length = q.capacity → q.GrowthFits →
      ∃ q' : QueueArray, qua_enqueue true fresh (some q) value = (DS_OK, some q') ∧
        q'.capacity = q.capacity * q.growth_rate ∧ q'.length = q.length + 1 ∧
        q'.rear = q.rear + 1 ∧ q'.front = q.front ∧ q'.growth_rate = q.growth_rate ∧
        q'.buffer.length = q'.capacity ∧ q'.buffer[q.rear]? = some value ∧
        ∀ i : Nat, i < q.rear → q'.buffer[i]? = q.buffer[i]?) ∧
    (q.length ≠ q.capacity →
      ∀ ok : Bool, ∃ q' : QueueArray, qua_enqueue ok fresh (some q) value = (DS_OK, some q') ∧
        q'.capacity = q.capacity ∧ q'.length = q.length + 1) := by
  constructor
  · intro hfull hfit
    obtain ⟨hmod, hcells, hlt64⟩ := growthFits_spec q hfit
    have hle : q.buffer.length ≤ q.capacity * q.growth_rate := by
      rw [hb]; exact Nat.le_mul_of_pos_right _ (by omega)
    have hlt : q.rear < q.capacity * q.growth_rate := by
      have : q.capacity * 2 ≤ q.capacity * q.growth_rate := Nat.mul_le_mul_left _ hg
      omega
    have hlen := realloc_buffer_length fresh q.buffer _ hle
    have hcg : q.capacity < q.capacity * q.growth_rate := by
      have : q.capacity * 2 ≤ q.capacity * q.growth_rate := Nat.mul_le_mul_left _ hg
      omega
    have hr1 : (q.rear + 1) % 2 ^ 64 = q.rear + 1 := Nat.mod_eq_of_lt (by omega)
    have hl1 : (q.length + 1) % 2 ^ 64 = q.length + 1 := Nat.mod_eq_of_lt (by omega)
    have hf : qua_is_full q = true := by simp [qua_is_full, hfull]
    have he : qua_enqueue true fresh (some q) value = (DS_OK, some (qua_enqueue_store
        { q with capacity := q.capacity * q.growth_rate,
                 buffer := realloc_buffer fresh q.buffer (q.capacity * q.growth_rate) }
        value)) := by
      simp only [qua_enqueue, hf, qua_realloc_fits fresh q hfit]
      rfl
    refine ⟨_, he, rfl, hl1, hr1, rfl, rfl, ?_, ?_, ?_⟩
    · simp [qua_enqueue_store, hlen]
    · simp [qua_enqueue_store, List.getElem?_set, hlen, hlt]
    · intro i hi
      have hne : q.rear ≠ i := by omega
      have hib : i < q.buffer.length := by omega
      simp only [qua_enqueue_store, List.getElem?_set, hne, if_false]
      exact realloc_buffer_getElem? fresh q.buffer _ hle i hib
  · intro hnf ok
    have hl1 : (q.length + 1) % 2 ^ 64 = q.length + 1 := Nat.mod_eq_of_lt (by omega)
    by_cases hrc : q.rear = q.capacity
    · refine ⟨qua_enqueue_store
        { q with buffer := qua_shift_loop (q.rear - q.front) 0 q.front q.buffer,
                 front := 0, rear := q.length } value, ?_, rfl, hl1⟩
      simp [qua_enqueue, qua_is_full, hnf, hrc]
    · refine ⟨qua_enqueue_store q value, ?_, rfl, hl1⟩
      simp [qua_enqueue, qua_is_full, hnf, hrc]

/-- Witness of C26 (amended): a full queue of capacity 2 holding 1, 2, and a queue of
capacity 4 holding two values at the end of its buffer. -/
theorem qua_enqueue_grows_witness :
    qua_enqueue true (fun _ => 0) (some ⟨[1, 2], 2, 2, 2, 0, 2⟩) 3 =
        (DS_OK, some ⟨[1, 2, 3, 0], 4, 2, 3, 0, 3⟩) ∧
    (∃ q' : QueueArray,
      qua_enqueue true (fun _ => 0) (some ⟨[1, 2], 2, 2, 2, 0, 2⟩) 3 = (DS_OK, some q') ∧
        q'.capacity = 2 * 2 ∧ q'.length = 2 + 1 ∧ q'.rear = 2 + 1 ∧ q'.front = 0 ∧
        q'.growth_rate = 2 ∧ q'.buffer.length = q'.capacity ∧ q'.buffer[2]? = some 3 ∧
        ∀ i : Nat, i < 2 → q'.buffer[i]? = [(1 : Int), 2][i]?) ∧
    (∀ ok : Bool, ∃ q' : QueueArray,
      qua_enqueue ok (fun _ => 0) (some ⟨[1, 2, 3, 4], 4, 2, 2, 2, 4⟩) 5 = (DS_OK, some q') ∧
        q'.capacity = 4 ∧ q'.length = 2 + 1) :=
  ⟨by decide,
    (qua_enqueue_grows (fun _ => 0) ⟨[1, 2], 2, 2, 2, 0, 2⟩ 3 (by decide) (by decide) rfl
      (by decide) (by decide) (by decide)).1 rfl (by decide),
    (qua_enqueue_grows (fun _ => 0) ⟨[1, 2, 3, 4], 4, 2, 2, 2, 4⟩ 5 (by decide) (by decide) rfl
      (by decide) (by decide) (by decide)).2 (by decide)⟩

/-! ## The shift loop -/

theorem qua_shift_loop_spec (n : Nat) : ∀ (i j : Nat) (buffer : List Int),
    i ≤ j → j + n ≤ buffer.length →
    (qua_shift_loop n i j buffer).length = buffer.length ∧
    (∀ k : Nat, k < n → (qua_shift_loop n i j buffer)[i + k]? = buffer[j + k]?) ∧
    (∀ m : Nat, m < i → (qua_shift_loop n i j buffer)[m]? = buffer[m]?) := by
  induction n with
  | zero =>
    intro i j buffer _ _
    exact ⟨rfl, by intro k hk; omega, by intro m _; rfl⟩
  | succ n ih =>
    intro i j buffer hij hlen
    have hlen' : j + 1 + n ≤ (buffer.set i (buffer.getD j 0)).length := by
      rw [List.length_set]; omega
    obtain ⟨h1, h2, h3⟩ := ih (i + 1) (j + 1) (buffer.set i (buffer.getD j 0)) (by omega) hlen'
    simp only [qua_shift_loop]
    refine ⟨by rw [h1, List.length_set], ?_, ?_⟩
    · intro k hk
      cases k with
      | zero =>
        show (qua_shift_loop n (i + 1) (j + 1) (buffer.set i (buffer.getD j 0)))[i]? = buffer[j]?
        rw [h3 i (by omega), List.getElem?_set]
        have hi : i < buffer.length := by omega
        have hj : j < buffer.length := by omega
        simp [hi, List.getD_eq_getElem?_getD, List.getElem?_eq_getElem hj]
      | succ k =>
        have e1 : i + (k + 1) = i + 1 + k := by omega
        have e2 : j + (k + 1) = j + 1 + k := by omega
        rw [e1, e2, h2 k (by omega), List.getElem?_set]
        have hne : i ≠ j + 1 + k := by omega
        simp [hne]
    · intro m hm
      rw [h3 m (by omega), List.getElem?_set]
      have hne : i ≠ m := by omega
      simp [hne]

/-! ## The index invariant and the contents -/

theorem take_set_self (b : List Int) (r : Nat) (v : Int) (h : r < b.length) :
    (b.set r v).take (r + 1) = b.take r ++ [v] := by
  apply List.ext_getElem?
  intro n
  rw [List.getElem?_take, List.getElem?_set, List.getElem?_append]
  simp only [List.length_take, List.getElem?_take]
  have hm : min r b.length = r := by omega
  rw [hm]
  by_cases h1 : n < r
  · have h2 : r ≠ n := by omega
    have h3 : n < r + 1 := by omega
    simp [h1, h2, h3]
  · by_cases h2 : n = r
    · rw [h2]
      simp [h]
    · have h3 : ¬ n < r + 1 := by omega
      have h5 : n - r ≠ 0 := by omega
      simp [h3, h1]
      omega

theorem qua_enqueue_store_eq (q1 : QueueArray) (v : Int) (hi : q1.IndexInv)
    (hr : q1.rear < q1.capacity) (hcap : q1.capacity < 2 ^ 64) :
    qua_enqueue_store q1 v =
      { q1 with buffer := q1.buffer.set q1.rear v, rear := q1.rear + 1,
                length := q1.length + 1 } := by
  obtain ⟨h1, h2, h3, h4⟩ := hi
  have hr1 : (q1.rear + 1) % 2 ^ 64 = q1.rear + 1 := Nat.mod_eq_of_lt (by omega)
  have hl1 : (q1.length + 1) % 2 ^ 64 = q1.length + 1 := Nat.mod_eq_of_lt (by omega)
  simp only [qua_enqueue_store, hr1, hl1]

theorem qua_enqueue_store_spec (q1 : QueueArray) (v : Int) (hi : q1.IndexInv)
    (hr : q1.rear < q1.capacity) (hcap : q1.capacity < 2 ^ 64) :
    (qua_enqueue_store q1 v).IndexInv ∧
      contents (qua_enqueue_store q1 v) = contents q1 ++ [v] ∧
      (qua_enqueue_store q1 v).buffer[q1.rear]? = some v ∧
      (qua_enqueue_store q1 v).capacity = q1.capacity ∧
      (qua_enqueue_store q1 v).growth_rate = q1.growth_rate := by
  rw [qua_enqueue_store_eq q1 v hi hr hcap]
  obtain ⟨h1, h2, h3, h4⟩ := hi
  refine ⟨⟨?_, ?_, ?_, ?_⟩, ?_, ?_, rfl, rfl⟩
  · show q1.front ≤ q1.rear + 1
    omega
  · show q1.rear + 1 ≤ q1.capacity
    omega
  · show q1.length + 1 = q1.rear + 1 - q1.front
    omega
  · show (q1.buffer.set q1.rear v).length = q1.capacity
    rw [List.length_set]; exact h4
  · show ((q1.buffer.set q1.rear v).take (q1.rear + 1)).drop q1.front = contents q1 ++ [v]
    rw [take_set_self _ _ _ (by omega),
      List.drop_append_of_le_length (by rw [List.length_take]; omega)]
    rfl
  · show (q1.buffer.set q1.rear v)[q1.rear]? = some v
    rw [List.getElem?_set]
    have : q1.rear < q1.buffer.length := by omega
    simp [this]

theorem qua_shift_contents (q : QueueArray) (hi : q.IndexInv) :
    contents { q with buffer := qua_shift_loop (q.rear - q.front) 0 q.front q.buffer,
                      front := 0, rear := q.length } = contents q := by
  obtain ⟨h1, h2, h3, h4⟩ := hi
  obtain ⟨_, hk, _⟩ := qua_shift_loop_spec (q.rear - q.front) 0 q.front q.buffer
    (Nat.zero_le _) (by omega)
  simp only [contents, List.drop_zero]
  apply List.ext_getElem?
  intro n
  rw [List.getElem?_take, List.getElem?_drop, List.getElem?_take]
  by_cases hn : n < q.length
  · have h5 : q.front + n < q.rear := by omega
    have := hk n (by omega)
    rw [Nat.zero_add] at this
    simp [hn, h5, this]
  · have h5 : ¬ q.front + n < q.rear := by omega
    simp [hn, h5]

theorem qua_realloc_contents (fresh : Nat → Int) (q : QueueArray) (capacity : Nat)
    (hi : q.IndexInv) (hc : q.capacity ≤ capacity) :
    contents { q with capacity := capacity,
                      buffer := realloc_buffer fresh q.buffer capacity } = contents q := by
  obtain ⟨h1, h2, h3, h4⟩ := hi
  simp only [contents, realloc_buffer]
  rw [List.take_of_length_le (show q.buffer.length ≤ capacity by omega),
    List.take_append_of_le_length (by omega)]

/-- What `qua_enqueue` does on a queue that satisfies the index invariant and whose
reallocation, when it is full, stays within `size_t`: either the reallocation fails on a
full queue, which is left as it was, or the value is stored in the cell of index `rear` of
a queue with the same contents whose `rear` is below its `capacity`. -/
theorem qua_enqueue_prepared (q : QueueArray) (hi : q.IndexInv) (hg : 2 ≤ q.growth_rate)
    (hc : 1 ≤ q.capacity) (hcap : sizeof_int * q.capacity < 2 ^ 64)
    (hfit : qua_is_full q = true → q.GrowthFits)
    (ok : Bool) (fresh : Nat → Int) (value : Int) :
    (∃ q1 : QueueArray,
      qua_enqueue ok fresh (some q) value = (DS_OK, some (qua_enqueue_store q1 value)) ∧
      q1.IndexInv ∧ q1.rear < q1.capacity ∧ contents q1 = contents q ∧
      q1.growth_rate = q.growth_rate ∧ q.capacity ≤ q1.capacity ∧ q1.length = q.length ∧
      sizeof_int * q1.capacity < 2 ^ 64 ∧
      (ok = true ∨ q.length ≠ q.capacity)) ∨
    (ok = false ∧ q.length = q.capacity ∧
      qua_enqueue ok fresh (some q) value = (DS_ERR_ALLOC, some q)) := by
  have hi' := hi
  obtain ⟨h1, h2, h3, h4⟩ := hi
  by_cases hfull : q.length = q.capacity
  · have hf : qua_is_full q = true := by simp [qua_is_full, hfull]
    have hfits := hfit hf
    cases ok with
    | false =>
      right
      refine ⟨rfl, hfull, ?_⟩
      simp only [qua_enqueue, hf, qua_realloc_fails fresh q hfits (by omega)]
      rfl
    | true =>
      left
      have hle : q.capacity ≤ q.capacity * q.growth_rate :=
        Nat.le_mul_of_pos_right _ (by omega)
      have hlt : q.capacity < q.capacity * q.growth_rate := by
        have : q.capacity * 2 ≤ q.capacity * q.growth_rate := Nat.mul_le_mul_left _ hg
        omega
      refine ⟨{ q with capacity := q.capacity * q.growth_rate,
                       buffer := realloc_buffer fresh q.buffer (q.capacity * q.growth_rate) },
        ?_, ⟨h1, ?_, h3, ?_⟩, ?_,
        qua_realloc_contents fresh q _ hi' hle, rfl, hle, rfl, hfits, Or.inl rfl⟩
      · simp only [qua_enqueue, hf, qua_realloc_fits fresh q hfits]
        rfl
      · show q.rear ≤ q.capacity * q.growth_rate
        omega
      · exact realloc_buffer_length fresh q.buffer _ (by omega)
      · show q.rear < q.capacity * q.growth_rate
        omega
  · left
    have hnf : qua_is_full q = false := by simp [qua_is_full, hfull]
    by_cases hrc : q.rear = q.capacity
    · refine ⟨{ q with buffer := qua_shift_loop (q.rear - q.front) 0 q.front q.buffer,
                       front := 0, rear := q.length },
        by simp [qua_enqueue, hnf, hrc], ⟨?_, ?_, ?_, ?_⟩, ?_,
        qua_shift_contents q hi', rfl, le_refl _, rfl, hcap, Or.inr hfull⟩
      · exact Nat.zero_le _
      · show q.length ≤ q.capacity
        omega
      · show q.length = q.length - 0
        omega
      · exact (qua_shift_loop_spec (q.rear - q.front) 0 q.front q.buffer
          (Nat.zero_le _) (by omega)).1.trans h4
      · show q.length < q.capacity
        omega
    · refine ⟨q, by simp [qua_enqueue, hnf, hrc], hi', ?_, rfl, rfl, le_refl _,
        rfl, hcap, Or.inr hfull⟩
      omega

/-- What the end of `qua_dequeue` and `qua_pop` does on a queue that is not empty and
satisfies the index invariant: the cell of index `front` is a cell of the buffer, the
first element of the contents, and the queue afterwards holds the rest. -/
theorem qua_advance_spec (q : QueueArray) (hi : q.IndexInv) (he : q.length ≠ 0)
    (hcap : q.capacity < 2 ^ 64) :
    (qua_advance q).IndexInv ∧ (qua_advance q).capacity = q.capacity ∧
      (qua_advance q).growth_rate = q.growth_rate ∧
      (qua_advance q).length = q.length - 1 ∧
      ∃ x : Int, q.buffer[q.front]? = some x ∧ q.buffer.getD q.front 0 = x ∧
        contents q = x :: contents (qua_advance q) := by
  obtain ⟨h1, h2, h3, h4⟩ := hi
  have hf : q.front < q.buffer.length := by omega
  have hft : q.front < (q.buffer.take q.rear).length := by
    rw [List.length_take]; omega
  have hf1 : (q.front + 1) % 2 ^ 64 = q.front + 1 := Nat.mod_eq_of_lt (by omega)
  have hc : contents q = q.buffer[q.front] :: (q.buffer.take q.rear).drop (q.front + 1) := by
    simp only [contents]
    rw [List.drop_eq_getElem_cons hft, List.getElem_take]
  by_cases h0 : q.length - 1 = 0
  · have ha : qua_advance q =
        { q with front := 0, rear := 0, length := q.length - 1 } := by
      simp [qua_advance, qua_is_empty, h0]
    rw [ha]
    refine ⟨⟨le_refl _, Nat.zero_le _, ?_, h4⟩, rfl, rfl, rfl, q.buffer[q.front],
      List.getElem?_eq_getElem hf, by simp [List.getD_eq_getElem?_getD, hf], ?_⟩
    · show q.length - 1 = 0 - 0
      omega
    · rw [hc]
      have : (q.buffer.take q.rear).drop (q.front + 1) = [] := by
        apply List.drop_eq_nil_of_le
        rw [List.length_take]; omega
      simp [contents, this]
  · have ha : qua_advance q = { q with front := q.front + 1, length := q.length - 1 } := by
      simp only [qua_advance, qua_is_empty, hf1]
      simp [h0]
    rw [ha]
    refine ⟨⟨?_, h2, ?_, h4⟩, rfl, rfl, rfl, q.buffer[q.front],
      List.getElem?_eq_getElem hf, by simp [List.getD_eq_getElem?_getD, hf], ?_⟩
    · show q.front + 1 ≤ q.rear
      omega
    · show q.length - 1 = q.rear - (q.front + 1)
      omega
    · rw [hc]
      rfl

/-- The invariant of the queues reached without a reallocation that leaves `size_t`, for
an initial capacity of at least 1 whose byte count is within `size_t` and a growth rate
of at least 2. -/
theorem qua_reachable_inv (init_size grow_rate : Nat) (hs : 1 ≤ init_size)
    (hb : sizeof_int * init_size < 2 ^ 64) (hg : 2 ≤ grow_rate) (hgb : grow_rate < 2 ^ 64)
    (q : QueueArray) (hr : ReachableFit init_size grow_rate q) :
    q.IndexInv ∧ q.growth_rate = grow_rate ∧ 1 ≤ q.capacity ∧
      sizeof_int * q.capacity < 2 ^ 64 := by
  have h4lt : ∀ n : Nat, sizeof_int * n < 2 ^ 64 → n < 2 ^ 64 := by
    intro n hn
    unfold sizeof_int at hn
    omega
  induction hr with
  | init alloc fresh q h =>
    by_cases h0 : alloc 0 = false
    · simp [qua_init, h0] at h
    · by_cases h1 : alloc 1 = false
      · simp [qua_init, h0, h1] at h
      · have hq : q = ⟨(List.range init_size).map fresh, init_size, grow_rate, 0, 0, 0⟩ := by
          have h' : qua_init init_size grow_rate alloc fresh =
              (DS_OK, QueueSlot.queue
                ⟨(List.range init_size).map fresh, init_size, grow_rate, 0, 0, 0⟩) := by
            simp only [qua_init, h0, h1, block_cells_eq init_size hb,
              Nat.mod_eq_of_lt (h4lt init_size hb), Nat.mod_eq_of_lt hgb]
            rfl
          rw [h'] at h
          simp at h
          exact h.symm
        rw [hq]
        exact ⟨⟨le_refl _, Nat.zero_le _, rfl, by simp⟩, rfl, hs, hb⟩
  | enqueue q ok fresh value st q' _ hfit h ih =>
    obtain ⟨hi, hgr, hc, hcap⟩ := ih
    rcases qua_enqueue_prepared q hi (by omega) hc hcap hfit ok fresh value with
      ⟨q1, he, hi1, hr1, _, hg1, hc1, _, hcap1, _⟩ | ⟨_, _, he⟩
    · rw [he] at h
      simp at h
      rw [← h.2]
      obtain ⟨hs1, _, _, hs4, hs5⟩ :=
        qua_enqueue_store_spec q1 value hi1 hr1 (h4lt _ hcap1)
      exact ⟨hs1, by rw [hs5, hg1, hgr], by rw [hs4]; omega, by rw [hs4]; exact hcap1⟩
    · rw [he] at h
      simp at h
      rw [← h.2]
      exact ⟨hi, hgr, hc, hcap⟩
  | dequeue q st q' value _ h ih =>
    obtain ⟨hi, hgr, hc, hcap⟩ := ih
    by_cases he : q.length = 0
    · simp [qua_dequeue, qua_is_empty, he] at h
      rw [← h.2.1]
      exact ⟨hi, hgr, hc, hcap⟩
    · simp [qua_dequeue, qua_is_empty, he] at h
      rw [← h.2.1]
      obtain ⟨ha, hcp, hgro, _, _⟩ := qua_advance_spec q hi he (h4lt _ hcap)
      exact ⟨ha, by rw [hgro, hgr], by rw [hcp]; exact hc, by rw [hcp]; exact hcap⟩
  | pop q st q' _ h ih =>
    obtain ⟨hi, hgr, hc, hcap⟩ := ih
    by_cases he : q.length = 0
    · simp [qua_pop, qua_is_empty, he] at h
      rw [← h.2]
      exact ⟨hi, hgr, hc, hcap⟩
    · simp [qua_pop, qua_is_empty, he] at h
      rw [← h.2]
      obtain ⟨ha, hcp, hgro, _, _⟩ := qua_advance_spec q hi he (h4lt _ hcap)
      exact ⟨ha, by rw [hgro, hgr], by rw [hcp]; exact hc, by rw [hcp]; exact hcap⟩

theorem qua_contents_length (q : QueueArray) (hi : q.IndexInv) :
    (contents q).length = q.length := by
  obtain ⟨h1, h2, h3, h4⟩ := hi
  simp only [contents, List.length_drop, List.length_take]
  omega

theorem qua_enqueue_appends (init_size grow_rate : Nat) (hs : 1 ≤ init_size)
    (hb : sizeof_int * init_size < 2 ^ 64) (hg : 2 ≤ grow_rate) (hgb : grow_rate < 2 ^ 64)
    (q : QueueArray) (hr : ReachableFit init_size grow_rate q)
    (hfit : qua_is_full q = true → q.GrowthFits) (fresh : Nat → Int) (value : Int) :
    ∃ q' : QueueArray, qua_enqueue true fresh (some q) value = (DS_OK, some q') ∧
      contents q' = contents q ++ [value] ∧ ReachableFit init_size grow_rate q' := by
  obtain ⟨hi, hgr, hc, hcap⟩ := qua_reachable_inv init_size grow_rate hs hb hg hgb q hr
  rcases qua_enqueue_prepared q hi (by omega) hc hcap hfit true fresh value with
    ⟨q1, he, hi1, hr1, hc1, _, _, _, hcap1, _⟩ | ⟨h, _⟩
  · refine ⟨qua_enqueue_store q1 value, he, ?_,
      ReachableFit.enqueue q true fresh value DS_OK _ hr hfit he⟩
    have hlt : q1.capacity < 2 ^ 64 := by
      unfold sizeof_int at hcap1
      omega
    rw [(qua_enqueue_store_spec q1 value hi1 hr1 hlt).2.1, hc1]
  · exact absurd h (by decide)

theorem qua_dequeue_first (init_size grow_rate : Nat) (hs : 1 ≤ init_size)
    (hb : sizeof_int * init_size < 2 ^ 64) (hg : 2 ≤ grow_rate) (hgb : grow_rate < 2 ^ 64)
    (q : QueueArray) (hr : ReachableFit init_size grow_rate q)
    (x : Int) (rest : List Int) (hx : contents q = x :: rest) :
    qua_dequeue (some q) = (DS_OK, some (qua_advance q), x) ∧
      qua_pop (some q) = (DS_OK, some (qua_advance q)) ∧
      contents (qua_advance q) = rest ∧ ReachableFit init_size grow_rate (qua_advance q) := by
  obtain ⟨hi, _, _, hcap⟩ := qua_reachable_inv init_size grow_rate hs hb hg hgb q hr
  have hlt : q.capacity < 2 ^ 64 := by
    unfold sizeof_int at hcap
    omega
  have hl := qua_contents_length q hi
  have he : q.length ≠ 0 := by
    rw [hx] at hl
    simp at hl
    omega
  obtain ⟨_, _, _, _, y, _, hy, hcy⟩ := qua_advance_spec q hi he hlt
  rw [hx] at hcy
  have hxy : x = y := (List.cons.inj hcy).1
  have hd : qua_dequeue (some q) = (DS_OK, some (qua_advance q), x) := by
    simp only [qua_dequeue, qua_is_empty, he, hy, hxy]
    simp
  have hp : qua_pop (some q) = (DS_OK, some (qua_advance q)) := by
    simp [qua_pop, qua_is_empty, he]
  exact ⟨hd, hp, (List.cons.inj hcy).2.symm, ReachableFit.pop q DS_OK _ hr hp⟩

theorem qua_dequeue_empty (q : QueueArray) (hi : q.IndexInv) (hx : contents q = []) :
    qua_dequeue (some q) = (DS_ERR_INVALID_OPERATION, some q, 0) ∧
      qua_pop (some q) = (DS_ERR_INVALID_OPERATION, some q) := by
  have hl := qua_contents_length q hi
  rw [hx] at hl
  have he : q.length = 0 := hl.symm
  simp [qua_dequeue, qua_pop, qua_is_empty, he]

theorem qua_run_calls_sim (init_size grow_rate : Nat) (hs : 1 ≤ init_size)
    (hb : sizeof_int * init_size < 2 ^ 64) (hg : 2 ≤ grow_rate) (hgb : grow_rate < 2 ^ 64)
    (calls : List QueueCall) :
    ∀ (q : QueueArray) (out : List Int), ReachableFit init_size grow_rate q →
      run_fits calls (some q) →
      ∃ q' : QueueArray,
        run_calls calls (some q) out = (some q', (fifo_calls calls (contents q) out).2) ∧
        contents q' = (fifo_calls calls (contents q) out).1 ∧
        ReachableFit init_size grow_rate q' := by
  induction calls with
  | nil =>
    intro q out hr _
    exact ⟨q, rfl, rfl, hr⟩
  | cons call calls ih =>
    intro q out hr hfits
    cases call with
    | enqueue fresh value =>
      simp only [run_fits] at hfits
      obtain ⟨q1, he, hc, hr1⟩ := qua_enqueue_appends init_size grow_rate hs hb hg hgb q hr
        (hfits.1 q rfl) fresh value
      have hf2 := hfits.2
      rw [he] at hf2
      obtain ⟨q', h1, h2, h3⟩ := ih q1 out hr1 hf2
      refine ⟨q', ?_, ?_, h3⟩
      · simp only [run_calls, fifo_calls, he]
        rw [h1, hc]
      · simp only [fifo_calls]
        rw [h2, hc]
    | dequeue =>
      simp only [run_fits] at hfits
      cases hx : contents q with
      | nil =>
        have hi := (qua_reachable_inv init_size grow_rate hs hb hg hgb q hr).1
        obtain ⟨hd, _⟩ := qua_dequeue_empty q hi hx
        rw [hd] at hfits
        obtain ⟨q', h1, h2, h3⟩ := ih q out hr hfits
        refine ⟨q', ?_, ?_, h3⟩
        · simp only [run_calls, fifo_calls, hd]
          rw [hx] at h1
          simpa using h1
        · simp only [fifo_calls]
          rw [hx] at h2
          exact h2
      | cons x rest =>
        obtain ⟨hd, _, hc, hr1⟩ :=
          qua_dequeue_first init_size grow_rate hs hb hg hgb q hr x rest hx
        rw [hd] at hfits
        obtain ⟨q', h1, h2, h3⟩ := ih (qua_advance q) (out ++ [x]) hr1 hfits
        refine ⟨q', ?_, ?_, h3⟩
        · simp only [run_calls, fifo_calls, hd]
          rw [hc] at h1
          simpa using h1
        · simp only [fifo_calls]
          rw [hc] at h2
          exact h2
    | pop =>
      simp only [run_fits] at hfits
      cases hx : contents q with
      | nil =>
        have hi := (qua_reachable_inv init_size grow_rate hs hb hg hgb q hr).1
        obtain ⟨_, hp⟩ := qua_dequeue_empty q hi hx
        rw [hp] at hfits
        obtain ⟨q', h1, h2, h3⟩ := ih q out hr hfits
        refine ⟨q', ?_, ?_, h3⟩
        · simp only [run_calls, fifo_calls, hp]
          rw [hx] at h1
          simpa using h1
        · simp only [fifo_calls]
          rw [hx] at h2
          simpa using h2
      | cons x rest =>
        obtain ⟨_, hp, hc, hr1⟩ :=
          qua_dequeue_first init_size grow_rate hs hb hg hgb q hr x rest hx
        rw [hp] at hfits
        obtain ⟨q', h1, h2, h3⟩ := ih (qua_advance q) out hr1 hfits
        refine ⟨q', ?_, ?_, h3⟩
        · simp only [run_calls, fifo_calls, hp]
          rw [hc] at h1
          simpa using h1
        · simp only [fifo_calls]
          rw [hc] at h2
          simpa using h2

theorem fifo_calls_enqueues (fresh : Nat → Int) (values : List Int) :
    ∀ (l out : List Int) (calls : List QueueCall),
      fifo_calls (values.map (QueueCall.enqueue fresh) ++ calls) l out =
        fifo_calls calls (l ++ values) out := by
  induction values with
  | nil => intro l out calls; simp
  | cons v values ih =>
    intro l out calls
    have e : (v :: values).map (QueueCall.enqueue fresh) ++ calls =
        QueueCall.enqueue fresh v :: (values.map (QueueCall.enqueue fresh) ++ calls) := rfl
    rw [e]
    simp only [fifo_calls]
    rw [ih]
    simp

theorem fifo_calls_dequeues (l : List Int) :
    ∀ out : List Int,
      fifo_calls (List.replicate l.length QueueCall.dequeue) l out = ([], out ++ l) := by
  induction l with
  | nil => intro out; simp [fifo_calls]
  | cons x rest ih =>
    intro out
    simp only [List.length_cons, List.replicate_succ, fifo_calls]
    rw [ih]
    simp

/-! ## The claims on the array queue -/

/-- C35, as stated, fails when a reallocation leaves `size_t`. With an initial capacity
of 2 and a growth rate of `2 ^ 63 + 1`, `qua_init` and `qua_enqueue` of 1 and of 2 build
a full queue. On the next `qua_enqueue` the product `capacity * growth_rate` wraps to 2.
When `realloc`, asked for the 8 bytes the buffer already has, succeeds, the value is
written to `buffer[2]`, outside the two cells of the buffer, and the queue is left with
`rear` 3 above `capacity` 2. When `realloc` fails, `capacity /= growth_rate` leaves
`capacity` 0 below `rear` 2. With an initial capacity of 1 and a growth rate of
`2 ^ 62 + 1` the product does not wrap but the byte count `sizeof(int) * capacity` does,
to 4: the buffer keeps its one cell and the second `qua_enqueue` writes `buffer[1]`,
below `capacity` and outside the buffer. The same happens with the byte count of
`qua_init`, for an initial capacity of `2 ^ 62 + 1`. -/
theorem qua_index_invariant_counterexample :
    Reachable 2 (2 ^ 63 + 1) ⟨[1, 2], 2, 2 ^ 63 + 1, 2, 0, 2⟩ ∧
    qua_enqueue true (fun _ => 0) (some ⟨[1, 2], 2, 2 ^ 63 + 1, 2, 0, 2⟩) 3 =
      (DS_OK, some ⟨[1, 2], 2, 2 ^ 63 + 1, 3, 0, 3⟩) ∧
    Reachable 2 (2 ^ 63 + 1) ⟨[1, 2], 2, 2 ^ 63 + 1, 3, 0, 3⟩ ∧
    ¬ (⟨[1, 2], 2, 2 ^ 63 + 1, 3, 0, 3⟩ : QueueArray).IndexInv ∧
    ([1, 2] : List Int)[2]? = none ∧
    qua_enqueue false (fun _ => 0) (some ⟨[1, 2], 2, 2 ^ 63 + 1, 2, 0, 2⟩) 3 =
      (DS_ERR_ALLOC, some ⟨[1, 2], 0, 2 ^ 63 + 1, 2, 0, 2⟩) ∧
    Reachable 2 (2 ^ 63 + 1) ⟨[1, 2], 0, 2 ^ 63 + 1, 2, 0, 2⟩ ∧
    ¬ (⟨[1, 2], 0, 2 ^ 63 + 1, 2, 0, 2⟩ : QueueArray).IndexInv ∧
    Reachable 1 (2 ^ 62 + 1) ⟨[1], 1, 2 ^ 62 + 1, 1, 0, 1⟩ ∧
    qua_enqueue true (fun _ => 0) (some ⟨[1], 1, 2 ^ 62 + 1, 1, 0, 1⟩) 2 =
      (DS_OK, some ⟨[1], 2 ^ 62 + 1, 2 ^ 62 + 1, 2, 0, 2⟩) ∧
    ([1] : List Int)[1]? = none ∧
    Reachable (2 ^ 62 + 1) 2 ⟨[1], 2 ^ 62 + 1, 2, 1, 0, 1⟩ ∧
    qua_enqueue true (fun _ => 0) (some ⟨[1], 2 ^ 62 + 1, 2, 1, 0, 1⟩) 2 =
      (DS_OK, some ⟨[1], 2 ^ 62 + 1, 2, 2, 0, 2⟩) := by
  have hr : Reachable 2 (2 ^ 63 + 1) ⟨[1, 2], 2, 2 ^ 63 + 1, 2, 0, 2⟩ :=
    Reachable.enqueue ⟨[1, 0], 2, 2 ^ 63 + 1, 1, 0, 1⟩ true (fun _ => 0) 2 DS_OK _
      (Reachable.enqueue ⟨[0, 0], 2, 2 ^ 63 + 1, 0, 0, 0⟩ true (fun _ => 0) 1 DS_OK _
        (Reachable.init (fun _ => true) (fun _ => 0) _ (by decide)) (by decide)) (by decide)
  have hr1 : Reachable 1 (2 ^ 62 + 1) ⟨[1], 1, 2 ^ 62 + 1, 1, 0, 1⟩ :=
    Reachable.enqueue ⟨[0], 1, 2 ^ 62 + 1, 0, 0, 0⟩ true (fun _ => 0) 1 DS_OK _
      (Reachable.init (fun _ => true) (fun _ => 0) _ (by decide)) (by decide)
  have hr2 : Reachable (2 ^ 62 + 1) 2 ⟨[1], 2 ^ 62 + 1, 2, 1, 0, 1⟩ :=
    Reachable.enqueue ⟨[0], 2 ^ 62 + 1, 2, 0, 0, 0⟩ true (fun _ => 0) 1 DS_OK _
      (Reachable.init (fun _ => true) (fun _ => 0) _ (by decide)) (by decide)
  refine ⟨hr, by decide, Reachable.enqueue _ true (fun _ => 0) 3 DS_OK _ hr (by decide), ?_,
    rfl, by decide, Reachable.enqueue _ false (fun _ => 0) 3 DS_ERR_ALLOC _ hr (by decide), ?_,
    hr1, by decide, rfl, hr2, by decide⟩
  · intro h
    have := h.2.1
    simp at this
  · intro h
    have := h.2.1
    simp at this

/-- C35, amended: every queue reachable from `qua_init`, with an initial capacity of at
least 1 whose byte count `sizeof(int) * capacity` is below `2 ^ 64` and a growth rate of
at least 2, by `qua_enqueue`, `qua_dequeue` and `qua_pop`, every `qua_enqueue` on a full
queue finding the byte count `sizeof(int) * capacity * growth_rate` below `2 ^ 64`,
satisfies `front <= rear <= capacity` and `length == rear - front`, and its buffer has
`capacity` cells. On such a queue `qua_enqueue`, under the same condition when the queue
is full, either fails in the reallocation and writes nothing, or returns `DS_OK` after
the write `buffer[rear] = value` at an index below the capacity of the buffer at that
moment, where the value is then read back. When the queue is not empty, the index `front`
read by `qua_dequeue` and the index `rear - 1` read by `qua_peek_rear` are below
`capacity`, and both calls return the content of that cell of the buffer. -/
theorem qua_index_invariant (init_size grow_rate : Nat) (hs : 1 ≤ init_size)
    (hb : sizeof_int * init_size < 2 ^ 64) (hg : 2 ≤ grow_rate) (hgb : grow_rate < 2 ^ 64)
    (q : QueueArray) (hr : ReachableFit init_size grow_rate q) :
    (q.front ≤ q.rear ∧ q.rear ≤ q.capacity ∧ q.length = q.rear - q.front) ∧
    q.buffer.length = q.capacity ∧
    ((qua_is_full q = true → q.GrowthFits) →
      ∀ (ok : Bool) (fresh : Nat → Int) (value : Int),
        (∃ q1 : QueueArray,
          qua_enqueue ok fresh (some q) value = (DS_OK, some (qua_enqueue_store q1 value)) ∧
          q1.rear < q1.capacity ∧ q1.buffer.length = q1.capacity ∧
          (qua_enqueue_store q1 value).buffer[q1.rear]? = some value ∧
          (ok = true ∨ q.length ≠ q.capacity)) ∨
        (ok = false ∧ q.length = q.capacity ∧
          qua_enqueue ok fresh (some q) value = (DS_ERR_ALLOC, some q))) ∧
    (qua_is_empty q = false →
      q.front < q.capacity ∧
      (∃ x : Int, q.buffer[q.front]? = some x ∧ (qua_dequeue (some q)).1 = DS_OK ∧
        (qua_dequeue (some q)).2.2 = x) ∧
      1 ≤ q.rear ∧ q.rear - 1 < q.capacity ∧
      (∃ x : Int, q.buffer[q.rear - 1]? = some x ∧ qua_peek_rear (some q) = (DS_OK, x))) := by
  obtain ⟨hi, hgr, hc, hcap⟩ := qua_reachable_inv init_size grow_rate hs hb hg hgb q hr
  have hlt : q.capacity < 2 ^ 64 := by
    unfold sizeof_int at hcap
    omega
  have hi' := hi
  obtain ⟨h1, h2, h3, h4⟩ := hi
  refine ⟨⟨h1, h2, h3⟩, h4, ?_, ?_⟩
  · intro hfit ok fresh value
    rcases qua_enqueue_prepared q hi' (by omega) hc hcap hfit ok fresh value with
      ⟨q1, he, hi1, hr1, _, _, _, _, hcap1, hok⟩ | h
    · have hlt1 : q1.capacity < 2 ^ 64 := by
        unfold sizeof_int at hcap1
        omega
      exact Or.inl ⟨q1, he, hr1, hi1.2.2.2,
        (qua_enqueue_store_spec q1 value hi1 hr1 hlt1).2.2.1, hok⟩
    · exact Or.inr h
  · intro he
    have hl : q.length ≠ 0 := by simpa [qua_is_empty] using he
    have hf : q.front < q.buffer.length := by omega
    have hbl : q.rear - 1 < q.buffer.length := by omega
    have hidx : (q.rear + (2 ^ 64 - 1)) % 2 ^ 64 = q.rear - 1 := by omega
    refine ⟨by omega, ⟨q.buffer[q.front], List.getElem?_eq_getElem hf, ?_, ?_⟩, by omega,
      by omega, ⟨q.buffer[q.rear - 1], List.getElem?_eq_getElem hbl, ?_⟩⟩
    · simp [qua_dequeue, he]
    · simp only [qua_dequeue, he]
      simp [List.getD_eq_getElem?_getD, hf]
    · simp only [qua_peek_rear, he, hidx]
      simp [List.getD_eq_getElem?_getD, hbl]

/-- Witness of C35 (amended): the queue built with initial capacity 2 and growth rate 2
that holds 1 and 2 and is full. -/
theorem qua_index_invariant_witness :
    ReachableFit 2 2 ⟨[1, 2], 2, 2, 2, 0, 2⟩ ∧
    qua_enqueue true (fun _ => 0) (some ⟨[1, 2], 2, 2, 2, 0, 2⟩) 3 =
      (DS_OK, some ⟨[1, 2, 3, 0], 4, 2, 3, 0, 3⟩) ∧
    qua_dequeue (some ⟨[1, 2], 2, 2, 2, 0, 2⟩) = (DS_OK, some ⟨[1, 2], 2, 2, 1, 1, 2⟩, 1) ∧
    qua_peek_rear (some ⟨[1, 2], 2, 2, 2, 0, 2⟩) = (DS_OK, 2) ∧
    ((0 ≤ 2 ∧ 2 ≤ 2 ∧ 2 = 2 - 0) ∧
    [(1 : Int), 2].length = 2 ∧
    ((qua_is_full ⟨[1, 2], 2, 2, 2, 0, 2⟩ = true →
        (⟨[1, 2], 2, 2, 2, 0, 2⟩ : QueueArray).GrowthFits) →
      ∀ (ok : Bool) (fresh : Nat → Int) (value : Int),
        (∃ q1 : QueueArray,
          qua_enqueue ok fresh (some ⟨[1, 2], 2, 2, 2, 0, 2⟩) value =
            (DS_OK, some (qua_enqueue_store q1 value)) ∧
          q1.rear < q1.capacity ∧ q1.buffer.length = q1.capacity ∧
          (qua_enqueue_store q1 value).buffer[q1.rear]? = some value ∧
          (ok = true ∨ 2 ≠ 2)) ∨
        (ok = false ∧ 2 = 2 ∧
          qua_enqueue ok fresh (some ⟨[1, 2], 2, 2, 2, 0, 2⟩) value =
            (DS_ERR_ALLOC, some ⟨[1, 2], 2, 2, 2, 0, 2⟩))) ∧
    (qua_is_empty ⟨[1, 2], 2, 2, 2, 0, 2⟩ = false →
      0 < 2 ∧
      (∃ x : Int, [(1 : Int), 2][0]? = some x ∧
        (qua_dequeue (some ⟨[1, 2], 2, 2, 2, 0, 2⟩)).1 = DS_OK ∧
        (qua_dequeue (some ⟨[1, 2], 2, 2, 2, 0, 2⟩)).2.2 = x) ∧
      1 ≤ 2 ∧ 2 - 1 < 2 ∧
      (∃ x : Int, [(1 : Int), 2][2 - 1]? = some x ∧
        qua_peek_rear (some ⟨[1, 2], 2, 2, 2, 0, 2⟩) = (DS_OK, x)))) ∧
    (⟨[1, 2], 2, 2, 2, 0, 2⟩ : QueueArray).GrowthFits :=
  have hr : ReachableFit 2 2 ⟨[1, 2], 2, 2, 2, 0, 2⟩ :=
    ReachableFit.enqueue ⟨[1, 0], 2, 2, 1, 0, 1⟩ true (fun _ => 0) 2 DS_OK _
      (ReachableFit.enqueue ⟨[0, 0], 2, 2, 0, 0, 0⟩ true (fun _ => 0) 1 DS_OK _
        (ReachableFit.init (fun _ => true) (fun _ => 0) _ (by decide))
        (fun _ => by decide) (by decide))
      (fun _ => by decide) (by decide)
  ⟨hr, by decide, by decide, by decide,
    qua_index_invariant 2 2 (by decide) (by decide) (by decide) (by decide)
      ⟨[1, 2], 2, 2, 2, 0, 2⟩ hr,
    by decide⟩

/-- C34, as stated, fails when a reallocation leaves `size_t`. With an initial capacity
of 2 and a growth rate of `2 ^ 63 + 1`, the full queue built by `qua_init` and
`qua_enqueue` of 1 and of 2 has the contents 1, 2. On the next `qua_enqueue` the product
`capacity * growth_rate` wraps to 2 and `realloc` succeeds on the 8 bytes the buffer
already has: the call returns `DS_OK`, the value 3 is written outside the buffer, and the
contents are still 1, 2 when the claim has 1, 2, 3. With an initial capacity of 1 and a
growth rate of `2 ^ 62 + 1` the product does not wrap but the byte count
`sizeof(int) * capacity` does, to 4: the buffer keeps its one cell and the contents after
`qua_enqueue` of 1 and of 2 are 1. The same happens with the byte count of `qua_init`,
for an initial capacity of `2 ^ 62 + 1`. -/
theorem qua_refines_fifo_counterexample :
    Reachable 2 (2 ^ 63 + 1) ⟨[1, 2], 2, 2 ^ 63 + 1, 2, 0, 2⟩ ∧
    contents ⟨[1, 2], 2, 2 ^ 63 + 1, 2, 0, 2⟩ = [1, 2] ∧
    qua_enqueue true (fun _ => 0) (some ⟨[1, 2], 2, 2 ^ 63 + 1, 2, 0, 2⟩) 3 =
      (DS_OK, some ⟨[1, 2], 2, 2 ^ 63 + 1, 3, 0, 3⟩) ∧
    contents ⟨[1, 2], 2, 2 ^ 63 + 1, 3, 0, 3⟩ = [1, 2] ∧
    contents ⟨[1, 2], 2, 2 ^ 63 + 1, 3, 0, 3⟩ ≠
      contents ⟨[1, 2], 2, 2 ^ 63 + 1, 2, 0, 2⟩ ++ [3] ∧
    Reachable 1 (2 ^ 62 + 1) ⟨[1], 1, 2 ^ 62 + 1, 1, 0, 1⟩ ∧
    contents ⟨[1], 1, 2 ^ 62 + 1, 1, 0, 1⟩ = [1] ∧
    qua_enqueue true (fun _ => 0) (some ⟨[1], 1, 2 ^ 62 + 1, 1, 0, 1⟩) 2 =
      (DS_OK, some ⟨[1], 2 ^ 62 + 1, 2 ^ 62 + 1, 2, 0, 2⟩) ∧
    contents ⟨[1], 2 ^ 62 + 1, 2 ^ 62 + 1, 2, 0, 2⟩ = [1] ∧
    Reachable (2 ^ 62 + 1) 2 ⟨[1], 2 ^ 62 + 1, 2, 1, 0, 1⟩ ∧
    contents ⟨[1], 2 ^ 62 + 1, 2, 1, 0, 1⟩ = [1] ∧
    qua_enqueue true (fun _ => 0) (some ⟨[1], 2 ^ 62 + 1, 2, 1, 0, 1⟩) 2 =
      (DS_OK, some ⟨[1], 2 ^ 62 + 1, 2, 2, 0, 2⟩) ∧
    contents ⟨[1], 2 ^ 62 + 1, 2, 2, 0, 2⟩ = [1] := by
  have hr : Reachable 2 (2 ^ 63 + 1) ⟨[1, 2], 2, 2 ^ 63 + 1, 2, 0, 2⟩ :=
    Reachable.enqueue ⟨[1, 0], 2, 2 ^ 63 + 1, 1, 0, 1⟩ true (fun _ => 0) 2 DS_OK _
      (Reachable.enqueue ⟨[0, 0], 2, 2 ^ 63 + 1, 0, 0, 0⟩ true (fun _ => 0) 1 DS_OK _
        (Reachable.init (fun _ => true) (fun _ => 0) _ (by decide)) (by decide)) (by decide)
  have hr1 : Reachable 1 (2 ^ 62 + 1) ⟨[1], 1, 2 ^ 62 + 1, 1, 0, 1⟩ :=
    Reachable.enqueue ⟨[0], 1, 2 ^ 62 + 1, 0, 0, 0⟩ true (fun _ => 0) 1 DS_OK _
      (Reachable.init (fun _ => true) (fun _ => 0) _ (by decide)) (by decide)
  have hr2 : Reachable (2 ^ 62 + 1) 2 ⟨[1], 2 ^ 62 + 1, 2, 1, 0, 1⟩ :=
    Reachable.enqueue ⟨[0], 2 ^ 62 + 1, 2, 0, 0, 0⟩ true (fun _ => 0) 1 DS_OK _
      (Reachable.init (fun _ => true) (fun _ => 0) _ (by decide)) (by decide)
  exact ⟨hr, by decide, by decide, by decide, by decide, hr1, by decide, by decide, by decide,
    hr2, by decide, by decide, by decide⟩

/-- C34, amended: taking the contents of a queue to be `buffer[front..rear)`, for every
queue reachable from `qua_init`, with an initial capacity of at least 1 whose byte count
`sizeof(int) * capacity` is below `2 ^ 64` and a growth rate of at least 2, by
`qua_enqueue`, `qua_dequeue` and `qua_pop`, every `qua_enqueue` on a full queue finding
the byte count `sizeof(int) * capacity * growth_rate` below `2 ^ 64`: the contents have
`length` elements; `qua_enqueue`, under the same condition when the queue is full, either
returns `DS_OK` with the value appended at the end of the contents, whichever of its
three branches is taken, and does so whenever `realloc` succeeds, or fails in the
reallocation and leaves the queue as it was; on contents that are not empty `qua_dequeue`
returns `DS_OK` with their first element and leaves the rest, and `qua_pop` leaves the
rest; on empty contents both return `DS_ERR_INVALID_OPERATION`. Hence any sequence of
calls during which no reallocation leaves `size_t` hands out the values a FIFO list hands
out and ends with its contents, and the values enqueued come out of `qua_dequeue` behind
those already held, in the order they went in. -/
theorem qua_refines_fifo (init_size grow_rate : Nat) (hs : 1 ≤ init_size)
    (hb : sizeof_int * init_size < 2 ^ 64) (hg : 2 ≤ grow_rate) (hgb : grow_rate < 2 ^ 64)
    (q : QueueArray) (hr : ReachableFit init_size grow_rate q) :
    (contents q).length = q.length ∧
    ((qua_is_full q = true → q.GrowthFits) →
      ∀ (ok : Bool) (fresh : Nat → Int) (value : Int),
        (∃ q' : QueueArray, qua_enqueue ok fresh (some q) value = (DS_OK, some q') ∧
          contents q' = contents q ++ [value] ∧ (ok = true ∨ q.length ≠ q.capacity)) ∨
        (ok = false ∧ q.length = q.capacity ∧
          qua_enqueue ok fresh (some q) value = (DS_ERR_ALLOC, some q))) ∧
    (∀ (x : Int) (rest : List Int), contents q = x :: rest →
      (∃ q' : QueueArray, qua_dequeue (some q) = (DS_OK, some q', x) ∧ contents q' = rest) ∧
      (∃ q' : QueueArray, qua_pop (some q) = (DS_OK, some q') ∧ contents q' = rest)) ∧
    (contents q = [] →
      qua_dequeue (some q) = (DS_ERR_INVALID_OPERATION, some q, 0) ∧
      qua_pop (some q) = (DS_ERR_INVALID_OPERATION, some q)) ∧
    (∀ (calls : List QueueCall) (out : List Int), run_fits calls (some q) →
      ∃ q' : QueueArray,
        run_calls calls (some q) out = (some q', (fifo_calls calls (contents q) out).2) ∧
        contents q' = (fifo_calls calls (contents q) out).1) ∧
    (∀ (fresh : Nat → Int) (values : List Int),
      run_fits (values.map (QueueCall.enqueue fresh) ++
          List.replicate (q.length + values.length) QueueCall.dequeue) (some q) →
      ∃ q' : QueueArray,
        run_calls (values.map (QueueCall.enqueue fresh) ++
            List.replicate (q.length + values.length) QueueCall.dequeue) (some q) [] =
          (some q', contents q ++ values) ∧
        contents q' = []) := by
  obtain ⟨hi, hgr, hc, hcap⟩ := qua_reachable_inv init_size grow_rate hs hb hg hgb q hr
  have hlen := qua_contents_length q hi
  refine ⟨hlen, ?_, ?_, qua_dequeue_empty q hi, ?_, ?_⟩
  · intro hfit ok fresh value
    rcases qua_enqueue_prepared q hi (by omega) hc hcap hfit ok fresh value with
      ⟨q1, he, hi1, hr1, hc1, _, _, _, hcap1, hok⟩ | h
    · refine Or.inl ⟨qua_enqueue_store q1 value, he, ?_, hok⟩
      have hlt1 : q1.capacity < 2 ^ 64 := by
        unfold sizeof_int at hcap1
        omega
      rw [(qua_enqueue_store_spec q1 value hi1 hr1 hlt1).2.1, hc1]
    · exact Or.inr h
  · intro x rest hx
    obtain ⟨hd, hp, hc, _⟩ :=
      qua_dequeue_first init_size grow_rate hs hb hg hgb q hr x rest hx
    exact ⟨⟨_, hd, hc⟩, ⟨_, hp, hc⟩⟩
  · intro calls out hfits
    obtain ⟨q', h1, h2, _⟩ :=
      qua_run_calls_sim init_size grow_rate hs hb hg hgb calls q out hr hfits
    exact ⟨q', h1, h2⟩
  · intro fresh values hfits
    obtain ⟨q', h1, h2, _⟩ := qua_run_calls_sim init_size grow_rate hs hb hg hgb
      (values.map (QueueCall.enqueue fresh) ++
        List.replicate (q.length + values.length) QueueCall.dequeue) q [] hr hfits
    have hf : fifo_calls (values.map (QueueCall.enqueue fresh) ++
        List.replicate (q.length + values.length) QueueCall.dequeue) (contents q) [] =
        ([], contents q ++ values) := by
      rw [fifo_calls_enqueues]
      have hl : q.length + values.length = (contents q ++ values).length := by
        rw [List.length_append, hlen]
      rw [hl, fifo_calls_dequeues]
      simp
    rw [hf] at h1 h2
    exact ⟨q', h1, h2⟩

/-- Witness of C34 (amended): the queue built with initial capacity 2 and growth rate 2
by `qua_enqueue` of 1 and of 2 and one `qua_dequeue`: it holds 2 in the last cell of its
buffer, so that the next `qua_enqueue` goes through the shift, and the one after that
through the reallocation. -/
theorem qua_refines_fifo_witness :
    ReachableFit 2 2 ⟨[1, 2], 2, 2, 1, 1, 2⟩ ∧
    contents ⟨[1, 2], 2, 2, 1, 1, 2⟩ = [2] ∧
    qua_enqueue true (fun _ => 0) (some ⟨[1, 2], 2, 2, 1, 1, 2⟩) 3 =
      (DS_OK, some ⟨[2, 3], 2, 2, 2, 0, 2⟩) ∧
    contents ⟨[2, 3], 2, 2, 2, 0, 2⟩ = [2, 3] ∧
    qua_dequeue (some ⟨[2, 3], 2, 2, 2, 0, 2⟩) = (DS_OK, some ⟨[2, 3], 2, 2, 1, 1, 2⟩, 2) ∧
    run_fits [QueueCall.enqueue (fun _ => 0) 3, QueueCall.enqueue (fun _ => 0) 4,
      QueueCall.dequeue, QueueCall.dequeue, QueueCall.dequeue]
      (some ⟨[1, 2], 2, 2, 1, 1, 2⟩) ∧
    run_calls [QueueCall.enqueue (fun _ => 0) 3, QueueCall.enqueue (fun _ => 0) 4,
      QueueCall.dequeue, QueueCall.dequeue, QueueCall.dequeue]
      (some ⟨[1, 2], 2, 2, 1, 1, 2⟩) [] = (some ⟨[2, 3, 4, 0], 4, 2, 0, 0, 0⟩, [2, 3, 4]) ∧
    ((contents ⟨[1, 2], 2, 2, 1, 1, 2⟩).length = 1 ∧
    ((qua_is_full ⟨[1, 2], 2, 2, 1, 1, 2⟩ = true →
        (⟨[1, 2], 2, 2, 1, 1, 2⟩ : QueueArray).GrowthFits) →
      ∀ (ok : Bool) (fresh : Nat → Int) (value : Int),
        (∃ q' : QueueArray,
          qua_enqueue ok fresh (some ⟨[1, 2], 2, 2, 1, 1, 2⟩) value = (DS_OK, some q') ∧
          contents q' = contents ⟨[1, 2], 2, 2, 1, 1, 2⟩ ++ [value] ∧
          (ok = true ∨ 1 ≠ 2)) ∨
        (ok = false ∧ 1 = 2 ∧
          qua_enqueue ok fresh (some ⟨[1, 2], 2, 2, 1, 1, 2⟩) value =
            (DS_ERR_ALLOC, some ⟨[1, 2], 2, 2, 1, 1, 2⟩))) ∧
    (∀ (x : Int) (rest : List Int), contents ⟨[1, 2], 2, 2, 1, 1, 2⟩ = x :: rest →
      (∃ q' : QueueArray,
        qua_dequeue (some ⟨[1, 2], 2, 2, 1, 1, 2⟩) = (DS_OK, some q', x) ∧
        contents q' = rest) ∧
      (∃ q' : QueueArray,
        qua_pop (some ⟨[1, 2], 2, 2, 1, 1, 2⟩) = (DS_OK, some q') ∧ contents q' = rest)) ∧
    (contents ⟨[1, 2], 2, 2, 1, 1, 2⟩ = [] →
      qua_dequeue (some ⟨[1, 2], 2, 2, 1, 1, 2⟩) =
        (DS_ERR_INVALID_OPERATION, some ⟨[1, 2], 2, 2, 1, 1, 2⟩, 0) ∧
      qua_pop (some ⟨[1, 2], 2, 2, 1, 1, 2⟩) =
        (DS_ERR_INVALID_OPERATION, some ⟨[1, 2], 2, 2, 1, 1, 2⟩)) ∧
    (∀ (calls : List QueueCall) (out : List Int),
      run_fits calls (some ⟨[1, 2], 2, 2, 1, 1, 2⟩) →
      ∃ q' : QueueArray,
        run_calls calls (some ⟨[1, 2], 2, 2, 1, 1, 2⟩) out =
          (some q', (fifo_calls calls (contents ⟨[1, 2], 2, 2, 1, 1, 2⟩) out).2) ∧
        contents q' = (fifo_calls calls (contents ⟨[1, 2], 2, 2, 1, 1, 2⟩) out).1) ∧
    (∀ (fresh : Nat → Int) (values : List Int),
      run_fits (values.map (QueueCall.enqueue fresh) ++
          List.replicate (1 + values.length) QueueCall.dequeue)
          (some ⟨[1, 2], 2, 2, 1, 1, 2⟩) →
      ∃ q' : QueueArray,
        run_calls (values.map (QueueCall.enqueue fresh) ++
            List.replicate (1 + values.length) QueueCall.dequeue)
            (some ⟨[1, 2], 2, 2, 1, 1, 2⟩) [] =
          (some q', contents ⟨[1, 2], 2, 2, 1, 1, 2⟩ ++ values) ∧
        contents q' = [])) :=
  have hr : ReachableFit 2 2 ⟨[1, 2], 2, 2, 1, 1, 2⟩ :=
    ReachableFit.dequeue ⟨[1, 2], 2, 2, 2, 0, 2⟩ DS_OK _ 1
      (ReachableFit.enqueue ⟨[1, 0], 2, 2, 1, 0, 1⟩ true (fun _ => 0) 2 DS_OK _
        (ReachableFit.enqueue ⟨[0, 0], 2, 2, 0, 0, 0⟩ true (fun _ => 0) 1 DS_OK _
          (ReachableFit.init (fun _ => true) (fun _ => 0) _ (by decide))
          (fun _ => by decide) (by decide))
        (fun _ => by decide) (by decide)) (by decide)
  ⟨hr, by decide, by decide, by decide, by decide,
    by simp [run_fits, qua_enqueue, qua_is_full, qua_enqueue_store, qua_dequeue, qua_advance,
      qua_is_empty, qua_realloc, QueueArray.GrowthFits, sizeof_int],
    by decide,
    qua_refines_fifo 2 2 (by decide) (by decide) (by decide) (by decide)
      ⟨[1, 2], 2, 2, 1, 1, 2⟩ hr⟩

end QueueArrayC

namespace PriorityQueueC

open HashTableC HashTableC.Status

/-! ## Sorted insertion -/

theorem prq_enqueue_walk_split (node : PriorityQueueNode) (l : List PriorityQueueNode) :
    ∃ pre post : List PriorityQueueNode, l = pre ++ post ∧
      prq_enqueue_walk node l = pre ++ node :: post ∧
      (∀ x ∈ pre, x.priority ≥ node.priority) ∧
      (∀ x, post.head? = some x → x.priority < node.priority) := by
  induction l with
  | nil => exact ⟨[], [], rfl, rfl, by simp, by simp⟩
  | cons curr prev ih =>
    by_cases hc : curr.priority ≥ node.priority
    · obtain ⟨pre, post, hl, hw, hpre, hpost⟩ := ih
      refine ⟨curr :: pre, post, by rw [hl]; rfl, by simp [prq_enqueue_walk, hc, hw], ?_, hpost⟩
      intro x hx
      rcases List.mem_cons.1 hx with h | h
      · rw [h]; exact hc
      · exact hpre x h
    · refine ⟨[], curr :: prev, rfl, by simp [prq_enqueue_walk, hc], by simp, ?_⟩
      intro x hx
      simp at hx
      rw [← hx]
      omega

theorem prq_enqueue_walk_perm (node : PriorityQueueNode) (l : List PriorityQueueNode) :
    (prq_enqueue_walk node l).Perm (node :: l) := by
  obtain ⟨pre, post, hl, hw, _, _⟩ := prq_enqueue_walk_split node l
  rw [hw, hl]
  exact List.perm_middle

theorem prq_enqueue_walk_sorted (node : PriorityQueueNode) (l : List PriorityQueueNode)
    (hs : l.Pairwise (fun a b => a.priority ≥ b.priority)) :
    (prq_enqueue_walk node l).Pairwise (fun a b => a.priority ≥ b.priority) := by
  induction l with
  | nil => simp [prq_enqueue_walk]
  | cons curr prev ih =>
    rw [List.pairwise_cons] at hs
    by_cases hc : curr.priority ≥ node.priority
    · simp only [prq_enqueue_walk, hc, if_true]
      rw [List.pairwise_cons]
      refine ⟨?_, ih hs.2⟩
      intro x hx
      rcases List.mem_cons.1 ((prq_enqueue_walk_perm node prev).subset hx) with h | h
      · rw [h]; exact hc
      · exact hs.1 x h
    · simp only [prq_enqueue_walk, hc, if_false]
      rw [List.pairwise_cons, List.pairwise_cons]
      refine ⟨?_, hs.1, hs.2⟩
      intro x hx
      rcases List.mem_cons.1 hx with h | h
      · rw [h]; omega
      · have := hs.1 x h
        omega

/-- The invariant of the reachable queues: `length` counts the nodes, `rear` is `NULL`
exactly on the empty chain, and the priorities do not increase from `front` on. -/
theorem prq_reachable_inv (q : PriorityQueue) (hr : Reachable q) :
    q.length = q.front.length ∧ (q.rear = RearPtr.null ↔ q.front = []) ∧
      q.front.Pairwise (fun a b => a.priority ≥ b.priority) := by
  have hlink : ∀ (q : PriorityQueue) (n : PriorityQueueNode),
      (q.length = q.front.length ∧ (q.rear = RearPtr.null ↔ q.front = []) ∧
        q.front.Pairwise (fun a b => a.priority ≥ b.priority)) →
      ((prq_link q n).length = (prq_link q n).front.length ∧
        ((prq_link q n).rear = RearPtr.null ↔ (prq_link q n).front = []) ∧
        (prq_link q n).front.Pairwise (fun a b => a.priority ≥ b.priority)) := by
    intro q n ⟨hl, hn, hs⟩
    by_cases he : prq_is_empty q = true
    · have h0 : q.length = 0 := by
        simp only [prq_is_empty, Bool.or_eq_true, decide_eq_true_eq] at he
        rcases he with h | h
        · exact h
        · rw [hl, hn.1 h]; rfl
      simp [prq_link, he, h0]
    · have hlen := (prq_enqueue_walk_perm n q.front).length_eq
      have hrn : q.rear ≠ RearPtr.null := by
        intro h
        apply he
        simp [prq_is_empty, h]
      have hne : prq_enqueue_walk n q.front ≠ [] := by
        intro h
        rw [h] at hlen
        simp at hlen
      refine ⟨by simp [prq_link, he, hlen, hl], ?_, by
        simpa [prq_link, he] using prq_enqueue_walk_sorted n q.front hs⟩
      simp only [prq_link, he]
      constructor
      · intro h
        exfalso
        cases hq : q.rear with
        | null => exact hrn hq
        | node i =>
          rw [hq] at h
          simp only [RearPtr.shift] at h
          by_cases hp : prq_enqueue_index n q.front ≤ i <;> simp [hp] at h
        | dangling => rw [hq] at h; simp [RearPtr.shift] at h
      · intro h
        exact absurd h (by simpa using hne)
  have hdeq : ∀ (q : PriorityQueue) (n : PriorityQueueNode) (prev : List PriorityQueueNode),
      q.front = n :: prev →
      (q.length = q.front.length ∧ (q.rear = RearPtr.null ↔ q.front = []) ∧
        q.front.Pairwise (fun a b => a.priority ≥ b.priority)) →
      (q.length - 1 = prev.length ∧
        ((if q.length - 1 = 0 then RearPtr.null else q.rear.unshift) = RearPtr.null ↔
          prev = []) ∧
        prev.Pairwise (fun a b => a.priority ≥ b.priority)) := by
    intro q n prev hf ⟨hl, hn, hs⟩
    rw [hf] at hl hs
    have hl1 : q.length - 1 = prev.length := by simp at hl; omega
    refine ⟨hl1, ?_, (List.pairwise_cons.1 hs).2⟩
    by_cases h0 : q.length - 1 = 0
    · simp only [h0, if_true, true_iff]
      rw [h0] at hl1
      exact List.length_eq_zero.1 hl1.symm
    · simp only [h0, if_false]
      have hpne : prev ≠ [] := by
        intro h
        rw [h] at hl1
        exact h0 hl1
      have hrn : q.rear ≠ RearPtr.null := by
        intro h
        have := hn.1 h
        rw [hf] at this
        simp at this
      constructor
      · intro h
        exfalso
        cases hq : q.rear with
        | null => exact hrn hq
        | node i =>
          rw [hq] at h
          cases i <;> simp [RearPtr.unshift] at h
        | dangling => rw [hq] at h; simp [RearPtr.unshift] at h
      · intro h
        exact absurd h hpne
  induction hr with
  | init q h =>
    simp [prq_init_queue] at h
    rw [← h]
    simp
  | enqueue q alloc value priority st q' _ h ih =>
    cases alloc with
    | false =>
      simp [prq_enqueue, prq_make_node] at h
      rw [← h.2]
      exact ih
    | true =>
      simp [prq_enqueue, prq_make_node] at h
      rw [← h.2]
      exact hlink q _ ih
  | enqueue_node q node st q' _ h ih =>
    cases node with
    | none => simp [prq_enqueue_node] at h
    | some n =>
      simp [prq_enqueue_node] at h
      rw [← h.2]
      exact hlink q n ih
  | dequeue q st q' _ h ih =>
    by_cases he : prq_is_empty q = true
    · simp [prq_dequeue, he] at h
      rw [← h.2]
      exact ih
    · cases hf : q.front with
      | nil => simp [prq_dequeue, he, hf] at h
      | cons n prev =>
        simp [prq_dequeue, he, hf] at h
        rw [← h.2]
        exact hdeq q n prev hf ih
  | dequeue_node q result node st q' _ h ih =>
    by_cases he : prq_is_empty q = true
    · simp [prq_dequeue_node, he] at h
      rw [← h.2.1]
      exact ih
    · cases hf : q.front with
      | nil => simp [prq_dequeue_node, he, hf] at h
      | cons n prev =>
        simp [prq_dequeue_node, he, hf] at h
        rw [← h.2.1]
        exact hdeq q n prev hf ih

/-- C25: in every queue reachable from `prq_init_queue` by `prq_enqueue`,
`prq_enqueue_node`, `prq_dequeue` and `prq_dequeue_node`, the priorities read from
`front` along the `prev` links do not increase; and `prq_enqueue` of a value and
priority, like `prq_enqueue_node` of a node holding them, returns `DS_OK` and leaves the
old sequence with the new element inserted at one place: the same elements plus that one,
`length + 1`, again in non-increasing order of priority. -/
theorem prq_sorted_insertion (q : PriorityQueue) (hr : Reachable q) (value priority : Int) :
    q.front.Pairwise (fun a b => a.priority ≥ b.priority) ∧
    ∃ q' : PriorityQueue,
      prq_enqueue true (some q) value priority = (DS_OK, some q') ∧
      prq_enqueue_node (some q) (some ⟨value, priority⟩) = some (DS_OK, some q') ∧
      (∃ pre post : List PriorityQueueNode,
        q.front = pre ++ post ∧ q'.front = pre ++ ⟨value, priority⟩ :: post) ∧
      q'.front.Perm (⟨value, priority⟩ :: q.front) ∧
      q'.length = q.length + 1 ∧ q'.length = q'.front.length ∧
      q'.front.Pairwise (fun a b => a.priority ≥ b.priority) := by
  obtain ⟨hl, hn, hs⟩ := prq_reachable_inv q hr
  have hr' : Reachable (prq_link q ⟨value, priority⟩) :=
    Reachable.enqueue q true value priority DS_OK _ hr (by simp [prq_enqueue, prq_make_node])
  obtain ⟨hl', _, hs'⟩ := prq_reachable_inv _ hr'
  refine ⟨hs, prq_link q ⟨value, priority⟩, by simp [prq_enqueue, prq_make_node],
    by simp [prq_enqueue_node], ?_, ?_, ?_, hl', hs'⟩
  · by_cases he : prq_is_empty q = true
    · have hf : q.front = [] := by
        simp only [prq_is_empty, Bool.or_eq_true, decide_eq_true_eq] at he
        rcases he with h | h
        · rw [h] at hl
          exact List.length_eq_zero.1 hl.symm
        · exact hn.1 h
      exact ⟨[], [], by simp [hf], by simp [prq_link, he]⟩
    · obtain ⟨pre, post, h1, h2, _, _⟩ := prq_enqueue_walk_split ⟨value, priority⟩ q.front
      exact ⟨pre, post, h1, by simp [prq_link, he, h2]⟩
  · by_cases he : prq_is_empty q = true
    · have hf : q.front = [] := by
        simp only [prq_is_empty, Bool.or_eq_true, decide_eq_true_eq] at he
        rcases he with h | h
        · rw [h] at hl
          exact List.length_eq_zero.1 hl.symm
        · exact hn.1 h
      simp [prq_link, he, hf]
    · simpa [prq_link, he] using prq_enqueue_walk_perm ⟨value, priority⟩ q.front
  · by_cases he : prq_is_empty q = true <;> simp [prq_link, he]

/-- Witness of C25: the queue holding (1, 5) and (2, 3) takes (3, 5) between them. -/
theorem prq_sorted_insertion_witness :
    Reachable ⟨[⟨1, 5⟩, ⟨2, 3⟩], RearPtr.node 0, 2⟩ ∧
      prq_enqueue true (some ⟨[⟨1, 5⟩, ⟨2, 3⟩], RearPtr.node 0, 2⟩) 3 5 =
        (DS_OK, some ⟨[⟨1, 5⟩, ⟨3, 5⟩, ⟨2, 3⟩], RearPtr.node 0, 3⟩) ∧
      ∃ q' : PriorityQueue,
        prq_enqueue true (some ⟨[⟨1, 5⟩, ⟨2, 3⟩], RearPtr.node 0, 2⟩) 3 5 = (DS_OK, some q') ∧
        prq_enqueue_node (some ⟨[⟨1, 5⟩, ⟨2, 3⟩], RearPtr.node 0, 2⟩) (some ⟨3, 5⟩) =
          some (DS_OK, some q') ∧
        (∃ pre post : List PriorityQueueNode,
          [(⟨1, 5⟩ : PriorityQueueNode), ⟨2, 3⟩] = pre ++ post ∧
            q'.front = pre ++ ⟨3, 5⟩ :: post) ∧
        q'.front.Perm [⟨3, 5⟩, ⟨1, 5⟩, ⟨2, 3⟩] ∧
        q'.length = 2 + 1 ∧ q'.length = q'.front.length ∧
        q'.front.Pairwise (fun a b => a.priority ≥ b.priority) :=
  have hr : Reachable ⟨[⟨1, 5⟩, ⟨2, 3⟩], RearPtr.node 0, 2⟩ :=
    Reachable.enqueue ⟨[⟨1, 5⟩], RearPtr.node 0, 1⟩ true 2 3 DS_OK _
      (Reachable.enqueue ⟨[], RearPtr.null, 0⟩ true 1 5 DS_OK _
        (Reachable.init _ rfl) rfl) rfl
  ⟨hr, by decide, (prq_sorted_insertion _ hr 3 5).2⟩

/-! ## Front and rear of the queue -/

theorem prq_is_empty_iff (q : PriorityQueue) (hr : Reachable q) :
    prq_is_empty q = true ↔ q.front = [] := by
  obtain ⟨hl, hn, _⟩ := prq_reachable_inv q hr
  simp only [prq_is_empty, Bool.or_eq_true, decide_eq_true_eq]
  constructor
  · intro h
    rcases h with h | h
    · rw [h] at hl
      exact List.length_eq_zero.1 hl.symm
    · exact hn.1 h
  · intro h
    exact Or.inr (hn.2 h)

/-- C32: for every queue reachable from `prq_init_queue` by the enqueue and dequeue
operations, `prq_is_empty` holds exactly when no node is linked. On a queue that is not
empty `prq_peek_front` returns `DS_OK` with the data of the node at `front`, whose
priority is greater than or equal to the priority of every node of the queue, and
`prq_dequeue` returns `DS_OK` and leaves the chain behind that node, in its order, with
`length - 1`. On an empty queue both return `DS_ERR_INVALID_OPERATION` and change
nothing. -/
theorem prq_front_is_highest (q : PriorityQueue) (hr : Reachable q) (result : Int) :
    (prq_is_empty q = true ↔ q.front = []) ∧
    (prq_is_empty q = false →
      ∃ (node : PriorityQueueNode) (rest : List PriorityQueueNode) (q' : PriorityQueue),
        q.front = node :: rest ∧
        prq_peek_front (some q) result = some (DS_OK, node.data) ∧
        (∀ x ∈ q.front, node.priority ≥ x.priority) ∧
        prq_dequeue (some q) = some (DS_OK, some q') ∧
        q'.front = rest ∧ q'.length = q.length - 1 ∧ q'.length = rest.length) ∧
    (prq_is_empty q = true →
      prq_peek_front (some q) result = some (DS_ERR_INVALID_OPERATION, result) ∧
      prq_dequeue (some q) = some (DS_ERR_INVALID_OPERATION, some q)) := by
  obtain ⟨hl, _, hs⟩ := prq_reachable_inv q hr
  have hiff := prq_is_empty_iff q hr
  refine ⟨hiff, ?_, ?_⟩
  · intro he
    cases hf : q.front with
    | nil =>
      rw [hiff.2 hf] at he
      exact absurd he (by decide)
    | cons node rest =>
      rw [hf] at hs hl
      refine ⟨node, rest,
        ⟨rest, if q.length - 1 = 0 then RearPtr.null else q.rear.unshift, q.length - 1⟩,
        rfl, by simp [prq_peek_front, he, hf], ?_,
        by simp [prq_dequeue, he, hf], rfl, rfl, ?_⟩
      · intro x hx
        rcases List.mem_cons.1 hx with h | h
        · rw [h]
        · exact (List.pairwise_cons.1 hs).1 x h
      · show q.length - 1 = rest.length
        simp at hl
        omega
  · intro he
    exact ⟨by simp [prq_peek_front, he], by simp [prq_dequeue, he]⟩

/-- Witness of C32: the queue holding (1, 5) and (2, 3), and the empty queue. -/
theorem prq_front_is_highest_witness :
    Reachable ⟨[⟨1, 5⟩, ⟨2, 3⟩], RearPtr.node 0, 2⟩ ∧
    prq_peek_front (some ⟨[⟨1, 5⟩, ⟨2, 3⟩], RearPtr.node 0, 2⟩) 0 = some (DS_OK, 1) ∧
    prq_dequeue (some ⟨[⟨1, 5⟩, ⟨2, 3⟩], RearPtr.node 0, 2⟩) =
      some (DS_OK, some ⟨[⟨2, 3⟩], RearPtr.dangling, 1⟩) ∧
    (prq_is_empty ⟨[⟨1, 5⟩, ⟨2, 3⟩], RearPtr.node 0, 2⟩ = false →
      ∃ (node : PriorityQueueNode) (rest : List PriorityQueueNode) (q' : PriorityQueue),
        [(⟨1, 5⟩ : PriorityQueueNode), ⟨2, 3⟩] = node :: rest ∧
        prq_peek_front (some ⟨[⟨1, 5⟩, ⟨2, 3⟩], RearPtr.node 0, 2⟩) 0 =
          some (DS_OK, node.data) ∧
        (∀ x ∈ [(⟨1, 5⟩ : PriorityQueueNode), ⟨2, 3⟩], node.priority ≥ x.priority) ∧
        prq_dequeue (some ⟨[⟨1, 5⟩, ⟨2, 3⟩], RearPtr.node 0, 2⟩) = some (DS_OK, some q') ∧
        q'.front = rest ∧ q'.length = 2 - 1 ∧ q'.length = rest.length) ∧
    Reachable ⟨[], RearPtr.null, 0⟩ ∧
    (prq_is_empty ⟨[], RearPtr.null, 0⟩ = true →
      prq_peek_front (some ⟨[], RearPtr.null, 0⟩) 7 = some (DS_ERR_INVALID_OPERATION, 7) ∧
      prq_dequeue (some ⟨[], RearPtr.null, 0⟩) =
        some (DS_ERR_INVALID_OPERATION, some ⟨[], RearPtr.null, 0⟩)) :=
  have h0 : Reachable ⟨[], RearPtr.null, 0⟩ := Reachable.init _ rfl
  have hr : Reachable ⟨[⟨1, 5⟩, ⟨2, 3⟩], RearPtr.node 0, 2⟩ :=
    Reachable.enqueue ⟨[⟨1, 5⟩], RearPtr.node 0, 1⟩ true 2 3 DS_OK _
      (Reachable.enqueue ⟨[], RearPtr.null, 0⟩ true 1 5 DS_OK _ h0 rfl) rfl
  ⟨hr, by decide, by decide, (prq_front_is_highest _ hr 0).2.1, h0,
    (prq_front_is_highest _ h0 7).2.2⟩

/-- C33 fails after two calls of `prq_enqueue`: the second node, of lower priority, is
linked behind the first and `rear` is not moved to it. On the queue built by
`prq_init_queue`, `prq_enqueue` of (1, 5) and `prq_enqueue` of (2, 3), `rear` is the node
at `front` where the last node of the chain is the one holding 2, and `prq_peek_rear`
returns `DS_OK` with 1, the data of the node of highest priority. After `prq_dequeue`
has freed that node, `rear` still points to it and the read of `prq_peek_rear` has no
result. -/
theorem prq_rear_invariant_fails :
    prq_init_queue true = (DS_OK, some ⟨[], RearPtr.null, 0⟩) ∧
    prq_enqueue true (some ⟨[], RearPtr.null, 0⟩) 1 5 =
      (DS_OK, some ⟨[⟨1, 5⟩], RearPtr.node 0, 1⟩) ∧
    prq_enqueue true (some ⟨[⟨1, 5⟩], RearPtr.node 0, 1⟩) 2 3 =
      (DS_OK, some ⟨[⟨1, 5⟩, ⟨2, 3⟩], RearPtr.node 0, 2⟩) ∧
    [(⟨1, 5⟩ : PriorityQueueNode), ⟨2, 3⟩].getLast? = some ⟨2, 3⟩ ∧
    [(⟨1, 5⟩ : PriorityQueueNode), ⟨2, 3⟩][0]? = some ⟨1, 5⟩ ∧
    prq_peek_rear (some ⟨[⟨1, 5⟩, ⟨2, 3⟩], RearPtr.node 0, 2⟩) 0 = some (DS_OK, 1) ∧
    prq_dequeue (some ⟨[⟨1, 5⟩, ⟨2, 3⟩], RearPtr.node 0, 2⟩) =
      some (DS_OK, some ⟨[⟨2, 3⟩], RearPtr.dangling, 1⟩) ∧
    prq_peek_rear (some ⟨[⟨2, 3⟩], RearPtr.dangling, 1⟩) 0 = none :=
  ⟨rfl, rfl, rfl, rfl, rfl, rfl, rfl, rfl⟩

end PriorityQueueC

namespace HashSetC

open HashTableC HashTableC.Status

/-! ## Probing with the add-fixed-constant rehash -/

/-- Why the constant of the rehash matters on 5 buckets: with a constant that is a
multiple of 5, here 5 itself, every probe of `"f"` falls into bucket 0, which holds `"a"`,
and the five probes of the insertion do not reach every bucket. -/
theorem set_probing_same_bucket :
    set_init_table true 5 set_hash_string_djb2 (set_rehash_rj 5) =
        (SetStatus.Ok,
          some ⟨[none, none, none, none, none], 0, 5, set_hash_string_djb2, set_rehash_rj 5⟩) ∧
      (set_hash_string_djb2 (cstr "a")).2 % 5 = (set_hash_string_djb2 (cstr "f")).2 % 5 ∧
      (set_hash_string_djb2 (cstr "a")).2 ≠ (set_hash_string_djb2 (cstr "f")).2 ∧
      set_insert ⟨[none, none, none, none, none], 0, 5, set_hash_string_djb2, set_rehash_rj 5⟩
          (cstr "a") =
        (SetStatus.Ok, ⟨[some ⟨cstr "a", 177670⟩, none, none, none, none], 1, 5,
          set_hash_string_djb2, set_rehash_rj 5⟩) ∧
      (set_insert ⟨[some ⟨cstr "a", 177670⟩, none, none, none, none], 1, 5,
          set_hash_string_djb2, set_rehash_rj 5⟩ (cstr "f")).1 = SetStatus.TableFullError :=
  ⟨rfl, by decide, by decide, rfl, by decide⟩

end HashSetC
